import Mathlib

/-!
# Verification of the `js-maze-astar` grid pathfinder

This file embeds the A* maze pathfinder of the repository (the `part_001`
variant built on `MySet`/`MyWeakMap`, and the `part_000` variant built on
native `Set`/`WeakMap`) as executable Lean definitions, and proves the
specification claims about them.

Modelling conventions:
* JS numbers are modelled as `Int` (pixel fields `x`,`y`,`w`,`h`) and `Nat`
  (grid indices `i`,`j`; all scores, which are sums of absolute values).
* A JS plain object used as a string-keyed dictionary is modelled as an
  association list `List (String × α)` with JS property-order semantics:
  assigning an existing key keeps its position, assigning a fresh key appends,
  `Object.keys` enumeration is list order (all keys here contain `:` or are
  `weakmap`-prefixed, hence none is an array index, so JS enumerates them in
  insertion order).
* `Infinity` (the absent-entry default of `mapGet`) is modelled by `none` in
  `Option Nat`; the JS comparisons involving `Infinity` and `undefined` are
  reproduced by explicit functions (`geInf`, `numLt`).
* `MyWeakMap` of `part_001` stores its entries as hidden properties on the
  cell objects themselves.  The main model `getPath` keys the score maps by
  the cell's `id` string instead; the stateful model `getPathState` below is
  faithful to the property-attaching implementation, and a refinement theorem
  links the two.
-/

/-- The `MazeUnit` record of the source: pixel geometry `(x,y,w,h)`, grid
coordinates `(i,j)`, the identity string `id` (generated as `i + ":" + j`),
and the `isBlock` flag. -/
structure MazeUnit where
  x : Int
  y : Int
  w : Int
  h : Int
  i : Nat
  j : Nat
  id : String
  isBlock : Bool
deriving DecidableEq, Repr

/-- `type Maze = MazeUnit[][]`, indexed `maze[i][j]`. -/
abbrev Maze := List (List MazeUnit)

/-- JS array indexing `arr[n]` for a possibly negative index: out-of-range
access yields `undefined`. -/
def jsIndex (l : List α) (n : Int) : Option α :=
  if n < 0 then none else l[n.toNat]?

/-- The inner helper `getMazeUnit(ix, iy)` of `getPath`: `maze[ix]` and, when
that row exists, `row[iy]`. -/
def getMazeUnit (maze : Maze) (ix iy : Int) : Option MazeUnit :=
  match jsIndex maze ix with
  | some row => jsIndex row iy
  | none => none

/-- `cost(a, b) = Math.abs(a.x - b.x) + Math.abs(a.y - b.y)` (the source
comment says "chebyshev distance" but the implementation is Manhattan). -/
def cost (a b : MazeUnit) : Nat :=
  (a.x - b.x).natAbs + (a.y - b.y).natAbs

/-- The neighbour computation of the main loop: the four orthogonal index
pairs, looked up via `getMazeUnit`, keeping only cells that exist and are not
blocked. -/
def neighborsOf (maze : Maze) (c : MazeUnit) : List MazeUnit :=
  ([((c.i : Int) - 1, (c.j : Int)), ((c.i : Int), (c.j : Int) - 1),
    ((c.i : Int), (c.j : Int) + 1), ((c.i : Int) + 1, (c.j : Int))].filterMap
      (fun p => getMazeUnit maze p.1 p.2)).filter (fun u => !u.isBlock)

/-! ## JS object / `MySet` dictionary operations

`MySet` stores its elements in a plain object `record` keyed by `getId`;
`values()` is `Object.keys(record).map(k => record[k])`.  The `from` map of
`getPath` is a plain object keyed by `unit.id`.  Both are modelled as
association lists with unique keys. -/

/-- Property read `obj[k]`: the value at the first (and only) entry with key
`k`, or `undefined` (`none`). -/
def objGet (l : List (String × α)) (k : String) : Option α :=
  (l.find? (fun p => p.1 == k)).map (·.2)

/-- Property write `obj[k] = v`: overwriting an existing key keeps its
enumeration position; a fresh key is appended at the end. -/
def objSet (l : List (String × α)) (k : String) (v : α) : List (String × α) :=
  if (objGet l k).isSome then
    l.map (fun p => if p.1 == k then (k, v) else p)
  else
    l ++ [(k, v)]

/-- Property removal `delete obj[k]`. -/
def objDelete (l : List (String × α)) (k : String) : List (String × α) :=
  l.filter (fun p => p.1 != k)

/-- `mapGet(map, obj)`: the stored score, or `Infinity` when absent.
`Infinity` is represented by `none`. -/
def mapGet (m : List (String × Nat)) (c : MazeUnit) : Option Nat :=
  objGet m c.id

/-- JS `a + c` where `a` may be `Infinity`. -/
def infAdd (a : Option Nat) (c : Nat) : Option Nat :=
  a.map (· + c)

/-- JS `t >= g` where either side may be `Infinity` (`none`). -/
def geInf (t g : Option Nat) : Bool :=
  match t, g with
  | none, _ => true
  | some _, none => false
  | some t, some g => decide (g ≤ t)

/-- JS `a < b` where either side may be `undefined` (`none`): any comparison
with `undefined` is `false`. -/
def numLt (a b : Option Nat) : Bool :=
  match a, b with
  | some a, some b => decide (a < b)
  | _, _ => false

/-- The per-call search bookkeeping of `getPath` (`part_001`): `closedSet` and
`openSet` are `MySet`s keyed by `unit.id`, `fromMap` is the plain object
`from` keyed by `unit.id`, `gScore` and `fScore` are the two score maps (in
the source, `MyWeakMap`s; here keyed by `unit.id`, see the refinement
below). -/
structure AState where
  closedSet : List (String × MazeUnit)
  openSet : List (String × MazeUnit)
  fromMap : List (String × MazeUnit)
  gScore : List (String × Nat)
  fScore : List (String × Nat)
deriving Repr

/-- The minimum-`fScore` scan of the main loop: start from `openUnits[0]`,
replace `current` whenever `fScore.get(u) < fScore.get(current)`. -/
def pickCurrent (f : List (String × Nat)) (cur : MazeUnit) : List MazeUnit → MazeUnit
  | [] => cur
  | u :: rest =>
      pickCurrent f (if numLt (objGet f u.id) (objGet f cur.id) then u else cur) rest

/-- `buildPath(from, unit)`: the cell itself followed by the chain of `from`
parents.  The JS loop is unbounded; here it carries fuel, instantiated below
with `from.length + 1`, which the termination lemmas show is never
exhausted. -/
def buildPath (fromMap : List (String × MazeUnit)) : Nat → MazeUnit → List MazeUnit
  | 0, unit => [unit]
  | fuel + 1, unit =>
    match objGet fromMap unit.id with
    | some parent => unit :: buildPath fromMap fuel parent
    | none => [unit]

/-- The body of the `neighbors.forEach` callback of `getPath`: skip members of
`closedSet`, add to `openSet`, and on a strict `gScore` improvement record
`from`, `gScore` and `fScore`. -/
def updateNeighbor (targetPoint current : MazeUnit)
    (st : AState) (neighbor : MazeUnit) : AState :=
  if (objGet st.closedSet neighbor.id).isSome then st
  else
    let newOpen := objSet st.openSet neighbor.id neighbor
    let tentative := infAdd (mapGet st.gScore current) (cost current neighbor)
    if geInf tentative (mapGet st.gScore neighbor) then
      { st with openSet := newOpen }
    else
      match tentative with
      | none => { st with openSet := newOpen }
      | some t =>
        { st with
          openSet := newOpen
          fromMap := objSet st.fromMap neighbor.id current
          gScore := objSet st.gScore neighbor.id t
          fScore := objSet st.fScore neighbor.id (t + cost neighbor targetPoint) }

/-- One iteration plus the rest of the `while (openSet.size !== 0)` loop of
`getPath`, with fuel.  `none` means the fuel ran out (which the termination
theorem rules out for the fuel used by `getPath`); `some []` is the genuine
"open set exhausted" return. -/
def astarLoop (maze : Maze) (targetPoint : MazeUnit) :
    Nat → AState → Option (List MazeUnit)
  | 0, _ => none
  | fuel + 1, st =>
    match st.openSet.map Prod.snd with
    | [] => some []
    | u0 :: rest =>
      let current := pickCurrent st.fScore u0 (u0 :: rest)
      if current.i = targetPoint.i ∧ current.j = targetPoint.j then
        some (buildPath st.fromMap (st.fromMap.length + 1) current)
      else
        let st1 : AState :=
          { st with
            openSet := objDelete st.openSet current.id
            closedSet := objSet st.closedSet current.id current }
        astarLoop maze targetPoint fuel
          ((neighborsOf maze current).foldl (updateNeighbor targetPoint current) st1)

/-- The initial bookkeeping of `getPath`: `openSet = {start}`,
`gScore[start] = 0`, `fScore[start] = cost(start, target)`. -/
def initState (startPoint targetPoint : MazeUnit) : AState :=
  { closedSet := []
    openSet := [(startPoint.id, startPoint)]
    fromMap := []
    gScore := [(startPoint.id, 0)]
    fScore := [(startPoint.id, cost startPoint targetPoint)] }

/-- Number of cells of the maze; the loop runs at most `mazeSize + 2`
iterations (each non-final iteration closes a fresh cell). -/
def mazeSize (maze : Maze) : Nat :=
  (maze.map List.length).sum

/-- `getPath(maze, startPoint, targetPoint)` of `part_001` (pure model; the
score maps are keyed by `unit.id` rather than attached to the cell objects —
`getPathState_eq_getPath` below proves this faithful). -/
def getPath (maze : Maze) (startPoint targetPoint : MazeUnit) : List MazeUnit :=
  (astarLoop maze targetPoint (mazeSize maze + 2) (initState startPoint targetPoint)).getD []

/-- All cells of the maze, in row-major enumeration. -/
def cellsOf (maze : Maze) : List MazeUnit :=
  maze.flatten

/-- Keys of a JS-object association list, in enumeration order. -/
def objKeys (l : List (String × α)) : List String :=
  l.map Prod.fst

/-! ## Lemmas about the dictionary operations -/

theorem objGet_cons (p : String × α) (l : List (String × α)) (k : String) :
    objGet (p :: l) k = if p.1 = k then some p.2 else objGet l k := by
  by_cases h : p.1 = k <;> simp [objGet, List.find?_cons, h]

theorem objGet_append (l₁ l₂ : List (String × α)) (k : String) :
    objGet (l₁ ++ l₂) k = ((objGet l₁ k).map some).getD (objGet l₂ k) := by
  induction l₁ with
  | nil => simp [objGet]
  | cons p l ih =>
    by_cases h : p.1 = k <;> simp [objGet_cons, h, ih]

theorem objGet_eq_some_mem {l : List (String × α)} {k : String} {v : α}
    (h : objGet l k = some v) : (k, v) ∈ l := by
  induction l with
  | nil => simp [objGet] at h
  | cons p l ih =>
    rw [objGet_cons] at h
    by_cases hp : p.1 = k
    · rw [if_pos hp] at h
      obtain rfl : p.2 = v := Option.some.inj h
      have : (k, p.2) = p := by rw [← hp]
      rw [this]
      exact List.mem_cons_self p l
    · rw [if_neg hp] at h
      exact List.mem_cons_of_mem _ (ih h)

theorem objGet_eq_none_iff {l : List (String × α)} {k : String} :
    objGet l k = none ↔ k ∉ objKeys l := by
  constructor
  · intro h hk
    rcases List.mem_map.mp hk with ⟨p, hp, hpk⟩
    have hfind : List.find? (fun q => q.1 == k) l = none := by
      unfold objGet at h
      exact Option.map_eq_none'.mp h
    have := List.find?_eq_none.mp hfind p hp
    simp [hpk] at this
  · intro hk
    unfold objGet
    rw [List.find?_eq_none.mpr]
    · rfl
    · intro p hp hbeq
      exact hk (List.mem_map.mpr ⟨p, hp, by simpa using hbeq⟩)

theorem objGet_isSome_iff {l : List (String × α)} {k : String} :
    (objGet l k).isSome = true ↔ k ∈ objKeys l := by
  rw [← Decidable.not_iff_not, Option.not_isSome_iff_eq_none, objGet_eq_none_iff]

theorem objGet_of_mem_nodup {l : List (String × α)} (hnd : (objKeys l).Nodup)
    {k : String} {v : α} (h : (k, v) ∈ l) : objGet l k = some v := by
  induction l with
  | nil => simp at h
  | cons p l ih =>
    have hnd2 : (p.1 :: objKeys l).Nodup := hnd
    have hnd' := List.nodup_cons.mp hnd2
    rcases List.mem_cons.mp h with h | h
    · rw [← h, objGet_cons, if_pos rfl]
    · rw [objGet_cons]
      have hp : p.1 ≠ k := by
        intro he
        apply hnd'.1
        rw [he]
        exact List.mem_map.mpr ⟨(k, v), h, rfl⟩
      rw [if_neg hp]
      exact ih hnd'.2 h

theorem objGet_map_replace_self (l : List (String × α)) (k : String) (v : α) :
    objGet (l.map (fun p => if p.1 == k then (k, v) else p)) k
      = (objGet l k).map (fun _ => v) := by
  induction l with
  | nil => rfl
  | cons p l ih =>
    by_cases hp : p.1 = k
    · have hpb : (p.1 == k) = true := by simpa using hp
      simp [hpb, objGet_cons, hp]
    · have hpb : (p.1 == k) = false := by simpa using hp
      simp only [List.map_cons, hpb, Bool.false_eq_true, if_false, objGet_cons]
      rw [ih]
      simp [hp]

theorem objGet_map_replace_ne (l : List (String × α)) {k k' : String} (h : k' ≠ k) (v : α) :
    objGet (l.map (fun p => if p.1 == k then (k, v) else p)) k' = objGet l k' := by
  induction l with
  | nil => rfl
  | cons p l ih =>
    by_cases hp : p.1 = k
    · have hpb : (p.1 == k) = true := by simpa using hp
      simp only [List.map_cons, hpb, if_pos, objGet_cons]
      rw [if_neg (fun he => h he.symm), if_neg (fun he => h (by rw [← he, hp]))]
      exact ih
    · have hpb : (p.1 == k) = false := by simpa using hp
      simp only [List.map_cons, hpb, Bool.false_eq_true, if_false, objGet_cons]
      rw [ih]

theorem objGet_objSet_self (l : List (String × α)) (k : String) (v : α) :
    objGet (objSet l k v) k = some v := by
  unfold objSet
  by_cases h : (objGet l k).isSome
  · rw [if_pos h, objGet_map_replace_self]
    rcases Option.isSome_iff_exists.mp h with ⟨w, hw⟩
    rw [hw]
    rfl
  · rw [if_neg h, objGet_append]
    have hnone : objGet l k = none := Option.not_isSome_iff_eq_none.mp h
    simp [hnone, objGet_cons]

theorem objGet_objSet_ne (l : List (String × α)) {k k' : String} (h : k' ≠ k) (v : α) :
    objGet (objSet l k v) k' = objGet l k' := by
  unfold objSet
  by_cases hh : (objGet l k).isSome
  · rw [if_pos hh, objGet_map_replace_ne _ h]
  · rw [if_neg hh, objGet_append]
    cases he : objGet l k'
    · simp only [he, Option.map_none', Option.getD_none, objGet_cons]
      rw [if_neg (Ne.symm h)]
      rfl
    · simp [he]


theorem objKeys_objSet_of_mem {l : List (String × α)} {k : String} (v : α)
    (h : k ∈ objKeys l) : objKeys (objSet l k v) = objKeys l := by
  unfold objSet
  rw [if_pos (objGet_isSome_iff.mpr h)]
  unfold objKeys
  rw [List.map_map]
  apply List.map_congr_left
  intro p _
  by_cases hp : p.1 = k <;> simp [hp]

theorem objKeys_objSet_of_not_mem {l : List (String × α)} {k : String} (v : α)
    (h : k ∉ objKeys l) : objKeys (objSet l k v) = objKeys l ++ [k] := by
  unfold objSet
  rw [if_neg]
  · simp [objKeys]
  · rw [objGet_isSome_iff]
    simpa using h

theorem nodup_objKeys_objSet {l : List (String × α)} {k : String} (v : α)
    (h : (objKeys l).Nodup) : (objKeys (objSet l k v)).Nodup := by
  by_cases hk : k ∈ objKeys l
  · rw [objKeys_objSet_of_mem v hk]
    exact h
  · rw [objKeys_objSet_of_not_mem v hk]
    simpa [List.nodup_append] using ⟨h, hk⟩

theorem objKeys_objDelete (l : List (String × α)) (k : String) :
    objKeys (objDelete l k) = (objKeys l).filter (fun x => x != k) := by
  induction l with
  | nil => rfl
  | cons p l ih =>
    show objKeys (List.filter _ (p :: l)) = List.filter _ (p.1 :: objKeys l)
    rw [List.filter_cons, List.filter_cons]
    by_cases hp : p.1 = k
    · have hb : (p.1 != k) = false := by simpa using hp
      rw [hb]
      simpa using ih
    · have hb : (p.1 != k) = true := by simpa using hp
      rw [hb]
      simp only [if_pos]
      show p.1 :: objKeys (objDelete l k) = p.1 :: List.filter _ (objKeys l)
      rw [ih]

theorem nodup_objKeys_objDelete {l : List (String × α)} (k : String)
    (h : (objKeys l).Nodup) : (objKeys (objDelete l k)).Nodup := by
  rw [objKeys_objDelete]
  exact h.filter _

theorem objGet_objDelete_self (l : List (String × α)) (k : String) :
    objGet (objDelete l k) k = none := by
  rw [objGet_eq_none_iff, objKeys_objDelete]
  intro hmem
  rcases List.mem_filter.mp hmem with ⟨_, hne⟩
  simp at hne

theorem objGet_objDelete_ne (l : List (String × α)) {k k' : String} (h : k' ≠ k) :
    objGet (objDelete l k) k' = objGet l k' := by
  induction l with
  | nil => rfl
  | cons p l ih =>
    show objGet (List.filter _ (p :: l)) k' = _
    rw [List.filter_cons]
    by_cases hp : p.1 = k
    · have hb : (p.1 != k) = false := by simpa using hp
      rw [hb]
      simp only [Bool.false_eq_true, if_false]
      rw [objGet_cons, if_neg]
      · exact ih
      · rw [hp]
        exact Ne.symm h
    · have hb : (p.1 != k) = true := by simpa using hp
      rw [hb]
      simp only [if_pos]
      show objGet (p :: objDelete l k) k' = _
      rw [objGet_cons, objGet_cons]
      by_cases hp' : p.1 = k'
      · rw [if_pos hp', if_pos hp']
      · rw [if_neg hp', if_neg hp']
        exact ih

theorem mem_values_of_objGet {l : List (String × α)} {k : String} {v : α}
    (h : objGet l k = some v) : v ∈ l.map Prod.snd :=
  List.mem_map.mpr ⟨(k, v), objGet_eq_some_mem h, rfl⟩



/-! ## Paths through the maze

A path is a list of cells starting at `s`, each later cell an unblocked
in-grid 4-neighbour (in the sense of the algorithm's own neighbour
computation) of the one before it. -/

/-- `p` is a path from `s` to `c`: nonempty, starts at `s`, ends at `c`, and
every consecutive pair steps to an unblocked in-grid neighbour. -/
def ValidPath (maze : Maze) (s c : MazeUnit) (p : List MazeUnit) : Prop :=
  p.head? = some s ∧ p.getLast? = some c ∧
    List.Chain' (fun a b => b ∈ neighborsOf maze a) p

/-- Executable consecutive-pair check, used to give `ValidPath` a
kernel-reducible decision procedure. -/
def chainB (R : α → α → Bool) : List α → Bool
  | a :: b :: l => R a b && chainB R (b :: l)
  | _ => true

theorem chainB_iff {α : Type} {R : α → α → Prop} [DecidableRel R] :
    ∀ (l : List α), chainB (fun a b => decide (R a b)) l = true ↔ List.Chain' R l
  | [] => by simp [chainB]
  | [a] => by simp [chainB]
  | a :: b :: l => by
    rw [List.chain'_cons]
    show (decide (R a b) && chainB (fun a b => decide (R a b)) (b :: l)) = true ↔ _
    rw [Bool.and_eq_true, decide_eq_true_eq, chainB_iff (b :: l)]

instance (maze : Maze) (s c : MazeUnit) (p : List MazeUnit) :
    Decidable (ValidPath maze s c p) :=
  decidable_of_iff (p.head? = some s ∧ p.getLast? = some c ∧
    chainB (fun a b => decide (b ∈ neighborsOf maze a)) p = true) (by
      unfold ValidPath
      rw [chainB_iff (R := fun a b => b ∈ neighborsOf maze a) p])

/-- Snoc-style inductive characterisation of `ValidPath`, convenient for the
frontier induction. -/
inductive ReachPath (maze : Maze) (s : MazeUnit) : MazeUnit → List MazeUnit → Prop
  | single : ReachPath maze s s [s]
  | snoc {c n : MazeUnit} {p : List MazeUnit} : ReachPath maze s c p →
      n ∈ neighborsOf maze c → ReachPath maze s n (p ++ [n])

/-- Total cost of a path: the sum of `cost` over consecutive pairs. -/
def pathCost : List MazeUnit → Nat
  | a :: b :: rest => cost a b + pathCost (b :: rest)
  | _ => 0

theorem cost_comm (a b : MazeUnit) : cost a b = cost b a := by
  unfold cost
  rw [← Int.natAbs_neg (a.x - b.x), ← Int.natAbs_neg (a.y - b.y)]
  ring_nf

theorem cost_triangle (a b c : MazeUnit) : cost a c ≤ cost a b + cost b c := by
  unfold cost
  have hx : (a.x - c.x).natAbs ≤ (a.x - b.x).natAbs + (b.x - c.x).natAbs := by
    have : a.x - c.x = (a.x - b.x) + (b.x - c.x) := by ring
    rw [this]
    exact Int.natAbs_add_le _ _
  have hy : (a.y - c.y).natAbs ≤ (a.y - b.y).natAbs + (b.y - c.y).natAbs := by
    have : a.y - c.y = (a.y - b.y) + (b.y - c.y) := by ring
    rw [this]
    exact Int.natAbs_add_le _ _
  omega

theorem getMazeUnit_mem {maze : Maze} {ix iy : Int} {c : MazeUnit}
    (h : getMazeUnit maze ix iy = some c) : c ∈ cellsOf maze := by
  unfold getMazeUnit at h
  cases hrow : jsIndex maze ix with
  | none => rw [hrow] at h; cases h
  | some row =>
    rw [hrow] at h
    have h' : jsIndex row iy = some c := h
    unfold jsIndex at hrow h'
    have hrowmem : row ∈ maze := by
      by_cases hneg : ix < 0
      · rw [if_pos hneg] at hrow; cases hrow
      · rw [if_neg hneg] at hrow
        exact List.getElem?_mem hrow
    have hcmem : c ∈ row := by
      by_cases hneg : iy < 0
      · rw [if_pos hneg] at h'; cases h'
      · rw [if_neg hneg] at h'
        exact List.getElem?_mem h'
    exact List.mem_flatten.mpr ⟨row, hrowmem, hcmem⟩

theorem mem_neighbors_unblocked {maze : Maze} {c n : MazeUnit}
    (h : n ∈ neighborsOf maze c) : n.isBlock = false := by
  unfold neighborsOf at h
  have := (List.mem_filter.mp h).2
  simpa using this

theorem mem_neighbors_cells {maze : Maze} {c n : MazeUnit}
    (h : n ∈ neighborsOf maze c) : n ∈ cellsOf maze := by
  unfold neighborsOf at h
  have hmem := (List.mem_filter.mp h).1
  rcases List.mem_filterMap.mp hmem with ⟨p, _, hp⟩
  exact getMazeUnit_mem hp

theorem ReachPath.ne_nil {maze : Maze} {s c : MazeUnit} {p : List MazeUnit}
    (h : ReachPath maze s c p) : p ≠ [] := by
  cases h <;> simp

theorem ReachPath.head {maze : Maze} {s c : MazeUnit} {p : List MazeUnit}
    (h : ReachPath maze s c p) : p.head? = some s := by
  induction h with
  | single => rfl
  | snoc hq _ ih =>
    rw [List.head?_append_of_ne_nil _ hq.ne_nil]
    exact ih

theorem ReachPath.last {maze : Maze} {s c : MazeUnit} {p : List MazeUnit}
    (h : ReachPath maze s c p) : p.getLast? = some c := by
  cases h with
  | single => rfl
  | snoc hq hn => exact List.getLast?_concat _

theorem ReachPath.cons_of_neighbor {maze : Maze} {a a' b : MazeUnit} {p : List MazeUnit}
    (h : ReachPath maze a' b p) (ha : a' ∈ neighborsOf maze a) :
    ReachPath maze a b (a :: p) := by
  induction h with
  | single => exact ReachPath.snoc ReachPath.single ha
  | snoc hq hn ih => exact (List.cons_append _ _ _) ▸ ReachPath.snoc ih hn

theorem ReachPath.mem_cells {maze : Maze} {s c : MazeUnit} {p : List MazeUnit}
    (h : ReachPath maze s c p) (hs : s ∈ cellsOf maze) : ∀ e ∈ p, e ∈ cellsOf maze := by
  induction h with
  | single => simpa using hs
  | snoc hq hn ih =>
    intro e he
    rcases List.mem_append.mp he with he | he
    · exact ih e he
    · rw [List.mem_singleton.mp he]
      exact mem_neighbors_cells hn

theorem ReachPath.endpoint_cells {maze : Maze} {s c : MazeUnit} {p : List MazeUnit}
    (h : ReachPath maze s c p) (hs : s ∈ cellsOf maze) : c ∈ cellsOf maze := by
  cases h with
  | single => exact hs
  | snoc hq hn => exact mem_neighbors_cells hn

theorem pathCost_append_single {p : List MazeUnit} {c : MazeUnit}
    (hlast : p.getLast? = some c) (n : MazeUnit) :
    pathCost (p ++ [n]) = pathCost p + cost c n := by
  induction p with
  | nil => cases hlast
  | cons a p ih =>
    cases p with
    | nil =>
      obtain rfl : a = c := by simpa using hlast
      simp [pathCost]
    | cons b q =>
      have : (a :: b :: q).getLast? = (b :: q).getLast? := by
        rw [List.getLast?_cons_cons]
      rw [this] at hlast
      show pathCost (a :: b :: (q ++ [n])) = pathCost (a :: b :: q) + cost c n
      rw [show pathCost (a :: b :: (q ++ [n])) = cost a b + pathCost (b :: (q ++ [n])) from rfl,
        show pathCost (a :: b :: q) = cost a b + pathCost (b :: q) from rfl]
      have := ih hlast
      rw [show (b :: q) ++ [n] = b :: (q ++ [n]) from rfl] at this
      omega

theorem ReachPath.validPath {maze : Maze} {s c : MazeUnit} {p : List MazeUnit}
    (h : ReachPath maze s c p) : ValidPath maze s c p := by
  induction h with
  | single => exact ⟨rfl, rfl, List.chain'_singleton s⟩
  | snoc hq hn ih =>
    rcases ih with ⟨hhead, hlast, hchain⟩
    refine ⟨?_, List.getLast?_concat _, ?_⟩
    · rw [List.head?_append_of_ne_nil _ hq.ne_nil]
      exact hhead
    · rw [List.chain'_append]
      refine ⟨hchain, List.chain'_singleton _, ?_⟩
      intro x hx y hy
      rw [hq.last] at hx
      cases hx
      cases hy
      exact hn

theorem validPath_reachPath {maze : Maze} {s c : MazeUnit} {p : List MazeUnit}
    (h : ValidPath maze s c p) : ReachPath maze s c p := by
  induction p using List.reverseRecOn generalizing c with
  | nil => cases h.1
  | append_singleton q x ih =>
    rcases h with ⟨hhead, hlast, hchain⟩
    rw [List.getLast?_concat] at hlast
    cases hlast
    by_cases hqne : q = []
    · subst hqne
      obtain rfl : x = s := by simpa using hhead
      exact ReachPath.single
    · rw [List.chain'_append] at hchain
      rcases hchain with ⟨hchainq, _, hrel⟩
      have hlastq : ∃ b, q.getLast? = some b := by
        cases hql : q.getLast? with
        | none => rw [List.getLast?_eq_none_iff] at hql; exact absurd hql hqne
        | some b => exact ⟨b, rfl⟩
      rcases hlastq with ⟨b, hb⟩
      have hstep : x ∈ neighborsOf maze b := hrel b hb x rfl
      have hq' : ReachPath maze s b q := by
        apply ih
        refine ⟨?_, hb, hchainq⟩
        rwa [List.head?_append_of_ne_nil _ hqne] at hhead
      exact ReachPath.snoc hq' hstep

/-! ## The `from` chain

`FromChain maze s fm c gv l` says: starting at `c` and repeatedly following
the `from` map `fm` (exactly as `buildPath` does) produces the list `l`,
terminating at `s`, where every link is an edge of the maze and the summed
edge costs equal `gv`. -/

inductive FromChain (maze : Maze) (s : MazeUnit) (fm : List (String × MazeUnit)) :
    MazeUnit → Nat → List MazeUnit → Prop
  | base : objGet fm s.id = none → FromChain maze s fm s 0 [s]
  | step {c p : MazeUnit} {gp : Nat} {rest : List MazeUnit} :
      objGet fm c.id = some p → FromChain maze s fm p gp rest →
      c ∈ neighborsOf maze p → FromChain maze s fm c (gp + cost p c) (c :: rest)

theorem getLast?_cons_of_ne_nil' {α : Type} (a : α) {l : List α} (h : l ≠ []) :
    (a :: l).getLast? = l.getLast? := by
  cases l with
  | nil => exact absurd rfl h
  | cons b m => exact List.getLast?_cons_cons

theorem FromChain.fc_ne_nil {maze : Maze} {s : MazeUnit} {fm : List (String × MazeUnit)}
    {c : MazeUnit} {gv : Nat} {l : List MazeUnit}
    (h : FromChain maze s fm c gv l) : l ≠ [] := by
  cases h <;> simp

theorem FromChain.fc_head {maze : Maze} {s : MazeUnit} {fm : List (String × MazeUnit)}
    {c : MazeUnit} {gv : Nat} {l : List MazeUnit}
    (h : FromChain maze s fm c gv l) : l.head? = some c := by
  cases h <;> rfl

theorem FromChain.fc_last {maze : Maze} {s : MazeUnit} {fm : List (String × MazeUnit)}
    {c : MazeUnit} {gv : Nat} {l : List MazeUnit}
    (h : FromChain maze s fm c gv l) : l.getLast? = some s := by
  induction h with
  | base _ => rfl
  | step hget hsub hnb ih =>
    rw [getLast?_cons_of_ne_nil' _ hsub.fc_ne_nil]
    exact ih

theorem FromChain.reach {maze : Maze} {s : MazeUnit} {fm : List (String × MazeUnit)}
    {c : MazeUnit} {gv : Nat} {l : List MazeUnit}
    (h : FromChain maze s fm c gv l) :
    ReachPath maze s c l.reverse ∧ pathCost l.reverse = gv := by
  induction h with
  | base _ => exact ⟨ReachPath.single, rfl⟩
  | step hget hsub hnb ih =>
    rcases ih with ⟨hreach, hcost⟩
    constructor
    · rw [List.reverse_cons]
      exact ReachPath.snoc hreach hnb
    · rw [List.reverse_cons, pathCost_append_single (by
        rw [List.getLast?_reverse]
        exact hsub.fc_head), hcost]

theorem FromChain.dropLast_unblocked {maze : Maze} {s : MazeUnit}
    {fm : List (String × MazeUnit)} {c : MazeUnit} {gv : Nat} {l : List MazeUnit}
    (h : FromChain maze s fm c gv l) : ∀ e ∈ l.dropLast, e.isBlock = false := by
  induction h with
  | base _ => simp
  | @step c' p' gp' rest' hget hsub hnb ih =>
    intro e he
    cases hrest : rest' with
    | nil => exact absurd hrest hsub.fc_ne_nil
    | cons r rs =>
      subst hrest
      rw [List.dropLast_cons₂] at he
      rcases List.mem_cons.mp he with he | he
      · rw [he]
        exact mem_neighbors_unblocked hnb
      · exact ih e he

theorem FromChain.fc_mem_cells {maze : Maze} {s : MazeUnit} {fm : List (String × MazeUnit)}
    {c : MazeUnit} {gv : Nat} {l : List MazeUnit}
    (h : FromChain maze s fm c gv l) (hs : s ∈ cellsOf maze) :
    ∀ e ∈ l, e ∈ cellsOf maze := by
  induction h with
  | base _ => simpa using hs
  | step hget hsub hnb ih =>
    intro e he
    rcases List.mem_cons.mp he with he | he
    · rw [he]
      exact mem_neighbors_cells hnb
    · exact ih e he

theorem buildPath_eq_of_fromChain {maze : Maze} {s : MazeUnit}
    {fm : List (String × MazeUnit)} {c : MazeUnit} {gv : Nat} {l : List MazeUnit}
    (h : FromChain maze s fm c gv l) :
    ∀ fuel, l.length ≤ fuel + 1 → buildPath fm fuel c = l := by
  induction h with
  | base hnone =>
    intro fuel _
    cases fuel with
    | zero => rfl
    | succ fuel =>
      show (match objGet fm s.id with
        | some parent => s :: buildPath fm fuel parent
        | none => [s]) = [s]
      rw [hnone]
  | @step c' p' gp' rest' hget hsub hnb ih =>
    intro fuel hlen
    have hrest : 1 ≤ rest'.length := by
      cases hr : rest' with
      | nil => exact absurd hr hsub.fc_ne_nil
      | cons _ _ => simp
    simp only [List.length_cons] at hlen
    cases fuel with
    | zero => omega
    | succ fuel =>
      show (match objGet fm c'.id with
        | some parent => c' :: buildPath fm fuel parent
        | none => [c']) = c' :: rest'
      rw [hget]
      show c' :: buildPath fm fuel p' = c' :: rest'
      rw [ih fuel (by omega)]

theorem nodup_subset_length {α : Type} [DecidableEq α] {l l' : List α}
    (h : l.Nodup) (hs : l ⊆ l') : l.length ≤ l'.length := by
  calc l.length = l.toFinset.card := (List.toFinset_card_of_nodup h).symm
    _ ≤ l'.toFinset.card := Finset.card_le_card (by
        intro x hx
        simp only [List.mem_toFinset] at hx ⊢
        exact hs hx)
    _ ≤ l'.length := List.toFinset_card_le l'

theorem fromChain_dropLast_keys {maze : Maze} {s : MazeUnit}
    {fm : List (String × MazeUnit)} {c : MazeUnit} {gv : Nat} {l : List MazeUnit}
    (h : FromChain maze s fm c gv l) : ∀ e ∈ l.dropLast, e.id ∈ objKeys fm := by
  induction h with
  | base _ => simp
  | @step c' p' gp' rest' hget hsub hnb ih =>
    intro e he
    cases hrest : rest' with
    | nil => exact absurd hrest hsub.fc_ne_nil
    | cons r rs =>
      subst hrest
      rw [List.dropLast_cons₂] at he
      rcases List.mem_cons.mp he with he | he
      · rw [he, ← objGet_isSome_iff, hget]
        rfl
      · exact ih e he

theorem fromChain_length_le {maze : Maze} {s : MazeUnit}
    {fm : List (String × MazeUnit)} {c : MazeUnit} {gv : Nat} {l : List MazeUnit}
    (hinj : ∀ a ∈ cellsOf maze, ∀ b ∈ cellsOf maze, a.id = b.id → a = b)
    (hs : s ∈ cellsOf maze) (h : FromChain maze s fm c gv l) (hnd : l.Nodup) :
    l.length ≤ fm.length + 1 := by
  have hsubset : ∀ e ∈ l.dropLast, e ∈ l := fun e he => (List.dropLast_sublist l).subset he
  have hdnd : (l.dropLast.map MazeUnit.id).Nodup := by
    apply List.Nodup.map_on
    · intro a ha b hb hab
      exact hinj a (h.fc_mem_cells hs a (hsubset a ha)) b (h.fc_mem_cells hs b (hsubset b hb)) hab
    · exact hnd.sublist (List.dropLast_sublist l)
  have hkeys : l.dropLast.map MazeUnit.id ⊆ objKeys fm := by
    intro x hx
    rcases List.mem_map.mp hx with ⟨e, he, rfl⟩
    exact fromChain_dropLast_keys h e he
  have hlen : (l.dropLast.map MazeUnit.id).length ≤ (objKeys fm).length :=
    nodup_subset_length hdnd hkeys
  have hne : l ≠ [] := h.fc_ne_nil
  have h1 : l.dropLast.length = l.length - 1 := List.length_dropLast l
  have h2 : 1 ≤ l.length := by
    cases hl : l with
    | nil => exact absurd hl hne
    | cons _ _ => simp
  have h3 : (objKeys fm).length = fm.length := List.length_map _ _
  simp only [List.length_map] at hlen
  omega

/-! ## The search invariant -/

/-- `c` is a member of an id-keyed cell set; the stored entry for `c.id` is
`c` itself. -/
def InOpen (st : AState) (c : MazeUnit) : Prop :=
  objGet st.openSet c.id = some c

def InClosed (st : AState) (c : MazeUnit) : Prop :=
  objGet st.closedSet c.id = some c

theorem mem_values_iff {l : List (String × MazeUnit)}
    (hk : ∀ p ∈ l, p.1 = p.2.id ∧ p.2 ∈ cellsOf maze) (hnd : (objKeys l).Nodup)
    {c : MazeUnit} : c ∈ l.map Prod.snd ↔ objGet l c.id = some c := by
  constructor
  · intro hmem
    rcases List.mem_map.mp hmem with ⟨p, hp, hsnd⟩
    have hkey := (hk p hp).1
    have : (c.id, c) ∈ l := by
      have : p = (c.id, c) := by
        rcases p with ⟨k, v⟩
        simp only at hsnd hkey
        rw [hsnd] at hkey ⊢
        rw [hkey]
      rw [← this]
      exact hp
    exact objGet_of_mem_nodup hnd this
  · intro h
    exact mem_values_of_objGet h

/-- The invariant maintained by the `getPath` main loop.  `s`, `t` are the
start and target cells. -/
structure AInv (maze : Maze) (s t : MazeUnit) (st : AState) : Prop where
  okeys : ∀ p ∈ st.openSet, p.1 = p.2.id ∧ p.2 ∈ cellsOf maze
  ckeys : ∀ p ∈ st.closedSet, p.1 = p.2.id ∧ p.2 ∈ cellsOf maze
  onodup : (objKeys st.openSet).Nodup
  cnodup : (objKeys st.closedSet).Nodup
  disj : ∀ k, k ∈ objKeys st.openSet → k ∉ objKeys st.closedSet
  sMem : InOpen st s ∨ InClosed st s
  gs0 : objGet st.gScore s.id = some 0
  fromS : objGet st.fromMap s.id = none
  gdom : ∀ k v, objGet st.gScore k = some v → ∃ c, (InOpen st c ∨ InClosed st c) ∧ c.id = k
  gf : ∀ c, InOpen st c ∨ InClosed st c →
    ∃ gv, objGet st.gScore c.id = some gv ∧ objGet st.fScore c.id = some (gv + cost c t)
  chains : ∀ c, InOpen st c ∨ InClosed st c → ∀ gv, objGet st.gScore c.id = some gv →
    ∃ l, FromChain maze s st.fromMap c gv l ∧ l.Nodup ∧ ∀ e ∈ l, e = c ∨ InClosed st e
  copt : ∀ c, InClosed st c → ∀ gv, objGet st.gScore c.id = some gv →
    ∀ p, ReachPath maze s c p → gv ≤ pathCost p
  cexp : ∀ c, InClosed st c → ∀ n, n ∈ neighborsOf maze c → InOpen st n ∨ InClosed st n
  cexpBound : ∀ c, InClosed st c → ∀ n, n ∈ neighborsOf maze c →
    ∀ gc gn, objGet st.gScore c.id = some gc → objGet st.gScore n.id = some gn →
      gn ≤ gc + cost c n
  tnc : ∀ c, InClosed st c → ¬(c.i = t.i ∧ c.j = t.j)

theorem AInv.init {maze : Maze} {s t : MazeUnit} (hs : s ∈ cellsOf maze) :
    AInv maze s t (initState s t) := by
  have e1 : (initState s t).openSet = [(s.id, s)] := rfl
  have e2 : (initState s t).closedSet = [] := rfl
  have e3 : (initState s t).gScore = [(s.id, 0)] := rfl
  have e4 : (initState s t).fScore = [(s.id, cost s t)] := rfl
  have e5 : (initState s t).fromMap = [] := rfl
  have hopen : InOpen (initState s t) s := by
    unfold InOpen
    rw [e1, objGet_cons, if_pos rfl]
  have honly : ∀ c, InOpen (initState s t) c ∨ InClosed (initState s t) c → c = s := by
    intro c hc
    rcases hc with hc | hc
    · unfold InOpen at hc
      rw [e1, objGet_cons] at hc
      by_cases hk : s.id = c.id
      · rw [if_pos hk] at hc
        exact (Option.some.inj hc).symm
      · rw [if_neg hk] at hc
        cases hc
    · unfold InClosed at hc
      rw [e2] at hc
      cases hc
  refine ⟨?_, ?_, ?_, ?_, ?_, Or.inl hopen, ?_, ?_, ?_, ?_, ?_, ?_, ?_, ?_, ?_⟩
  · rw [e1]
    intro p hp
    rcases List.mem_singleton.mp hp with rfl
    exact ⟨rfl, hs⟩
  · rw [e2]
    intro p hp
    simp at hp
  · rw [e1]
    simp [objKeys]
  · rw [e2]
    simp [objKeys]
  · rw [e1, e2]
    intro k _ hk
    simp [objKeys] at hk
  · rw [e3, objGet_cons, if_pos rfl]
  · rw [e5]
    rfl
  · intro k v h
    rw [e3, objGet_cons] at h
    by_cases hk : s.id = k
    · exact ⟨s, Or.inl hopen, hk⟩
    · rw [if_neg hk] at h
      cases h
  · intro c hc
    have hcs : c = s := honly c hc
    refine ⟨0, ?_, ?_⟩
    · rw [hcs, e3, objGet_cons, if_pos rfl]
    · rw [hcs, e4, objGet_cons, if_pos rfl, Nat.zero_add]
  · intro c hc gv hg
    have hcs : c = s := honly c hc
    have hgv : gv = 0 := by
      rw [hcs, e3, objGet_cons, if_pos rfl] at hg
      exact (Option.some.inj hg).symm
    refine ⟨[c], ?_, List.nodup_singleton c, by simp⟩
    rw [hgv, hcs, e5]
    exact FromChain.base (by rfl)
  · intro c hc
    unfold InClosed at hc
    rw [e2] at hc
    cases hc
  · intro c hc
    unfold InClosed at hc
    rw [e2] at hc
    cases hc
  · intro c hc
    unfold InClosed at hc
    rw [e2] at hc
    cases hc
  · intro c hc
    unfold InClosed at hc
    rw [e2] at hc
    cases hc

/-! ## The minimum-`fScore` scan -/

theorem pickCurrent_mem (f : List (String × Nat)) :
    ∀ (l : List MazeUnit) (cur : MazeUnit), pickCurrent f cur l ∈ cur :: l := by
  intro l
  induction l with
  | nil =>
    intro cur
    show cur ∈ [cur]
    simp
  | cons u rest ih =>
    intro cur
    show pickCurrent f (if numLt (objGet f u.id) (objGet f cur.id) then u else cur) rest
        ∈ cur :: u :: rest
    by_cases h : numLt (objGet f u.id) (objGet f cur.id) = true
    · rw [if_pos h]
      rcases List.mem_cons.mp (ih u) with h' | h'
      · rw [h']
        simp
      · simp [h']
    · rw [if_neg h]
      rcases List.mem_cons.mp (ih cur) with h' | h'
      · rw [h']
        simp
      · simp [h']

theorem pickCurrent_min (f : List (String × Nat)) :
    ∀ (l : List MazeUnit) (cur : MazeUnit),
      (∀ v ∈ cur :: l, (objGet f v.id).isSome) →
      ∀ v ∈ cur :: l, ∀ a b, objGet f (pickCurrent f cur l).id = some a →
        objGet f v.id = some b → a ≤ b := by
  intro l
  induction l with
  | nil =>
    intro cur _ v hv a b ha hb
    rcases List.mem_singleton.mp hv
    have : pickCurrent f cur [] = cur := rfl
    rw [this] at ha
    rw [ha] at hb
    exact Nat.le_of_eq (Option.some.inj hb)
  | cons u rest ih =>
    intro cur hall v hv a b ha hb
    rcases Option.isSome_iff_exists.mp (hall cur (by simp)) with ⟨fcur, hfcur⟩
    rcases Option.isSome_iff_exists.mp (hall u (by simp)) with ⟨fu, hfu⟩
    have hstep : pickCurrent f cur (u :: rest)
        = pickCurrent f (if numLt (objGet f u.id) (objGet f cur.id) then u else cur) rest := rfl
    have hall' : ∀ w ∈ (if numLt (objGet f u.id) (objGet f cur.id) then u else cur) :: rest,
        (objGet f w.id).isSome := by
      intro w hw
      rcases List.mem_cons.mp hw with hw | hw
      · by_cases hc : numLt (objGet f u.id) (objGet f cur.id) = true
        · rw [if_pos hc] at hw
          rw [hw]
          exact hall u (by simp)
        · rw [if_neg hc] at hw
          rw [hw]
          exact hall cur (by simp)
      · exact hall w (by simp [hw])
    rw [hstep] at ha
    by_cases hc : numLt (objGet f u.id) (objGet f cur.id) = true
    · -- the accumulator becomes u, and f u < f cur
      rw [if_pos hc] at ha hall'
      have hlt : fu < fcur := by
        unfold numLt at hc
        rw [hfu, hfcur] at hc
        simpa using hc
      rcases List.mem_cons.mp hv with hv | hv
      · -- v = cur: a ≤ f u < f cur
        have hau : a ≤ fu := ih u hall' u (by simp) a fu ha hfu
        rw [hv, hfcur] at hb
        have : b = fcur := (Option.some.inj hb).symm
        omega
      · exact ih u hall' v hv a b ha hb
    · rw [if_neg hc] at ha hall'
      have hge : fcur ≤ fu := by
        unfold numLt at hc
        rw [hfu, hfcur] at hc
        simpa using hc
      rcases List.mem_cons.mp hv with hv | hv
      · rw [hv] at hb
        exact ih cur hall' cur (by simp) a b ha hb
      · rcases List.mem_cons.mp hv with hv | hv
        · -- v = u: a ≤ f cur ≤ f u
          have hacur : a ≤ fcur := ih cur hall' cur (by simp) a fcur ha hfcur
          rw [hv, hfu] at hb
          have : b = fu := (Option.some.inj hb).symm
          omega
        · exact ih cur hall' v (by simp [hv]) a b ha hb

/-! ## Frontier and optimality lemmas -/

theorem InOpen.mem_keys {st : AState} {c : MazeUnit} (h : InOpen st c) :
    c.id ∈ objKeys st.openSet := by
  rw [← objGet_isSome_iff]
  unfold InOpen at h
  rw [h]
  rfl

theorem InClosed.mem_keys_closed {st : AState} {c : MazeUnit} (h : InClosed st c) :
    c.id ∈ objKeys st.closedSet := by
  rw [← objGet_isSome_iff]
  unfold InClosed at h
  rw [h]
  rfl

theorem not_closed_of_open {maze : Maze} {s t : MazeUnit} {st : AState}
    (hInv : AInv maze s t st) {c : MazeUnit} (h : InOpen st c) : ¬ InClosed st c :=
  fun hc => hInv.disj c.id h.mem_keys hc.mem_keys_closed

/-- If `z` is reachable and not yet finalised, some open cell `y` already has
an `fScore` at most the path's cost plus the target heuristic of `z`. -/
theorem frontier_reach {maze : Maze} {s t : MazeUnit} {st : AState}
    (hInv : AInv maze s t st) {z : MazeUnit} {p : List MazeUnit}
    (hp : ReachPath maze s z p) :
    ¬ InClosed st z →
    ∃ y gy, InOpen st y ∧ objGet st.gScore y.id = some gy ∧
      gy + cost y t ≤ pathCost p + cost z t := by
  induction hp with
  | single =>
    intro hz
    have hs' : InOpen st s := hInv.sMem.resolve_right hz
    refine ⟨s, 0, hs', hInv.gs0, ?_⟩
    simp [pathCost]
  | @snoc c n q hq hn ih =>
    intro hz
    by_cases hc : InClosed st c
    · have hno := hInv.cexp c hc n hn
      have hnopen : InOpen st n := hno.resolve_right hz
      obtain ⟨gc, hgc, _⟩ := hInv.gf c (Or.inr hc)
      obtain ⟨gn, hgn, _⟩ := hInv.gf n hno
      have hb := hInv.cexpBound c hc n hn gc gn hgc hgn
      have hcopt := hInv.copt c hc gc hgc q hq
      refine ⟨n, gn, hnopen, hgn, ?_⟩
      rw [pathCost_append_single hq.last n]
      omega
    · obtain ⟨y, gy, hy, hgy, hle⟩ := ih hc
      refine ⟨y, gy, hy, hgy, ?_⟩
      rw [pathCost_append_single hq.last n]
      have htri : cost c t ≤ cost c n + cost n t := cost_triangle c n t
      omega

/-- The cell popped by the minimum-`fScore` scan has an optimal `gScore`:
no path reaches it more cheaply. -/
theorem current_optimal {maze : Maze} {s t : MazeUnit} {st : AState}
    (hInv : AInv maze s t st) {u0 : MazeUnit} {vrest : List MazeUnit}
    (hov : st.openSet.map Prod.snd = u0 :: vrest) :
    InOpen st (pickCurrent st.fScore u0 (u0 :: vrest)) ∧
    ∀ gcur, objGet st.gScore (pickCurrent st.fScore u0 (u0 :: vrest)).id = some gcur →
      ∀ p, ReachPath maze s (pickCurrent st.fScore u0 (u0 :: vrest)) p →
        gcur ≤ pathCost p := by
  have hvals : ∀ v, v ∈ u0 :: vrest ∨ v ∈ st.openSet.map Prod.snd ↔
      v ∈ st.openSet.map Prod.snd := by
    intro v
    rw [hov]
    tauto
  have hmemvals : ∀ v ∈ u0 :: vrest, InOpen st v := by
    intro v hv
    rw [← hov] at hv
    exact (mem_values_iff hInv.okeys hInv.onodup).mp hv
  have hall : ∀ v ∈ u0 :: (u0 :: vrest), (objGet st.fScore v.id).isSome := by
    intro v hv
    have hv' : v ∈ u0 :: vrest := by
      rcases List.mem_cons.mp hv with hv | hv
      · rw [hv]; simp
      · exact hv
    obtain ⟨gv, _, hf⟩ := hInv.gf v (Or.inl (hmemvals v hv'))
    rw [hf]
    rfl
  have hcurmem : pickCurrent st.fScore u0 (u0 :: vrest) ∈ u0 :: vrest := by
    have := pickCurrent_mem st.fScore (u0 :: vrest) u0
    rcases List.mem_cons.mp this with h | h
    · rw [h]; simp
    · exact h
  have hcuropen : InOpen st (pickCurrent st.fScore u0 (u0 :: vrest)) :=
    hmemvals _ hcurmem
  refine ⟨hcuropen, ?_⟩
  intro gcur hg p hp
  have hnc : ¬ InClosed st (pickCurrent st.fScore u0 (u0 :: vrest)) :=
    not_closed_of_open hInv hcuropen
  obtain ⟨y, gy, hyopen, hgy, hle⟩ := frontier_reach hInv hp hnc
  -- y is an open cell, hence among the scanned values
  have hymem : y ∈ u0 :: vrest := by
    rw [← hov]
    exact (mem_values_iff hInv.okeys hInv.onodup).mpr hyopen
  obtain ⟨gcur', hg', hfcur⟩ := hInv.gf _ (Or.inl hcuropen)
  have hgeq : gcur' = gcur := by
    rw [hg'] at hg
    exact Option.some.inj hg
  obtain ⟨gy', hgy', hfy⟩ := hInv.gf y (Or.inl hyopen)
  have hgyeq : gy' = gy := by
    rw [hgy'] at hgy
    exact Option.some.inj hgy
  have hmin := pickCurrent_min st.fScore (u0 :: vrest) u0 hall y
    (by simp [hymem]) (gcur' + cost (pickCurrent st.fScore u0 (u0 :: vrest)) t)
    (gy' + cost y t) hfcur hfy
  omega

/-! ## Preservation of the invariant -/

theorem objSet_entries {l : List (String × α)} {k : String} {v : α} {p : String × α}
    (h : p ∈ objSet l k v) : p ∈ l ∨ p = (k, v) := by
  unfold objSet at h
  by_cases hh : (objGet l k).isSome
  · rw [if_pos hh] at h
    rcases List.mem_map.mp h with ⟨q, hq, hqe⟩
    by_cases hqk : (q.1 == k) = true
    · rw [if_pos hqk] at hqe
      right
      exact hqe.symm
    · rw [if_neg hqk] at hqe
      left
      rw [← hqe]
      exact hq
  · rw [if_neg hh] at h
    rcases List.mem_append.mp h with h | h
    · exact Or.inl h
    · right
      simpa using h

theorem objDelete_entries {l : List (String × α)} {k : String} {p : String × α}
    (h : p ∈ objDelete l k) : p ∈ l :=
  (List.filter_sublist l).subset h

theorem cell_mem_of_objGet {maze : Maze} {l : List (String × MazeUnit)}
    (hk : ∀ p ∈ l, p.1 = p.2.id ∧ p.2 ∈ cellsOf maze) {c : MazeUnit}
    (h : objGet l c.id = some c) : c ∈ cellsOf maze :=
  (hk _ (objGet_eq_some_mem h)).2

theorem fromChain_stable {maze : Maze} {s : MazeUnit} {fm : List (String × MazeUnit)}
    {c : MazeUnit} {gv : Nat} {l : List MazeUnit} {k : String} {v : MazeUnit}
    (h : FromChain maze s fm c gv l) (hk : ∀ e ∈ l, e.id ≠ k) :
    FromChain maze s (objSet fm k v) c gv l := by
  induction h with
  | base hnone =>
    apply FromChain.base
    rw [objGet_objSet_ne _ (hk s (by simp)) v, hnone]
  | @step c' p' gp' rest' hget hsub hnb ih =>
    apply FromChain.step _ (ih ?_) hnb
    · rw [objGet_objSet_ne _ (hk c' (by simp)) v, hget]
    · intro e he
      exact hk e (List.mem_cons_of_mem _ he)

/-- State of the neighbour fold: the full invariant except that the expansion
obligations of the just-closed `current` hold only for the neighbours already
`processed`. -/
structure MidInv (maze : Maze) (s t current : MazeUnit) (gcur : Nat)
    (processed : List MazeUnit) (st : AState) : Prop where
  okeys : ∀ p ∈ st.openSet, p.1 = p.2.id ∧ p.2 ∈ cellsOf maze
  ckeys : ∀ p ∈ st.closedSet, p.1 = p.2.id ∧ p.2 ∈ cellsOf maze
  onodup : (objKeys st.openSet).Nodup
  cnodup : (objKeys st.closedSet).Nodup
  disj : ∀ k, k ∈ objKeys st.openSet → k ∉ objKeys st.closedSet
  sMem : InOpen st s ∨ InClosed st s
  gs0 : objGet st.gScore s.id = some 0
  fromS : objGet st.fromMap s.id = none
  gdom : ∀ k v, objGet st.gScore k = some v → ∃ c, (InOpen st c ∨ InClosed st c) ∧ c.id = k
  gf : ∀ c, InOpen st c ∨ InClosed st c →
    ∃ gv, objGet st.gScore c.id = some gv ∧ objGet st.fScore c.id = some (gv + cost c t)
  chains : ∀ c, InOpen st c ∨ InClosed st c → ∀ gv, objGet st.gScore c.id = some gv →
    ∃ l, FromChain maze s st.fromMap c gv l ∧ l.Nodup ∧ ∀ e ∈ l, e = c ∨ InClosed st e
  copt : ∀ c, InClosed st c → ∀ gv, objGet st.gScore c.id = some gv →
    ∀ p, ReachPath maze s c p → gv ≤ pathCost p
  cexpOld : ∀ c, InClosed st c → c ≠ current → ∀ n, n ∈ neighborsOf maze c →
    InOpen st n ∨ InClosed st n
  cexpBoundOld : ∀ c, InClosed st c → c ≠ current → ∀ n, n ∈ neighborsOf maze c →
    ∀ gc gn, objGet st.gScore c.id = some gc → objGet st.gScore n.id = some gn →
      gn ≤ gc + cost c n
  cexpCur : ∀ n ∈ processed, InOpen st n ∨ InClosed st n
  cexpBoundCur : ∀ n ∈ processed, ∀ gn, objGet st.gScore n.id = some gn →
    gn ≤ gcur + cost current n
  curClosed : InClosed st current
  curG : objGet st.gScore current.id = some gcur
  tnc : ∀ c, InClosed st c → ¬(c.i = t.i ∧ c.j = t.j)

theorem midInv_pop {maze : Maze} {s t : MazeUnit} {st : AState}
    (hinj : ∀ a ∈ cellsOf maze, ∀ b ∈ cellsOf maze, a.id = b.id → a = b)
    (_hs : s ∈ cellsOf maze)
    (hInv : AInv maze s t st) {current : MazeUnit} {gcur : Nat}
    (hcuropen : InOpen st current)
    (hg : objGet st.gScore current.id = some gcur)
    (hmin : ∀ p, ReachPath maze s current p → gcur ≤ pathCost p)
    (hnt : ¬(current.i = t.i ∧ current.j = t.j)) :
    MidInv maze s t current gcur []
      { st with openSet := objDelete st.openSet current.id,
                closedSet := objSet st.closedSet current.id current } := by
  set st1 : AState :=
    { st with openSet := objDelete st.openSet current.id,
              closedSet := objSet st.closedSet current.id current } with hst1
  have hcurcell : current ∈ cellsOf maze := cell_mem_of_objGet hInv.okeys hcuropen
  have hcidopen : current.id ∈ objKeys st.openSet := hcuropen.mem_keys
  have hcidnc : current.id ∉ objKeys st.closedSet := hInv.disj _ hcidopen
  have hne_id : ∀ c : MazeUnit, c ∈ cellsOf maze → c ≠ current → c.id ≠ current.id := by
    intro c hc hne he
    exact hne (hinj c hc current hcurcell he)
  have hOpen1 : ∀ c : MazeUnit, InOpen st c → c ≠ current → InOpen st1 c := by
    intro c hc hne
    have hcc : c ∈ cellsOf maze := cell_mem_of_objGet hInv.okeys hc
    show objGet (objDelete st.openSet current.id) c.id = some c
    rw [objGet_objDelete_ne _ (hne_id c hcc hne)]
    exact hc
  have hOpenRev : ∀ c : MazeUnit, InOpen st1 c → InOpen st c ∧ c ≠ current := by
    intro c hc
    have hc' : objGet (objDelete st.openSet current.id) c.id = some c := hc
    by_cases hcid : c.id = current.id
    · rw [hcid, objGet_objDelete_self] at hc'
      cases hc'
    · rw [objGet_objDelete_ne _ hcid] at hc'
      refine ⟨hc', ?_⟩
      intro he
      rw [he] at hcid
      exact hcid rfl
  have hClosed1 : ∀ c : MazeUnit, InClosed st c → InClosed st1 c := by
    intro c hc
    have hcid : c.id ≠ current.id := by
      intro he
      rw [← he] at hcidnc
      exact hcidnc hc.mem_keys_closed
    show objGet (objSet st.closedSet current.id current) c.id = some c
    rw [objGet_objSet_ne _ hcid]
    exact hc
  have hClosedRev : ∀ c : MazeUnit, InClosed st1 c → c = current ∨ InClosed st c := by
    intro c hc
    have hc' : objGet (objSet st.closedSet current.id current) c.id = some c := hc
    by_cases hcid : c.id = current.id
    · rw [hcid, objGet_objSet_self] at hc'
      exact Or.inl (Option.some.inj hc').symm
    · rw [objGet_objSet_ne _ hcid] at hc'
      exact Or.inr hc'
  have hCurClosed1 : InClosed st1 current := by
    show objGet (objSet st.closedSet current.id current) current.id = some current
    exact objGet_objSet_self _ _ _
  have hMem1 : ∀ c : MazeUnit, InOpen st c ∨ InClosed st c →
      InOpen st1 c ∨ InClosed st1 c := by
    intro c hc
    rcases hc with hc | hc
    · by_cases he : c = current
      · rw [he]
        exact Or.inr hCurClosed1
      · exact Or.inl (hOpen1 c hc he)
    · exact Or.inr (hClosed1 c hc)
  have hMemRev : ∀ c : MazeUnit, InOpen st1 c ∨ InClosed st1 c →
      InOpen st c ∨ InClosed st c := by
    intro c hc
    rcases hc with hc | hc
    · exact Or.inl (hOpenRev c hc).1
    · rcases hClosedRev c hc with he | hc'
      · rw [he]
        exact Or.inl hcuropen
      · exact Or.inr hc'
  refine ⟨?_, ?_, ?_, ?_, ?_, ?_, hInv.gs0, hInv.fromS, ?_, ?_, ?_, ?_, ?_, ?_, ?_, ?_,
    hCurClosed1, hg, ?_⟩
  · intro p hp
    exact hInv.okeys p (objDelete_entries hp)
  · intro p hp
    rcases objSet_entries hp with hp | hp
    · exact hInv.ckeys p hp
    · rw [hp]
      exact ⟨rfl, hcurcell⟩
  · exact nodup_objKeys_objDelete _ hInv.onodup
  · exact nodup_objKeys_objSet _ hInv.cnodup
  · intro k hk hkc
    have hk' : k ∈ objKeys st.openSet ∧ k ≠ current.id := by
      have : k ∈ (objKeys st.openSet).filter (fun x => x != current.id) := by
        rw [← objKeys_objDelete]
        exact hk
      have h2 := List.mem_filter.mp this
      refine ⟨h2.1, ?_⟩
      simpa using h2.2
    have : k ∈ objKeys st.closedSet ++ [current.id] := by
      rcases List.mem_map.mp hkc with ⟨p, hp, hpk⟩
      rcases objSet_entries hp with hp | hp
      · exact List.mem_append.mpr (Or.inl (List.mem_map.mpr ⟨p, hp, hpk⟩))
      · rw [hp] at hpk
        simp [← hpk]
    rcases List.mem_append.mp this with h | h
    · exact hInv.disj k hk'.1 h
    · exact hk'.2 (by simpa using h)
  · exact hMem1 s hInv.sMem
  · intro k v hkv
    rcases hInv.gdom k v hkv with ⟨c, hc, hcid⟩
    exact ⟨c, hMem1 c hc, hcid⟩
  · intro c hc
    exact hInv.gf c (hMemRev c hc)
  · intro c hc gv hgv
    rcases hInv.chains c (hMemRev c hc) gv hgv with ⟨l, hl, hnd, helem⟩
    refine ⟨l, hl, hnd, ?_⟩
    intro e he
    rcases helem e he with he' | he'
    · exact Or.inl he'
    · exact Or.inr (hClosed1 e he')
  · intro c hc gv hgv p hp
    rcases hClosedRev c hc with he | hc'
    · subst he
      have : gcur = gv := by
        rw [hg] at hgv
        exact Option.some.inj hgv
      rw [← this]
      exact hmin p hp
    · exact hInv.copt c hc' gv hgv p hp
  · intro c hc hne n hn
    rcases hClosedRev c hc with he | hc'
    · exact absurd he hne
    · exact hMem1 n (hInv.cexp c hc' n hn)
  · intro c hc hne n hn gc gn hgc hgn
    rcases hClosedRev c hc with he | hc'
    · exact absurd he hne
    · exact hInv.cexpBound c hc' n hn gc gn hgc hgn
  · intro n hn
    simp at hn
  · intro n hn
    simp at hn
  · intro c hc
    rcases hClosedRev c hc with he | hc'
    · rw [he]
      exact hnt
    · exact hInv.tnc c hc'

theorem updateNeighbor_closed {t current : MazeUnit} {st : AState} {n : MazeUnit}
    (h : (objGet st.closedSet n.id).isSome = true) :
    updateNeighbor t current st n = st := by
  unfold updateNeighbor
  rw [if_pos h]

theorem updateNeighbor_skip {t current : MazeUnit} {st : AState} {n : MazeUnit}
    (h1 : (objGet st.closedSet n.id).isSome = false)
    (h2 : geInf (infAdd (mapGet st.gScore current) (cost current n))
      (mapGet st.gScore n) = true) :
    updateNeighbor t current st n = { st with openSet := objSet st.openSet n.id n } := by
  simp only [updateNeighbor, h1, Bool.false_eq_true, if_false, h2, if_true]

theorem updateNeighbor_update {t current : MazeUnit} {st : AState} {n : MazeUnit} {tv : Nat}
    (h1 : (objGet st.closedSet n.id).isSome = false)
    (htv : infAdd (mapGet st.gScore current) (cost current n) = some tv)
    (h2 : geInf (some tv) (mapGet st.gScore n) = false) :
    updateNeighbor t current st n =
      { st with openSet := objSet st.openSet n.id n,
                fromMap := objSet st.fromMap n.id current,
                gScore := objSet st.gScore n.id tv,
                fScore := objSet st.fScore n.id (tv + cost n t) } := by
  simp only [updateNeighbor, h1, Bool.false_eq_true, if_false, htv, h2]

theorem midInv_update {maze : Maze} {s t current : MazeUnit} {gcur : Nat}
    {processed : List MazeUnit} {st : AState}
    (hinj : ∀ a ∈ cellsOf maze, ∀ b ∈ cellsOf maze, a.id = b.id → a = b)
    (hM : MidInv maze s t current gcur processed st) {n : MazeUnit}
    (hn : n ∈ neighborsOf maze current) :
    MidInv maze s t current gcur (processed ++ [n]) (updateNeighbor t current st n) := by
  have hncell : n ∈ cellsOf maze := mem_neighbors_cells hn
  by_cases hA : (objGet st.closedSet n.id).isSome = true
  · rw [updateNeighbor_closed hA]
    rcases Option.isSome_iff_exists.mp hA with ⟨c', hc'⟩
    have hkey := hM.ckeys _ (objGet_eq_some_mem hc')
    have hcn : c' = n := hinj c' hkey.2 n hncell hkey.1.symm
    have hnclosed : InClosed st n := by
      show objGet st.closedSet n.id = some n
      rw [hc', hcn]
    rcases hM.chains current (Or.inr hM.curClosed) gcur hM.curG with ⟨l, hchain, _, _⟩
    obtain ⟨hreach, hcost⟩ := hchain.reach
    have hlast : l.reverse.getLast? = some current := by
      rw [List.getLast?_reverse]
      exact hchain.fc_head
    have hext : ReachPath maze s n (l.reverse ++ [n]) := ReachPath.snoc hreach hn
    have hextcost : pathCost (l.reverse ++ [n]) = gcur + cost current n := by
      rw [pathCost_append_single hlast, hcost]
    refine ⟨hM.okeys, hM.ckeys, hM.onodup, hM.cnodup, hM.disj, hM.sMem, hM.gs0, hM.fromS,
      hM.gdom, hM.gf, hM.chains, hM.copt, hM.cexpOld, hM.cexpBoundOld, ?_, ?_,
      hM.curClosed, hM.curG, hM.tnc⟩
    · intro m hm
      rcases List.mem_append.mp hm with hm | hm
      · exact hM.cexpCur m hm
      · rw [List.mem_singleton.mp hm]
        exact Or.inr hnclosed
    · intro m hm gn hgn
      rcases List.mem_append.mp hm with hm | hm
      · exact hM.cexpBoundCur m hm gn hgn
      · rw [List.mem_singleton.mp hm] at hgn ⊢
        have := hM.copt n hnclosed gn hgn _ hext
        rw [hextcost] at this
        exact this
  · have hA' : (objGet st.closedSet n.id).isSome = false := by
      simpa using hA
    have hnone : objGet st.closedSet n.id = none := by
      cases he : objGet st.closedSet n.id
      · rfl
      · rw [he] at hA'
        cases hA'
    have hnidnc : n.id ∉ objKeys st.closedSet := by
      rw [← objGet_eq_none_iff]
      exact hnone
    have htv : infAdd (mapGet st.gScore current) (cost current n)
        = some (gcur + cost current n) := by
      unfold mapGet
      rw [hM.curG]
      rfl
    have hOpenSelf : objGet (objSet st.openSet n.id n) n.id = some n :=
      objGet_objSet_self _ _ _
    have hOpen2 : ∀ c : MazeUnit, InOpen st c →
        objGet (objSet st.openSet n.id n) c.id = some c := by
      intro c hc
      by_cases hcid : c.id = n.id
      · have hceq : c = n := hinj c (cell_mem_of_objGet hM.okeys hc) n hncell hcid
        rw [hcid, hOpenSelf, hceq]
      · rw [objGet_objSet_ne _ hcid]
        exact hc
    have hOpenRev2 : ∀ c : MazeUnit, objGet (objSet st.openSet n.id n) c.id = some c →
        c = n ∨ InOpen st c := by
      intro c hc
      by_cases hcid : c.id = n.id
      · rw [hcid, hOpenSelf] at hc
        exact Or.inl (Option.some.inj hc).symm
      · rw [objGet_objSet_ne _ hcid] at hc
        exact Or.inr hc
    have hokeys2 : ∀ p ∈ objSet st.openSet n.id n, p.1 = p.2.id ∧ p.2 ∈ cellsOf maze := by
      intro p hp
      rcases objSet_entries hp with hp | hp
      · exact hM.okeys p hp
      · rw [hp]
        exact ⟨rfl, hncell⟩
    have honodup2 : (objKeys (objSet st.openSet n.id n)).Nodup :=
      nodup_objKeys_objSet n hM.onodup
    have hdisj2 : ∀ k, k ∈ objKeys (objSet st.openSet n.id n) →
        k ∉ objKeys st.closedSet := by
      intro k hk
      by_cases hmem : n.id ∈ objKeys st.openSet
      · rw [objKeys_objSet_of_mem _ hmem] at hk
        exact hM.disj k hk
      · rw [objKeys_objSet_of_not_mem _ hmem] at hk
        rcases List.mem_append.mp hk with hk | hk
        · exact hM.disj k hk
        · rw [List.mem_singleton.mp hk]
          exact hnidnc
    by_cases hB : geInf (some (gcur + cost current n)) (mapGet st.gScore n) = true
    · rw [updateNeighbor_skip hA' (by rw [htv]; exact hB)]
      have hgn0 : ∃ gn0, objGet st.gScore n.id = some gn0 ∧ gn0 ≤ gcur + cost current n := by
        unfold geInf at hB
        unfold mapGet at hB
        cases he : objGet st.gScore n.id
        · rw [he] at hB
          cases hB
        · rw [he] at hB
          exact ⟨_, rfl, by simpa using hB⟩
      rcases hgn0 with ⟨gn0, hgn0, hgle⟩
      have hnmem : InOpen st n ∨ InClosed st n := by
        rcases hM.gdom n.id gn0 hgn0 with ⟨c0, hc0, hc0id⟩
        have hc0cell : c0 ∈ cellsOf maze := by
          rcases hc0 with h | h
          · exact cell_mem_of_objGet hM.okeys h
          · exact cell_mem_of_objGet hM.ckeys h
        have hc0n : c0 = n := hinj c0 hc0cell n hncell hc0id
        rw [← hc0n]
        exact hc0
      have hMemRev : ∀ c : MazeUnit,
          objGet (objSet st.openSet n.id n) c.id = some c ∨ InClosed st c →
          InOpen st c ∨ InClosed st c := by
        intro c hc
        rcases hc with hc | hc
        · rcases hOpenRev2 c hc with he | hc'
          · rw [he]
            exact hnmem
          · exact Or.inl hc'
        · exact Or.inr hc
      refine ⟨hokeys2, hM.ckeys, honodup2, hM.cnodup, hdisj2, ?_, hM.gs0, hM.fromS,
        ?_, ?_, ?_, hM.copt, ?_, hM.cexpBoundOld, ?_, ?_, hM.curClosed, hM.curG, hM.tnc⟩
      · rcases hM.sMem with h | h
        · exact Or.inl (hOpen2 s h)
        · exact Or.inr h
      · intro k v hkv
        rcases hM.gdom k v hkv with ⟨c, hc, hcid⟩
        rcases hc with hc | hc
        · exact ⟨c, Or.inl (hOpen2 c hc), hcid⟩
        · exact ⟨c, Or.inr hc, hcid⟩
      · intro c hc
        exact hM.gf c (hMemRev c hc)
      · intro c hc gv hgv
        exact hM.chains c (hMemRev c hc) gv hgv
      · intro c hc hne n' hn'
        rcases hM.cexpOld c hc hne n' hn' with h | h
        · exact Or.inl (hOpen2 n' h)
        · exact Or.inr h
      · intro m hm
        rcases List.mem_append.mp hm with hm | hm
        · rcases hM.cexpCur m hm with h | h
          · exact Or.inl (hOpen2 m h)
          · exact Or.inr h
        · rw [List.mem_singleton.mp hm]
          exact Or.inl hOpenSelf
      · intro m hm gn hgn
        rcases List.mem_append.mp hm with hm | hm
        · exact hM.cexpBoundCur m hm gn hgn
        · rw [List.mem_singleton.mp hm] at hgn ⊢
          have : gn = gn0 := by
            rw [hgn0] at hgn
            exact (Option.some.inj hgn).symm
          omega
    · have hB' : geInf (some (gcur + cost current n)) (mapGet st.gScore n) = false := by
        simpa using hB
      rw [updateNeighbor_update hA' htv hB']
      have holdg : objGet st.gScore n.id = none ∨
          ∃ gn0, objGet st.gScore n.id = some gn0 ∧ gcur + cost current n < gn0 := by
        unfold geInf mapGet at hB'
        cases he : objGet st.gScore n.id
        · exact Or.inl rfl
        · rw [he] at hB'
          right
          refine ⟨_, rfl, ?_⟩
          have := of_decide_eq_false hB'
          omega
      have hns : n.id ≠ s.id := by
        intro he
        rcases holdg with h | ⟨gn0, hgn0, hlt⟩
        · rw [he, hM.gs0] at h
          cases h
        · rw [he, hM.gs0] at hgn0
          have : (0 : Nat) = gn0 := Option.some.inj hgn0
          omega
      have hncur : n.id ≠ current.id := by
        intro he
        apply hnidnc
        rw [he]
        exact hM.curClosed.mem_keys_closed
      have hClosedNe : ∀ e : MazeUnit, InClosed st e → e.id ≠ n.id := by
        intro e he heq
        apply hnidnc
        rw [← heq]
        exact he.mem_keys_closed
      have hGSelf : objGet (objSet st.gScore n.id (gcur + cost current n)) n.id
          = some (gcur + cost current n) := objGet_objSet_self _ _ _
      have hFSelf : objGet (objSet st.fScore n.id (gcur + cost current n + cost n t)) n.id
          = some (gcur + cost current n + cost n t) := objGet_objSet_self _ _ _
      have hFromSelf : objGet (objSet st.fromMap n.id current) n.id = some current :=
        objGet_objSet_self _ _ _
      refine ⟨hokeys2, hM.ckeys, honodup2, hM.cnodup, hdisj2, ?_, ?_, ?_,
        ?_, ?_, ?_, ?_, ?_, ?_, ?_, ?_, hM.curClosed, ?_, hM.tnc⟩
      · rcases hM.sMem with h | h
        · exact Or.inl (hOpen2 s h)
        · exact Or.inr h
      · show objGet (objSet st.gScore n.id (gcur + cost current n)) s.id = some 0
        rw [objGet_objSet_ne _ (Ne.symm hns)]
        exact hM.gs0
      · show objGet (objSet st.fromMap n.id current) s.id = none
        rw [objGet_objSet_ne _ (Ne.symm hns)]
        exact hM.fromS
      · intro k v hkv
        by_cases hk : k = n.id
        · refine ⟨n, Or.inl ?_, hk.symm⟩
          exact hOpenSelf
        · rw [objGet_objSet_ne _ hk] at hkv
          rcases hM.gdom k v hkv with ⟨c, hc, hcid⟩
          rcases hc with hc | hc
          · exact ⟨c, Or.inl (hOpen2 c hc), hcid⟩
          · exact ⟨c, Or.inr hc, hcid⟩
      · -- gf
        intro c hc
        by_cases hcn : c = n
        · rw [hcn]
          exact ⟨gcur + cost current n, hGSelf, hFSelf⟩
        · have hcold : (InOpen st c ∨ InClosed st c) ∧ c.id ≠ n.id := by
            rcases hc with hc | hc
            · rcases hOpenRev2 c hc with he | hc'
              · exact absurd he hcn
              · refine ⟨Or.inl hc', ?_⟩
                intro heq
                exact hcn (hinj c (cell_mem_of_objGet hM.okeys hc') n hncell heq)
            · exact ⟨Or.inr hc, hClosedNe c hc⟩
          rcases hM.gf c hcold.1 with ⟨gv, hg, hf⟩
          refine ⟨gv, ?_, ?_⟩
          · show objGet (objSet st.gScore n.id (gcur + cost current n)) c.id = some gv
            rw [objGet_objSet_ne _ hcold.2]
            exact hg
          · show objGet (objSet st.fScore n.id (gcur + cost current n + cost n t)) c.id
              = some (gv + cost c t)
            rw [objGet_objSet_ne _ hcold.2]
            exact hf
      · -- chains
        intro c hc gv hgv
        by_cases hcn : c = n
        · rw [hcn] at hgv ⊢
          have hgv' : gv = gcur + cost current n := by
            rw [hGSelf] at hgv
            exact (Option.some.inj hgv).symm
          rcases hM.chains current (Or.inr hM.curClosed) gcur hM.curG with
            ⟨l, hchain, hnd, helem⟩
          have hids : ∀ e ∈ l, e.id ≠ n.id := by
            intro e he
            rcases helem e he with he' | he'
            · rw [he']
              exact Ne.symm hncur
            · exact hClosedNe e he'
          have hchain' := fromChain_stable (v := current) hchain hids
          refine ⟨n :: l, ?_, ?_, ?_⟩
          · rw [hgv']
            exact FromChain.step hFromSelf hchain' hn
          · refine List.nodup_cons.mpr ⟨?_, hnd⟩
            intro hmem
            exact (hids n hmem) rfl
          · intro e he
            rcases List.mem_cons.mp he with he | he
            · exact Or.inl he
            · rcases helem e he with he' | he'
              · rw [he']
                exact Or.inr hM.curClosed
              · exact Or.inr he'
        · have hcold : (InOpen st c ∨ InClosed st c) ∧ c.id ≠ n.id := by
            rcases hc with hc | hc
            · rcases hOpenRev2 c hc with he | hc'
              · exact absurd he hcn
              · refine ⟨Or.inl hc', ?_⟩
                intro heq
                exact hcn (hinj c (cell_mem_of_objGet hM.okeys hc') n hncell heq)
            · exact ⟨Or.inr hc, hClosedNe c hc⟩
          have hgv' : objGet st.gScore c.id = some gv := by
            have : objGet (objSet st.gScore n.id (gcur + cost current n)) c.id = some gv := hgv
            rwa [objGet_objSet_ne _ hcold.2] at this
          rcases hM.chains c hcold.1 gv hgv' with ⟨l, hchain, hnd, helem⟩
          have hids : ∀ e ∈ l, e.id ≠ n.id := by
            intro e he
            rcases helem e he with he' | he'
            · rw [he']
              exact hcold.2
            · exact hClosedNe e he'
          exact ⟨l, fromChain_stable (v := current) hchain hids, hnd, helem⟩
      · -- copt
        intro c hc gv hgv p hp
        have hcid : c.id ≠ n.id := hClosedNe c hc
        have hgv' : objGet st.gScore c.id = some gv := by
          have : objGet (objSet st.gScore n.id (gcur + cost current n)) c.id = some gv := hgv
          rwa [objGet_objSet_ne _ hcid] at this
        exact hM.copt c hc gv hgv' p hp
      · -- cexpOld membership
        intro c hc hne n' hn'
        rcases hM.cexpOld c hc hne n' hn' with h | h
        · exact Or.inl (hOpen2 n' h)
        · exact Or.inr h
      · -- cexpBoundOld
        intro c hc hne n' hn' gc gn hgc hgn
        have hcid : c.id ≠ n.id := hClosedNe c hc
        have hgc' : objGet st.gScore c.id = some gc := by
          have : objGet (objSet st.gScore n.id (gcur + cost current n)) c.id = some gc := hgc
          rwa [objGet_objSet_ne _ hcid] at this
        by_cases hn'id : n'.id = n.id
        · have hn'cell : n' ∈ cellsOf maze := mem_neighbors_cells hn'
          have hn'n : n' = n := hinj n' hn'cell n hncell hn'id
          have hgn' : gn = gcur + cost current n := by
            have : objGet (objSet st.gScore n.id (gcur + cost current n)) n'.id
                = some gn := hgn
            rw [hn'id, hGSelf] at this
            exact (Option.some.inj this).symm
          have hmem' := hM.cexpOld c hc hne n' hn'
          rcases hM.gf n' hmem' with ⟨gn0, hgn0, _⟩
          have hgn0' : objGet st.gScore n.id = some gn0 := by
            rw [← hn'id]
            exact hgn0
          rcases holdg with hcontra | ⟨gn1, hgn1, hlt⟩
          · rw [hgn0'] at hcontra
            cases hcontra
          · have : gn0 = gn1 := by
              rw [hgn0'] at hgn1
              exact Option.some.inj hgn1
            have hbd := hM.cexpBoundOld c hc hne n' hn' gc gn0 hgc' hgn0
            rw [hn'n] at hbd
            rw [hgn', hn'n]
            omega
        · have hgn' : objGet st.gScore n'.id = some gn := by
            have : objGet (objSet st.gScore n.id (gcur + cost current n)) n'.id
                = some gn := hgn
            rwa [objGet_objSet_ne _ hn'id] at this
          exact hM.cexpBoundOld c hc hne n' hn' gc gn hgc' hgn'
      · -- cexpCur
        intro m hm
        rcases List.mem_append.mp hm with hm | hm
        · rcases hM.cexpCur m hm with h | h
          · exact Or.inl (hOpen2 m h)
          · exact Or.inr h
        · rw [List.mem_singleton.mp hm]
          exact Or.inl hOpenSelf
      · -- cexpBoundCur
        intro m hm gn hgn
        rcases List.mem_append.mp hm with hm | hm
        · by_cases hmid : m.id = n.id
          · have hmcell : m ∈ cellsOf maze := by
              rcases hM.cexpCur m hm with h | h
              · exact cell_mem_of_objGet hM.okeys h
              · exact cell_mem_of_objGet hM.ckeys h
            have hmn : m = n := hinj m hmcell n hncell hmid
            have : gn = gcur + cost current n := by
              have h2 : objGet (objSet st.gScore n.id (gcur + cost current n)) m.id
                  = some gn := hgn
              rw [hmid, hGSelf] at h2
              exact (Option.some.inj h2).symm
            rw [this, hmn]
          · have hgn' : objGet st.gScore m.id = some gn := by
              have h2 : objGet (objSet st.gScore n.id (gcur + cost current n)) m.id
                  = some gn := hgn
              rwa [objGet_objSet_ne _ hmid] at h2
            exact hM.cexpBoundCur m hm gn hgn'
        · rw [List.mem_singleton.mp hm] at hgn ⊢
          have : gn = gcur + cost current n := by
            have h2 : objGet (objSet st.gScore n.id (gcur + cost current n)) n.id
                = some gn := hgn
            rw [hGSelf] at h2
            exact (Option.some.inj h2).symm
          rw [this]
      · -- curG
        show objGet (objSet st.gScore n.id (gcur + cost current n)) current.id = some gcur
        rw [objGet_objSet_ne _ (Ne.symm hncur)]
        exact hM.curG

theorem midInv_fold {maze : Maze} {s t current : MazeUnit} {gcur : Nat}
    (hinj : ∀ a ∈ cellsOf maze, ∀ b ∈ cellsOf maze, a.id = b.id → a = b) :
    ∀ (todo processed : List MazeUnit) (st : AState),
      MidInv maze s t current gcur processed st →
      (∀ m ∈ todo, m ∈ neighborsOf maze current) →
      MidInv maze s t current gcur (processed ++ todo)
        (todo.foldl (updateNeighbor t current) st) := by
  intro todo
  induction todo with
  | nil =>
    intro processed st hM _
    simpa using hM
  | cons m todo ih =>
    intro processed st hM hmem
    have h1 := midInv_update hinj hM (hmem m (by simp))
    have h2 := ih (processed ++ [m]) _ h1 (fun x hx => hmem x (by simp [hx]))
    simpa using h2

theorem AInv.of_midInv {maze : Maze} {s t current : MazeUnit} {gcur : Nat} {st : AState}
    (hM : MidInv maze s t current gcur (neighborsOf maze current) st) :
    AInv maze s t st := by
  refine ⟨hM.okeys, hM.ckeys, hM.onodup, hM.cnodup, hM.disj, hM.sMem, hM.gs0, hM.fromS,
    hM.gdom, hM.gf, hM.chains, hM.copt, ?_, ?_, hM.tnc⟩
  · intro c hc n hn
    by_cases he : c = current
    · rw [he] at hn
      exact hM.cexpCur n hn
    · exact hM.cexpOld c hc he n hn
  · intro c hc n hn gc gn hgc hgn
    by_cases he : c = current
    · rw [he] at hn hgc ⊢
      have hgcur : gcur = gc := by
        rw [hM.curG] at hgc
        exact Option.some.inj hgc
      have := hM.cexpBoundCur n hn gn hgn
      omega
    · exact hM.cexpBoundOld c hc he n hn gc gn hgc hgn

theorem astarLoop_succ_nil {maze : Maze} {t : MazeUnit} {fuel : Nat} {st : AState}
    (h : st.openSet.map Prod.snd = []) :
    astarLoop maze t (fuel + 1) st = some [] := by
  simp only [astarLoop, h]

theorem astarLoop_succ_cons {maze : Maze} {t : MazeUnit} {fuel : Nat} {st : AState}
    {u0 : MazeUnit} {vrest : List MazeUnit}
    (h : st.openSet.map Prod.snd = u0 :: vrest) :
    astarLoop maze t (fuel + 1) st =
      (if (pickCurrent st.fScore u0 (u0 :: vrest)).i = t.i ∧
          (pickCurrent st.fScore u0 (u0 :: vrest)).j = t.j then
        some (buildPath st.fromMap (st.fromMap.length + 1)
          (pickCurrent st.fScore u0 (u0 :: vrest)))
      else
        astarLoop maze t fuel
          ((neighborsOf maze (pickCurrent st.fScore u0 (u0 :: vrest))).foldl
            (updateNeighbor t (pickCurrent st.fScore u0 (u0 :: vrest)))
            { st with
              openSet := objDelete st.openSet (pickCurrent st.fScore u0 (u0 :: vrest)).id
              closedSet := objSet st.closedSet
                (pickCurrent st.fScore u0 (u0 :: vrest)).id
                (pickCurrent st.fScore u0 (u0 :: vrest)) })) := by
  simp only [astarLoop, h]

/-- What the main loop guarantees about its result (when the fuel suffices):
either the empty sequence with no valid path from start to target, or a
reversed optimal path from the start to the cell at the target's
coordinates. -/
def LoopPost (maze : Maze) (s t : MazeUnit) (r : List MazeUnit) : Prop :=
  (r = [] ∧ ∀ p, ¬ ValidPath maze s t p) ∨
  (∃ c, c ∈ cellsOf maze ∧ c.i = t.i ∧ c.j = t.j ∧ r.head? = some c ∧
    r.getLast? = some s ∧ ValidPath maze s c r.reverse ∧
    (∀ p, ValidPath maze s c p → pathCost r.reverse ≤ pathCost p) ∧
    (∀ e ∈ r.dropLast, e.isBlock = false))

theorem astarLoop_post {maze : Maze} {s t : MazeUnit}
    (hinj : ∀ a ∈ cellsOf maze, ∀ b ∈ cellsOf maze, a.id = b.id → a = b)
    (hs : s ∈ cellsOf maze) :
    ∀ (fuel : Nat) (st : AState), AInv maze s t st →
      ∀ r, astarLoop maze t fuel st = some r → LoopPost maze s t r := by
  intro fuel
  induction fuel with
  | zero =>
    intro st _ r hr
    cases hr
  | succ fuel ih =>
    intro st hInv r hr
    cases hov : st.openSet.map Prod.snd with
    | nil =>
      rw [astarLoop_succ_nil hov] at hr
      obtain rfl : [] = r := Option.some.inj hr
      left
      refine ⟨rfl, ?_⟩
      intro p hp
      have hreach := validPath_reachPath hp
      have htc : ¬ InClosed st t := by
        intro ht
        exact hInv.tnc t ht ⟨rfl, rfl⟩
      obtain ⟨y, gy, hyopen, _, _⟩ := frontier_reach hInv hreach htc
      have : y ∈ st.openSet.map Prod.snd :=
        (mem_values_iff hInv.okeys hInv.onodup).mpr hyopen
      rw [hov] at this
      cases this
    | cons u0 vrest =>
      rw [astarLoop_succ_cons hov] at hr
      obtain ⟨hcuropen, hcurmin⟩ := current_optimal hInv hov
      by_cases hhit : (pickCurrent st.fScore u0 (u0 :: vrest)).i = t.i ∧
          (pickCurrent st.fScore u0 (u0 :: vrest)).j = t.j
      · rw [if_pos hhit] at hr
        obtain rfl : buildPath st.fromMap (st.fromMap.length + 1)
            (pickCurrent st.fScore u0 (u0 :: vrest)) = r := Option.some.inj hr
        right
        obtain ⟨gcur, hg, _⟩ := hInv.gf _ (Or.inl hcuropen)
        obtain ⟨l, hchain, hnd, _⟩ := hInv.chains _ (Or.inl hcuropen) gcur hg
        have hbuild : buildPath st.fromMap (st.fromMap.length + 1)
            (pickCurrent st.fScore u0 (u0 :: vrest)) = l :=
          buildPath_eq_of_fromChain hchain _
            (le_trans (fromChain_length_le hinj hs hchain hnd) (Nat.le_succ _))
        obtain ⟨hreach, hcost⟩ := hchain.reach
        refine ⟨pickCurrent st.fScore u0 (u0 :: vrest),
          cell_mem_of_objGet hInv.okeys hcuropen, hhit.1, hhit.2, ?_, ?_, ?_, ?_, ?_⟩
        · rw [hbuild]
          exact hchain.fc_head
        · rw [hbuild]
          exact hchain.fc_last
        · rw [hbuild]
          exact hreach.validPath
        · intro p hp
          rw [hbuild, hcost]
          exact hcurmin gcur hg p (validPath_reachPath hp)
        · rw [hbuild]
          exact hchain.dropLast_unblocked
      · rw [if_neg hhit] at hr
        obtain ⟨gcur, hg, _⟩ := hInv.gf _ (Or.inl hcuropen)
        have hmid := midInv_pop hinj hs hInv hcuropen hg (hcurmin gcur hg) hhit
        have hfold := midInv_fold hinj
          (neighborsOf maze (pickCurrent st.fScore u0 (u0 :: vrest))) [] _ hmid
          (fun m hm => hm)
        have hInv2 : AInv maze s t
            ((neighborsOf maze (pickCurrent st.fScore u0 (u0 :: vrest))).foldl
              (updateNeighbor t (pickCurrent st.fScore u0 (u0 :: vrest)))
              { st with
                openSet := objDelete st.openSet
                  (pickCurrent st.fScore u0 (u0 :: vrest)).id
                closedSet := objSet st.closedSet
                  (pickCurrent st.fScore u0 (u0 :: vrest)).id
                  (pickCurrent st.fScore u0 (u0 :: vrest)) }) := by
          apply AInv.of_midInv
          simpa using hfold
        exact ih _ hInv2 r hr

/-! ## Termination of the main loop -/

theorem updateNeighbor_cases (t c : MazeUnit) (st : AState) (n : MazeUnit) :
    updateNeighbor t c st n = st ∨
    (updateNeighbor t c st n = { st with openSet := objSet st.openSet n.id n } ∧
      objGet st.closedSet n.id = none) ∨
    (∃ tv, updateNeighbor t c st n =
        { st with openSet := objSet st.openSet n.id n,
                  fromMap := objSet st.fromMap n.id c,
                  gScore := objSet st.gScore n.id tv,
                  fScore := objSet st.fScore n.id (tv + cost n t) } ∧
      objGet st.closedSet n.id = none) := by
  by_cases hA : (objGet st.closedSet n.id).isSome = true
  · exact Or.inl (updateNeighbor_closed hA)
  · have hA' : (objGet st.closedSet n.id).isSome = false := by simpa using hA
    have hnone : objGet st.closedSet n.id = none := by
      cases he : objGet st.closedSet n.id
      · rfl
      · rw [he] at hA'
        cases hA'
    by_cases hB : geInf (infAdd (mapGet st.gScore c) (cost c n)) (mapGet st.gScore n) = true
    · exact Or.inr (Or.inl ⟨updateNeighbor_skip hA' hB, hnone⟩)
    · rcases htv : infAdd (mapGet st.gScore c) (cost c n) with _ | tv
      · exfalso
        apply hB
        rw [htv]
        rfl
      · have hB' : geInf (some tv) (mapGet st.gScore n) = false := by
          rw [htv] at hB
          simpa using hB
      
        exact Or.inr (Or.inr ⟨tv, updateNeighbor_update hA' htv hB', hnone⟩)

theorem updateNeighbor_closedSet (t c : MazeUnit) (st : AState) (n : MazeUnit) :
    (updateNeighbor t c st n).closedSet = st.closedSet := by
  rcases updateNeighbor_cases t c st n with h | ⟨h, _⟩ | ⟨tv, h, _⟩ <;> rw [h]

theorem updateNeighbor_openSet_entries (t c : MazeUnit) (st : AState) (n : MazeUnit) :
    ∀ p ∈ (updateNeighbor t c st n).openSet,
      p ∈ st.openSet ∨ (p = (n.id, n) ∧ objGet st.closedSet n.id = none) := by
  intro p hp
  rcases updateNeighbor_cases t c st n with h | ⟨h, hnone⟩ | ⟨tv, h, hnone⟩
  · rw [h] at hp
    exact Or.inl hp
  · rw [h] at hp
    rcases objSet_entries hp with h' | h'
    · exact Or.inl h'
    · exact Or.inr ⟨h', hnone⟩
  · rw [h] at hp
    rcases objSet_entries hp with h' | h'
    · exact Or.inl h'
    · exact Or.inr ⟨h', hnone⟩

theorem foldl_closedSet (t c : MazeUnit) :
    ∀ (todo : List MazeUnit) (st : AState),
      (todo.foldl (updateNeighbor t c) st).closedSet = st.closedSet := by
  intro todo
  induction todo with
  | nil => intro st; rfl
  | cons m todo ih =>
    intro st
    rw [List.foldl_cons, ih, updateNeighbor_closedSet]

theorem foldl_open_entries (t c : MazeUnit) :
    ∀ (todo : List MazeUnit) (st : AState),
      ∀ p ∈ (todo.foldl (updateNeighbor t c) st).openSet,
        p ∈ st.openSet ∨
          ∃ m ∈ todo, p = (m.id, m) ∧ objGet st.closedSet m.id = none := by
  intro todo
  induction todo with
  | nil =>
    intro st p hp
    exact Or.inl hp
  | cons m todo ih =>
    intro st p hp
    rw [List.foldl_cons] at hp
    rcases ih _ p hp with h | ⟨m', hm', he, hc⟩
    · rcases updateNeighbor_openSet_entries t c st m p h with h | ⟨he, hc⟩
      · exact Or.inl h
      · exact Or.inr ⟨m, by simp, he, hc⟩
    · rw [updateNeighbor_closedSet] at hc
      exact Or.inr ⟨m', by simp [hm'], he, hc⟩

/-- The lightweight invariant needed for termination alone. -/
structure TermInv (maze : Maze) (s : MazeUnit) (st : AState) : Prop where
  okeyed : ∀ p ∈ st.openSet, p.1 = p.2.id
  openIds : ∀ k ∈ objKeys st.openSet, k = s.id ∨ k ∈ (cellsOf maze).map MazeUnit.id
  closedIds : ∀ k ∈ objKeys st.closedSet, k = s.id ∨ k ∈ (cellsOf maze).map MazeUnit.id
  cnodup : (objKeys st.closedSet).Nodup
  disj : ∀ k, k ∈ objKeys st.openSet → k ∉ objKeys st.closedSet

theorem cellsOf_length (maze : Maze) : (cellsOf maze).length = mazeSize maze := by
  unfold cellsOf mazeSize
  rw [List.length_flatten]

theorem TermInv.closed_le {maze : Maze} {s : MazeUnit} {st : AState}
    (h : TermInv maze s st) : (objKeys st.closedSet).length ≤ mazeSize maze + 1 := by
  have hsub : objKeys st.closedSet ⊆ s.id :: (cellsOf maze).map MazeUnit.id := by
    intro k hk
    rcases h.closedIds k hk with h' | h'
    · rw [h']
      simp
    · simp [h']
  have := nodup_subset_length h.cnodup hsub
  simp only [List.length_cons, List.length_map] at this
  rw [cellsOf_length] at this
  omega

theorem astarLoop_isSome {maze : Maze} {s t : MazeUnit} :
    ∀ (fuel : Nat) (st : AState), TermInv maze s st →
      mazeSize maze + 2 ≤ fuel + (objKeys st.closedSet).length →
      ∃ r, astarLoop maze t fuel st = some r := by
  intro fuel
  induction fuel with
  | zero =>
    intro st hT hb
    have := hT.closed_le
    omega
  | succ fuel ih =>
    intro st hT hb
    cases hov : st.openSet.map Prod.snd with
    | nil => exact ⟨[], astarLoop_succ_nil hov⟩
    | cons u0 vrest =>
      rw [astarLoop_succ_cons hov]
      by_cases hhit : (pickCurrent st.fScore u0 (u0 :: vrest)).i = t.i ∧
          (pickCurrent st.fScore u0 (u0 :: vrest)).j = t.j
      · rw [if_pos hhit]
        exact ⟨_, rfl⟩
      · rw [if_neg hhit]
        set current := pickCurrent st.fScore u0 (u0 :: vrest) with hcur
        have hcurval : current ∈ st.openSet.map Prod.snd := by
          rw [hov, hcur]
          have := pickCurrent_mem st.fScore (u0 :: vrest) u0
          rcases List.mem_cons.mp this with h | h
          · rw [h]
            simp
          · exact h
        have hcidopen : current.id ∈ objKeys st.openSet := by
          rcases List.mem_map.mp hcurval with ⟨p, hp, hpe⟩
          have := hT.okeyed p hp
          rw [hpe] at this
          exact List.mem_map.mpr ⟨p, hp, this⟩
        have hcidnc : current.id ∉ objKeys st.closedSet := hT.disj _ hcidopen
        set st1 : AState :=
          { st with openSet := objDelete st.openSet current.id,
                    closedSet := objSet st.closedSet current.id current } with hst1
        set st2 := (neighborsOf maze current).foldl (updateNeighbor t current) st1 with hst2
        have hclosed2 : st2.closedSet = objSet st.closedSet current.id current := by
          rw [hst2, foldl_closedSet]
        have hkeys2 : objKeys st2.closedSet = objKeys st.closedSet ++ [current.id] := by
          rw [hclosed2]
          exact objKeys_objSet_of_not_mem current hcidnc
        have hT2 : TermInv maze s st2 := by
          refine ⟨?_, ?_, ?_, ?_, ?_⟩
          · intro p hp
            rcases foldl_open_entries t current _ st1 p hp with h | ⟨m, _, he, _⟩
            · exact hT.okeyed p (objDelete_entries h)
            · rw [he]
          · intro k hk
            rcases List.mem_map.mp hk with ⟨p, hp, hpk⟩
            rcases foldl_open_entries t current _ st1 p hp with h | ⟨m, hm, he, _⟩
            · apply hT.openIds k
              apply List.mem_map.mpr
              exact ⟨p, objDelete_entries h, hpk⟩
            · right
              rw [← hpk, he]
              exact List.mem_map.mpr ⟨m, mem_neighbors_cells hm, rfl⟩
          · intro k hk
            rw [hkeys2] at hk
            rcases List.mem_append.mp hk with hk | hk
            · exact hT.closedIds k hk
            · rw [List.mem_singleton.mp hk]
              rcases List.mem_map.mp hcurval with ⟨p, hp, hpe⟩
              have hkeq := hT.okeyed p hp
              apply hT.openIds current.id
              rw [← hpe, ← hkeq]
              exact List.mem_map.mpr ⟨p, hp, rfl⟩
          · rw [hkeys2]
            refine List.Nodup.append hT.cnodup (List.nodup_singleton _) ?_
            intro k hk hk'
            rw [List.mem_singleton.mp hk'] at hk
            exact hcidnc hk
          · intro k hk
            rcases List.mem_map.mp hk with ⟨p, hp, hpk⟩
            rcases foldl_open_entries t current _ st1 p hp with h | ⟨m, hm, he, hc⟩
            · have hmem : k ∈ objKeys (objDelete st.openSet current.id) :=
                List.mem_map.mpr ⟨p, h, hpk⟩
              rw [objKeys_objDelete] at hmem
              have h2 := List.mem_filter.mp hmem
              rw [hkeys2]
              intro hcontra
              rcases List.mem_append.mp hcontra with hcontra | hcontra
              · exact hT.disj k h2.1 hcontra
              · have : k ≠ current.id := by simpa using h2.2
                exact this (List.mem_singleton.mp hcontra)
            · have hkm : k = m.id := by
                rw [he] at hpk
                exact hpk.symm
              have hc' : objGet st2.closedSet m.id = none := by
                rw [hclosed2]
                exact hc
              have hnotin : m.id ∉ objKeys st2.closedSet := by
                rw [← objGet_eq_none_iff]
                exact hc'
              rw [hkm]
              exact hnotin
        have hlen2 : (objKeys st2.closedSet).length = (objKeys st.closedSet).length + 1 := by
          rw [hkeys2]
          simp
        exact ih st2 hT2 (by omega)

/-! ## Well-formed grids

`generateMaze` produces a rectangular matrix whose cell at `[i][j]` carries
grid coordinates `(i, j)`, pixel position `(i*unitSize, j*unitSize)` and the
identity string `i + ":" + j` (distinct positions get distinct ids).
`wellFormedB` is the executable statement of those data-model invariants. -/

def wellFormedB (maze : Maze) (unitSize rows : Nat) : Bool :=
  decide (0 < unitSize) &&
  maze.all (fun col => col.length == rows) &&
  (List.range maze.length).all (fun i =>
    (List.range rows).all (fun j =>
      match getMazeUnit maze (i : Int) (j : Int) with
      | some c => decide (c.i = i ∧ c.j = j ∧ c.x = (i : Int) * unitSize ∧
          c.y = (j : Int) * unitSize)
      | none => false)) &&
  (cellsOf maze).all (fun a => (cellsOf maze).all (fun b => decide (a.id = b.id → a = b)))

def WellFormed (maze : Maze) (unitSize rows : Nat) : Prop :=
  wellFormedB maze unitSize rows = true

instance (maze : Maze) (unitSize rows : Nat) : Decidable (WellFormed maze unitSize rows) :=
  inferInstanceAs (Decidable (wellFormedB maze unitSize rows = true))

theorem getMazeUnit_nat (maze : Maze) (i j : Nat) :
    getMazeUnit maze (i : Int) (j : Int) =
      (match maze[i]? with
       | some row => row[j]?
       | none => none) := by
  unfold getMazeUnit jsIndex
  rw [if_neg (by omega : ¬ (i : Int) < 0), Int.toNat_natCast]
  cases maze[i]? with
  | none => rfl
  | some row =>
    simp only
    rw [if_neg (by omega : ¬ (j : Int) < 0), Int.toNat_natCast]

theorem mem_cellsOf_iff {maze : Maze} {c : MazeUnit} :
    c ∈ cellsOf maze ↔ ∃ (i j : Nat), getMazeUnit maze (i : Int) (j : Int) = some c := by
  unfold cellsOf
  rw [List.mem_flatten]
  constructor
  · rintro ⟨row, hrow, hc⟩
    rcases List.mem_iff_getElem?.mp hrow with ⟨i, hi⟩
    rcases List.mem_iff_getElem?.mp hc with ⟨j, hj⟩
    refine ⟨i, j, ?_⟩
    rw [getMazeUnit_nat, hi]
    exact hj
  · rintro ⟨i, j, h⟩
    rw [getMazeUnit_nat] at h
    cases hi : maze[i]? with
    | none => rw [hi] at h; cases h
    | some row =>
      rw [hi] at h
      exact ⟨row, List.mem_iff_getElem?.mpr ⟨i, hi⟩, List.mem_iff_getElem?.mpr ⟨j, h⟩⟩

theorem WellFormed.unit_pos {maze : Maze} {u rows : Nat} (h : WellFormed maze u rows) :
    0 < u := by
  unfold WellFormed wellFormedB at h
  simp only [Bool.and_eq_true, decide_eq_true_eq] at h
  exact h.1.1.1

theorem WellFormed.col_len {maze : Maze} {u rows : Nat} (h : WellFormed maze u rows) :
    ∀ col ∈ maze, col.length = rows := by
  unfold WellFormed wellFormedB at h
  simp only [Bool.and_eq_true, List.all_eq_true, beq_iff_eq] at h
  exact h.1.1.2

theorem WellFormed.idInj {maze : Maze} {u rows : Nat} (h : WellFormed maze u rows) :
    ∀ a ∈ cellsOf maze, ∀ b ∈ cellsOf maze, a.id = b.id → a = b := by
  unfold WellFormed wellFormedB at h
  simp only [Bool.and_eq_true, List.all_eq_true, decide_eq_true_eq] at h
  exact h.2

theorem WellFormed.cell_at {maze : Maze} {u rows : Nat} (h : WellFormed maze u rows) :
    ∀ (i j : Nat) (c : MazeUnit), getMazeUnit maze (i : Int) (j : Int) = some c →
      c.i = i ∧ c.j = j ∧ c.x = (i : Int) * u ∧ c.y = (j : Int) * u := by
  intro i j c hc
  have hcl := h.col_len
  unfold WellFormed wellFormedB at h
  simp only [Bool.and_eq_true, List.all_eq_true] at h
  have hrange := h.1.2
  have hij : i < maze.length ∧ j < rows := by
    rw [getMazeUnit_nat] at hc
    cases hrow : maze[i]? with
    | none => rw [hrow] at hc; cases hc
    | some row =>
      rw [hrow] at hc
      have hi : i < maze.length := (List.getElem?_eq_some_iff.mp hrow).1
      have hj : j < row.length := (List.getElem?_eq_some_iff.mp hc).1
      have hrmem : row ∈ maze := List.mem_iff_getElem?.mpr ⟨i, hrow⟩
      rw [hcl row hrmem] at hj
      exact ⟨hi, hj⟩
  have h1 := hrange i (List.mem_range.mpr hij.1) j (List.mem_range.mpr hij.2)
  rw [hc] at h1
  simpa using h1

theorem WellFormed.exists_cell {maze : Maze} {u rows : Nat} (h : WellFormed maze u rows)
    {i j : Nat} (hi : i < maze.length) (hj : j < rows) :
    ∃ c, getMazeUnit maze (i : Int) (j : Int) = some c := by
  unfold WellFormed wellFormedB at h
  simp only [Bool.and_eq_true, List.all_eq_true] at h
  have h1 := h.1.2 i (List.mem_range.mpr hi) j (List.mem_range.mpr hj)
  cases hc : getMazeUnit maze (i : Int) (j : Int) with
  | none =>
    rw [hc] at h1
    cases h1
  | some c => exact ⟨c, rfl⟩

theorem WellFormed.mem_bounds {maze : Maze} {u rows : Nat} (h : WellFormed maze u rows)
    {c : MazeUnit} (hc : c ∈ cellsOf maze) : c.i < maze.length ∧ c.j < rows := by
  rcases mem_cellsOf_iff.mp hc with ⟨i, j, hij⟩
  obtain ⟨hi, hj, _, _⟩ := h.cell_at i j c hij
  subst hi
  subst hj
  rw [getMazeUnit_nat] at hij
  cases hrow : maze[c.i]? with
  | none => rw [hrow] at hij; cases hij
  | some row =>
    rw [hrow] at hij
    refine ⟨(List.getElem?_eq_some_iff.mp hrow).1, ?_⟩
    have := (List.getElem?_eq_some_iff.mp hij).1
    rw [h.col_len row (List.mem_iff_getElem?.mpr ⟨c.i, hrow⟩)] at this
    exact this

theorem WellFormed.cell_pos {maze : Maze} {u rows : Nat} (h : WellFormed maze u rows)
    {c : MazeUnit} (hc : c ∈ cellsOf maze) :
    getMazeUnit maze (c.i : Int) (c.j : Int) = some c := by
  rcases mem_cellsOf_iff.mp hc with ⟨i, j, hij⟩
  obtain ⟨hi, hj, _, _⟩ := h.cell_at i j c hij
  subst hi
  subst hj
  exact hij

theorem WellFormed.pix {maze : Maze} {u rows : Nat} (h : WellFormed maze u rows)
    {c : MazeUnit} (hc : c ∈ cellsOf maze) :
    c.x = (c.i : Int) * u ∧ c.y = (c.j : Int) * u := by
  obtain ⟨_, _, hx, hy⟩ := h.cell_at c.i c.j c (h.cell_pos hc)
  exact ⟨hx, hy⟩

theorem WellFormed.coord_inj {maze : Maze} {u rows : Nat} (h : WellFormed maze u rows)
    {a b : MazeUnit} (ha : a ∈ cellsOf maze) (hb : b ∈ cellsOf maze)
    (hi : a.i = b.i) (hj : a.j = b.j) : a = b := by
  have h1 := h.cell_pos ha
  have h2 := h.cell_pos hb
  rw [hi, hj] at h1
  rw [h1] at h2
  exact Option.some.inj h2

/-! ## Geometry of well-formed grids -/

/-- 4-adjacency of grid coordinates: exactly one axis differs, by one. -/
def adjacent (a b : MazeUnit) : Prop :=
  (b.i = a.i + 1 ∧ b.j = a.j) ∨ (b.i + 1 = a.i ∧ b.j = a.j) ∨
  (b.i = a.i ∧ b.j = a.j + 1) ∨ (b.i = a.i ∧ b.j + 1 = a.j)

theorem getMazeUnit_nonneg {maze : Maze} {ix iy : Int} {c : MazeUnit}
    (h : getMazeUnit maze ix iy = some c) : 0 ≤ ix ∧ 0 ≤ iy := by
  unfold getMazeUnit jsIndex at h
  by_cases hx : ix < 0
  · rw [if_pos hx] at h
    cases h
  · rw [if_neg hx] at h
    cases hrow : maze[ix.toNat]? with
    | none =>
      rw [hrow] at h
      cases h
    | some row =>
      rw [hrow] at h
      simp only at h
      by_cases hy : iy < 0
      · rw [if_pos hy] at h
        cases h
      · exact ⟨by omega, by omega⟩

theorem WellFormed.cell_at_int {maze : Maze} {u rows : Nat} (h : WellFormed maze u rows)
    {ix iy : Int} {c : MazeUnit} (hc : getMazeUnit maze ix iy = some c) :
    (c.i : Int) = ix ∧ (c.j : Int) = iy ∧ c.x = ix * u ∧ c.y = iy * u := by
  obtain ⟨hx0, hy0⟩ := getMazeUnit_nonneg hc
  have hix : ix = ((ix.toNat : Nat) : Int) := (Int.toNat_of_nonneg hx0).symm
  have hiy : iy = ((iy.toNat : Nat) : Int) := (Int.toNat_of_nonneg hy0).symm
  rw [hix, hiy] at hc
  obtain ⟨h1, h2, h3, h4⟩ := h.cell_at _ _ c hc
  have hxx : ((ix.toNat : Nat) : Int) = ix := Int.toNat_of_nonneg hx0
  have hyy : ((iy.toNat : Nat) : Int) = iy := Int.toNat_of_nonneg hy0
  refine ⟨by omega, by omega, by rw [h3, hxx], by rw [h4, hyy]⟩

theorem WellFormed.cost_cells {maze : Maze} {u rows : Nat} (h : WellFormed maze u rows)
    {a b : MazeUnit} (ha : a ∈ cellsOf maze) (hb : b ∈ cellsOf maze) :
    cost a b = (((a.i : Int) - b.i).natAbs + ((a.j : Int) - b.j).natAbs) * u := by
  obtain ⟨hax, hay⟩ := h.pix ha
  obtain ⟨hbx, hby⟩ := h.pix hb
  unfold cost
  rw [hax, hay, hbx, hby, ← Int.sub_mul, ← Int.sub_mul, Int.natAbs_mul, Int.natAbs_mul,
    Int.natAbs_ofNat, Nat.add_mul]

theorem WellFormed.neighbor_adjacent {maze : Maze} {u rows : Nat}
    (h : WellFormed maze u rows) {a b : MazeUnit} (ha : a ∈ cellsOf maze)
    (hb : b ∈ neighborsOf maze a) : adjacent a b ∧ cost a b = u := by
  have hbc : b ∈ cellsOf maze := mem_neighbors_cells hb
  unfold neighborsOf at hb
  have hmem := (List.mem_filter.mp hb).1
  rcases List.mem_filterMap.mp hmem with ⟨p, hp, hget⟩
  have hcost : (((a.i : Int) - b.i).natAbs + ((a.j : Int) - b.j).natAbs) = 1 →
      cost a b = u := by
    intro h1
    rw [h.cost_cells ha hbc, h1, Nat.one_mul]
  simp only [List.mem_cons, List.not_mem_nil, or_false] at hp
  rcases hp with hp | hp | hp | hp <;>
    (rw [hp] at hget
     obtain ⟨h1, h2, _, _⟩ := h.cell_at_int hget
     constructor
     · unfold adjacent
       omega
     · apply hcost
       omega)

theorem reachPath_cost_length {maze : Maze} {u rows : Nat} (hwf : WellFormed maze u rows)
    {s c : MazeUnit} {p : List MazeUnit} (hs : s ∈ cellsOf maze)
    (hp : ReachPath maze s c p) : pathCost p = (p.length - 1) * u := by
  induction hp with
  | single => simp [pathCost]
  | @snoc c' n q hq hn ih =>
    have hc' : c' ∈ cellsOf maze := hq.endpoint_cells hs
    have hcost := (hwf.neighbor_adjacent hc' hn).2
    rw [pathCost_append_single hq.last n, ih, hcost]
    have hlen : 1 ≤ q.length := by
      cases hql : q with
      | nil => exact absurd hql hq.ne_nil
      | cons _ _ => simp
    rcases Nat.exists_eq_add_of_le hlen with ⟨k, hk⟩
    rw [List.length_append, hk]
    simp only [List.length_singleton]
    have e1 : (1 + k - 1) = k := by omega
    have e2 : (1 + k + 1 - 1) = k + 1 := by omega
    rw [e1, e2]
    ring

theorem reachPath_cost_lower {maze : Maze} {s z : MazeUnit} {p : List MazeUnit}
    (hp : ReachPath maze s z p) : cost s z ≤ pathCost p := by
  induction hp with
  | single => simp [cost, Int.sub_self, pathCost]
  | @snoc c n q hq hn ih =>
    have htri := cost_triangle s c n
    rw [pathCost_append_single hq.last n]
    omega

theorem mem_neighborsOf_of_getMazeUnit {maze : Maze} {a c : MazeUnit} {ix iy : Int}
    (hpair : (ix, iy) ∈ [((a.i : Int) - 1, (a.j : Int)), ((a.i : Int), (a.j : Int) - 1),
      ((a.i : Int), (a.j : Int) + 1), ((a.i : Int) + 1, (a.j : Int))])
    (hget : getMazeUnit maze ix iy = some c) (hbl : c.isBlock = false) :
    c ∈ neighborsOf maze a := by
  unfold neighborsOf
  apply List.mem_filter.mpr
  refine ⟨List.mem_filterMap.mpr ⟨(ix, iy), hpair, hget⟩, by simp [hbl]⟩

/-- In a fully unblocked well-formed grid, any two cells are joined by a
monotone staircase whose length is the Manhattan step count plus one. -/
theorem staircase {maze : Maze} {u rows : Nat} (hwf : WellFormed maze u rows)
    (hub : ∀ c ∈ cellsOf maze, c.isBlock = false) :
    ∀ (m : Nat) (a b : MazeUnit), a ∈ cellsOf maze → b ∈ cellsOf maze →
      ((a.i : Int) - b.i).natAbs + ((a.j : Int) - b.j).natAbs = m →
      ∃ p, ReachPath maze a b p ∧ p.length = m + 1 := by
  intro m
  induction m using Nat.strong_induction_on with
  | _ m ih =>
    intro a b ha hb hm
    by_cases hij : a.i = b.i ∧ a.j = b.j
    · have hab : a = b := hwf.coord_inj ha hb hij.1 hij.2
      have hm0 : m = 0 := by omega
      refine ⟨[a], ?_, by rw [hm0]; rfl⟩
      rw [hab]
      exact ReachPath.single
    · have hm1 : 1 ≤ m := by omega
      obtain ⟨hai, haj⟩ := hwf.mem_bounds ha
      obtain ⟨hbi, hbj⟩ := hwf.mem_bounds hb
      -- pick a coordinate to move along, towards b
      have hstep : ∃ (i' j' : Nat) (ix iy : Int),
          (ix, iy) ∈ [((a.i : Int) - 1, (a.j : Int)), ((a.i : Int), (a.j : Int) - 1),
            ((a.i : Int), (a.j : Int) + 1), ((a.i : Int) + 1, (a.j : Int))] ∧
          ix = (i' : Int) ∧ iy = (j' : Int) ∧ i' < maze.length ∧ j' < rows ∧
          ((i' : Int) - b.i).natAbs + ((j' : Int) - b.j).natAbs = m - 1 := by
        rcases Nat.lt_trichotomy a.i b.i with hlt | heq | hgt
        · exact ⟨a.i + 1, a.j, (a.i : Int) + 1, (a.j : Int), by simp, by omega, rfl,
            by omega, haj, by omega⟩
        · rcases Nat.lt_trichotomy a.j b.j with hlt' | heq' | hgt'
          · exact ⟨a.i, a.j + 1, (a.i : Int), (a.j : Int) + 1, by simp, rfl, by omega,
              hai, by omega, by omega⟩
          · exact absurd ⟨heq, heq'⟩ hij
          · exact ⟨a.i, a.j - 1, (a.i : Int), (a.j : Int) - 1, by simp, rfl, by omega,
              hai, by omega, by omega⟩
        · exact ⟨a.i - 1, a.j, (a.i : Int) - 1, (a.j : Int), by simp, by omega, rfl,
            by omega, haj, by omega⟩
      obtain ⟨i', j', ix, iy, hpair, hix, hiy, hi', hj', hm'⟩ := hstep
      obtain ⟨a', hget⟩ := hwf.exists_cell hi' hj'
      have hget' : getMazeUnit maze ix iy = some a' := by
        rw [hix, hiy]
        exact hget
      have ha'c : a' ∈ cellsOf maze := getMazeUnit_mem hget'
      obtain ⟨hai', haj', _, _⟩ := hwf.cell_at i' j' a' hget
      have hnb : a' ∈ neighborsOf maze a :=
        mem_neighborsOf_of_getMazeUnit hpair hget' (hub a' ha'c)
      have hmlt : m - 1 < m := by omega
      have hmeq : ((a'.i : Int) - b.i).natAbs + ((a'.j : Int) - b.j).natAbs = m - 1 := by
        rw [hai', haj']
        exact hm'
      obtain ⟨p, hp, hlen⟩ := ih (m - 1) hmlt a' b ha'c hb hmeq
      refine ⟨a :: p, ReachPath.cons_of_neighbor hp hnb, ?_⟩
      simp only [List.length_cons, hlen]
      omega

theorem termInv_init {maze : Maze} {s t : MazeUnit} : TermInv maze s (initState s t) := by
  refine ⟨?_, ?_, ?_, ?_, ?_⟩
  · intro p hp
    rcases List.mem_singleton.mp hp with rfl
    rfl
  · intro k hk
    have : k = s.id := by
      have : objKeys (initState s t).openSet = [s.id] := rfl
      rw [this] at hk
      exact List.mem_singleton.mp hk
    exact Or.inl this
  · intro k hk
    cases hk
  · exact List.nodup_nil
  · intro k _ hk
    cases hk

theorem getPath_eq_some {maze : Maze} {s t : MazeUnit} :
    astarLoop maze t (mazeSize maze + 2) (initState s t) = some (getPath maze s t) := by
  obtain ⟨r, hr⟩ := @astarLoop_isSome maze s t
    (mazeSize maze + 2) (initState s t) termInv_init (by
      show mazeSize maze + 2 ≤ mazeSize maze + 2 + (objKeys ([] : List (String × MazeUnit))).length
      simp [objKeys])
  unfold getPath
  rw [hr]
  rfl

theorem getPath_post {maze : Maze} {s t : MazeUnit}
    (hinj : ∀ a ∈ cellsOf maze, ∀ b ∈ cellsOf maze, a.id = b.id → a = b)
    (hs : s ∈ cellsOf maze) : LoopPost maze s t (getPath maze s t) :=
  astarLoop_post hinj hs _ _ (AInv.init hs) _ getPath_eq_some

/-! ## Concrete grids for the spec's scenarios

`mkCell u i j b` is the cell record exactly as `generateMaze` builds it, with
the random `isBlock` draw replaced by the explicit flag `b`. -/

def mkCell (u i j : Nat) (b : Bool) : MazeUnit :=
  { x := (i : Int) * u, y := (j : Int) * u, w := (u : Int), h := (u : Int),
    i := i, j := j, id := toString i ++ ":" ++ toString j, isBlock := b }

/-- A 3×3 fully unblocked grid with `unitSize = 10`. -/
def maze3x3 : Maze :=
  [[mkCell 10 0 0 false, mkCell 10 0 1 false, mkCell 10 0 2 false],
   [mkCell 10 1 0 false, mkCell 10 1 1 false, mkCell 10 1 2 false],
   [mkCell 10 2 0 false, mkCell 10 2 1 false, mkCell 10 2 2 false]]

/-- Scenario B of the spec: a 3×1 grid whose middle cell `(1,0)` is blocked. -/
def maze31 : Maze :=
  [[mkCell 10 0 0 false], [mkCell 10 1 0 true], [mkCell 10 2 0 false]]

/-- A 2×1 unblocked grid. -/
def maze21 : Maze := [[mkCell 10 0 0 false], [mkCell 10 1 0 false]]

theorem chain'_imp_mem {α : Type} {R S : α → α → Prop} :
    ∀ {l : List α}, List.Chain' R l → (∀ a ∈ l, ∀ b ∈ l, R a b → S a b) →
      List.Chain' S l := by
  intro l
  induction l with
  | nil =>
    intro _ _
    exact List.chain'_nil
  | cons a l ih =>
    intro h himp
    cases l with
    | nil => exact List.chain'_singleton a
    | cons b m =>
      rw [List.chain'_cons] at h ⊢
      refine ⟨himp a (by simp) b (by simp) h.1, ?_⟩
      exact ih h.2 (fun x hx y hy hr => himp x (by simp [hx]) y (by simp [hy]) hr)

/-- C7: `getPath(maze, a, a)` returns `[a]`, for any grid and any cell,
blocked or not: the target-coordinate test fires on the very first pop,
before any blocked-status check could apply. -/
theorem getPath_start_eq_target (maze : Maze) (a : MazeUnit) :
    getPath maze a a = [a] := by
  have hov : (initState a a).openSet.map Prod.snd = [a] := rfl
  have h1 : astarLoop maze a (mazeSize maze + 1 + 1) (initState a a) = some [a] := by
    rw [astarLoop_succ_cons hov]
    have hpick : pickCurrent (initState a a).fScore a [a] = a := by
      show (if numLt (objGet (initState a a).fScore a.id)
          (objGet (initState a a).fScore a.id) = true then a else a) = a
      exact ite_self a
    rw [hpick, if_pos ⟨rfl, rfl⟩]
    rfl
  have h2 := @getPath_eq_some maze a a
  rw [h1] at h2
  exact (Option.some.inj h2).symm

/-- C5: the search always terminates: the main loop, given fuel
`mazeSize + 2` (one more than the number of cells the closed set can ever
hold), returns a result rather than running out, and `getPath` is that
result. -/
theorem getPath_terminates (maze : Maze) (s t : MazeUnit) :
    ∃ r, astarLoop maze t (mazeSize maze + 2) (initState s t) = some r ∧
      getPath maze s t = r :=
  ⟨getPath maze s t, getPath_eq_some, rfl⟩

/-- C2: a non-empty result starts at the target's coordinates and ends at the
start cell: the path is returned in reverse order. -/
theorem getPath_target_first_start_last {maze : Maze} {u rows : Nat} {s t : MazeUnit}
    (hwf : WellFormed maze u rows) (hs : s ∈ cellsOf maze)
    (hne : getPath maze s t ≠ []) :
    (∃ c, (getPath maze s t).head? = some c ∧ c.i = t.i ∧ c.j = t.j) ∧
    (getPath maze s t).getLast? = some s := by
  rcases getPath_post hwf.idInj hs with ⟨he, _⟩ | ⟨c, _, hi, hj, hh, hl, _, _, _⟩
  · exact absurd he hne
  · exact ⟨⟨c, hh, hi, hj⟩, hl⟩

set_option maxHeartbeats 1000000 in
theorem getPath_target_first_start_last_witness :
    (∃ c, (getPath maze3x3 (mkCell 10 0 0 false) (mkCell 10 2 2 false)).head? = some c ∧
      c.i = (mkCell 10 2 2 false).i ∧ c.j = (mkCell 10 2 2 false).j) ∧
    (getPath maze3x3 (mkCell 10 0 0 false) (mkCell 10 2 2 false)).getLast? =
      some (mkCell 10 0 0 false) :=
  @getPath_target_first_start_last maze3x3 10 3 (mkCell 10 0 0 false) (mkCell 10 2 2 false)
    (by decide) (by decide) (by decide)

/-- C10: in a non-empty result, every cell except the last (the start cell)
is unblocked — interior cells and the target were all admitted through the
unblocked-neighbour filter. -/
theorem getPath_interior_unblocked {maze : Maze} {u rows : Nat} {s t : MazeUnit}
    (hwf : WellFormed maze u rows) (hs : s ∈ cellsOf maze) :
    ∀ e ∈ (getPath maze s t).dropLast, e.isBlock = false := by
  rcases getPath_post hwf.idInj hs with ⟨he, _⟩ | ⟨c, _, _, _, _, _, _, _, hub⟩
  · rw [he]
    intro e he'
    cases he'
  · exact hub

set_option maxHeartbeats 1000000 in
theorem getPath_interior_unblocked_witness :
    (mkCell 10 1 0 true) ∈ cellsOf maze31 ∧
    ∀ e ∈ (getPath maze31 (mkCell 10 1 0 true) (mkCell 10 0 0 false)).dropLast,
      e.isBlock = false :=
  ⟨by decide, @getPath_interior_unblocked maze31 10 1 (mkCell 10 1 0 true)
    (mkCell 10 0 0 false) (by decide) (by decide)⟩

/-- C6: any two consecutive cells of the returned sequence are 4-adjacent:
their grid coordinates differ by exactly one unit in exactly one axis. -/
theorem getPath_consecutive_adjacent {maze : Maze} {u rows : Nat} {s t : MazeUnit}
    (hwf : WellFormed maze u rows) (hs : s ∈ cellsOf maze) :
    List.Chain' (fun a b => adjacent b a) (getPath maze s t) := by
  rcases getPath_post hwf.idInj hs with ⟨he, _⟩ | ⟨c, _, _, _, _, _, hvp, _, _⟩
  · rw [he]
    exact List.chain'_nil
  · have hreach := validPath_reachPath hvp
    have hmem : ∀ e ∈ (getPath maze s t).reverse, e ∈ cellsOf maze :=
      hreach.mem_cells hs
    have hchain := hvp.2.2
    have hflip : List.Chain' (fun a b => a ∈ neighborsOf maze b) (getPath maze s t) := by
      have := List.chain'_reverse.mp hchain
      exact this
    apply chain'_imp_mem hflip
    intro a ha b hb hr
    have hbcell : b ∈ cellsOf maze := hmem b (List.mem_reverse.mpr hb)
    exact (hwf.neighbor_adjacent hbcell hr).1

set_option maxHeartbeats 1000000 in
theorem getPath_consecutive_adjacent_witness :
    List.Chain' (fun a b => adjacent b a)
      (getPath maze21 (mkCell 10 0 0 false) (mkCell 10 1 0 false)) :=
  @getPath_consecutive_adjacent maze21 10 1 (mkCell 10 0 0 false) (mkCell 10 1 0 false)
    (by decide) (by decide)

/-- C3: the result is empty exactly when no path of unblocked steps joins
start to target (target matched by coordinate equality); in particular the
3×1 grid with its middle cell blocked yields the empty sequence. -/
theorem getPath_empty_iff_unreachable :
    (∀ (maze : Maze) (u rows : Nat) (s t : MazeUnit), WellFormed maze u rows →
      s ∈ cellsOf maze → t ∈ cellsOf maze →
      (getPath maze s t = [] ↔ ¬ ∃ p, ValidPath maze s t p)) ∧
    getPath maze31 (mkCell 10 0 0 false) (mkCell 10 2 0 false) = [] := by
  constructor
  · intro maze u rows s t hwf hs ht
    constructor
    · rintro he ⟨p, hp⟩
      rcases getPath_post hwf.idInj hs with ⟨_, hnone⟩ | ⟨c, _, _, _, hh, _, _, _, _⟩
      · exact hnone p hp
      · rw [he] at hh
        cases hh
    · intro hnp
      by_contra hne
      rcases getPath_post hwf.idInj hs with ⟨he, _⟩ | ⟨c, hcell, hi, hj, _, _, hvp, _, _⟩
      · exact hne he
      · have hct : c = t := hwf.coord_inj hcell ht hi hj
        rw [hct] at hvp
        exact hnp ⟨_, hvp⟩
  · decide

set_option maxHeartbeats 1000000 in
theorem getPath_empty_iff_unreachable_witness :
    getPath maze31 (mkCell 10 0 0 false) (mkCell 10 2 0 false) = [] ↔
      ¬ ∃ p, ValidPath maze31 (mkCell 10 0 0 false) (mkCell 10 2 0 false) p :=
  getPath_empty_iff_unreachable.1 maze31 10 1 (mkCell 10 0 0 false) (mkCell 10 2 0 false)
    (by decide) (by decide) (by decide)

/-- C1: whenever the target is reachable, `getPath` returns a non-empty
sequence which, reversed, is a valid path from start to target whose cost —
`(length - 1) * unitSize` — is minimal among all 4-connected unblocked paths;
on a fully unblocked grid the length is the Manhattan distance plus one. -/
theorem getPath_returns_shortest_path :
    (∀ (maze : Maze) (u rows : Nat) (s t : MazeUnit), WellFormed maze u rows →
      s ∈ cellsOf maze → t ∈ cellsOf maze → (∃ p, ValidPath maze s t p) →
      getPath maze s t ≠ [] ∧ ValidPath maze s t (getPath maze s t).reverse ∧
      pathCost (getPath maze s t).reverse = ((getPath maze s t).length - 1) * u ∧
      ∀ p, ValidPath maze s t p → ((getPath maze s t).length - 1) * u ≤ pathCost p) ∧
    (∀ (maze : Maze) (u rows : Nat) (s t : MazeUnit), WellFormed maze u rows →
      (∀ c ∈ cellsOf maze, c.isBlock = false) → s ∈ cellsOf maze → t ∈ cellsOf maze →
      (getPath maze s t).length =
        ((s.i : Int) - t.i).natAbs + ((s.j : Int) - t.j).natAbs + 1) := by
  have key : ∀ (maze : Maze) (u rows : Nat) (s t : MazeUnit), WellFormed maze u rows →
      s ∈ cellsOf maze → t ∈ cellsOf maze → (∃ p, ValidPath maze s t p) →
      getPath maze s t ≠ [] ∧ ValidPath maze s t (getPath maze s t).reverse ∧
      pathCost (getPath maze s t).reverse = ((getPath maze s t).length - 1) * u ∧
      ∀ p, ValidPath maze s t p → ((getPath maze s t).length - 1) * u ≤ pathCost p := by
    rintro maze u rows s t hwf hs ht ⟨p0, hp0⟩
    rcases getPath_post hwf.idInj hs with ⟨_, hnone⟩ | ⟨c, hcell, hi, hj, hh, _, hvp, hmin, _⟩
    · exact absurd hp0 (hnone p0)
    · have hct : c = t := hwf.coord_inj hcell ht hi hj
      rw [hct] at hvp hmin
      have hne : getPath maze s t ≠ [] := by
        intro he
        rw [he] at hh
        cases hh
      have hreach := validPath_reachPath hvp
      have hcl : pathCost (getPath maze s t).reverse
          = ((getPath maze s t).reverse.length - 1) * u :=
        reachPath_cost_length hwf hs hreach
      rw [List.length_reverse] at hcl
      refine ⟨hne, hvp, hcl, ?_⟩
      intro p hp
      rw [← hcl]
      exact hmin p hp
  refine ⟨key, ?_⟩
  intro maze u rows s t hwf hub hs ht
  obtain ⟨p0, hp0, hlen0⟩ := staircase hwf hub _ s t hs ht rfl
  obtain ⟨hne, hvp, hcosteq, hmin⟩ := key maze u rows s t hwf hs ht ⟨p0, hp0.validPath⟩
  have h1 := hmin p0 hp0.validPath
  have hp0cost : pathCost p0 =
      (((s.i : Int) - t.i).natAbs + ((s.j : Int) - t.j).natAbs) * u := by
    rw [reachPath_cost_length hwf hs hp0, hlen0]
    simp
  have hlow := reachPath_cost_lower (validPath_reachPath hvp)
  have hst : cost s t = (((s.i : Int) - t.i).natAbs + ((s.j : Int) - t.j).natAbs) * u :=
    hwf.cost_cells hs ht
  have hu := hwf.unit_pos
  have hle1 : ((getPath maze s t).length - 1) * u ≤
      (((s.i : Int) - t.i).natAbs + ((s.j : Int) - t.j).natAbs) * u := by
    rw [← hp0cost]
    exact h1
  have hle2 : (((s.i : Int) - t.i).natAbs + ((s.j : Int) - t.j).natAbs) * u ≤
      ((getPath maze s t).length - 1) * u := by
    rw [← hst, ← hcosteq]
    exact hlow
  have heq := Nat.eq_of_mul_eq_mul_right hu (Nat.le_antisymm hle1 hle2)
  have hlen1 : 1 ≤ (getPath maze s t).length := by
    cases hl : getPath maze s t with
    | nil => exact absurd hl hne
    | cons _ _ => simp
  omega

set_option maxHeartbeats 1000000 in
theorem getPath_returns_shortest_path_witness :
    getPath maze21 (mkCell 10 0 0 false) (mkCell 10 1 0 false) ≠ [] ∧
    (getPath maze21 (mkCell 10 0 0 false) (mkCell 10 1 0 false)).length = 2 := by
  obtain ⟨hne, _, _, _⟩ := getPath_returns_shortest_path.1 maze21 10 1
    (mkCell 10 0 0 false) (mkCell 10 1 0 false) (by decide) (by decide) (by decide)
    ⟨[mkCell 10 0 0 false, mkCell 10 1 0 false], by decide⟩
  have hlen := getPath_returns_shortest_path.2 maze21 10 1
    (mkCell 10 0 0 false) (mkCell 10 1 0 false) (by decide) (by decide) (by decide)
    (by decide)
  refine ⟨hne, ?_⟩
  rw [hlen]
  decide

/-! ## The `part_000` variant

`part_000`'s `getPath` uses a native `Set`/`WeakMap` keyed by object identity
and a `from` map keyed by the pixel-derived string `unit.x + ":" + unit.y`.
Object identity is modelled by value equality on the cell records, which is
faithful for the grids in question: each grid position is one object, and
distinct grid cells differ in their coordinate fields. -/

/-- `getId(unit) = unit.x + ":" + unit.y` of `part_000`. -/
def pixelId (c : MazeUnit) : String :=
  toString c.x ++ ":" ++ toString c.y

/-- Native `Set.has` (object identity). -/
def setHas (l : List MazeUnit) (c : MazeUnit) : Bool :=
  l.any (fun x => decide (x = c))

/-- Native `Set.add`: appends in insertion order, no-op when present. -/
def setAdd (l : List MazeUnit) (c : MazeUnit) : List MazeUnit :=
  if setHas l c then l else l ++ [c]

/-- Native `Set.delete`. -/
def setDelete (l : List MazeUnit) (c : MazeUnit) : List MazeUnit :=
  l.filter (fun x => !decide (x = c))

/-- Native `WeakMap.get` (object-keyed). -/
def wmGet (m : List (MazeUnit × Nat)) (c : MazeUnit) : Option Nat :=
  (m.find? (fun p => decide (p.1 = c))).map (·.2)

/-- Native `WeakMap.set`. -/
def wmSet (m : List (MazeUnit × Nat)) (c : MazeUnit) (v : Nat) : List (MazeUnit × Nat) :=
  if (wmGet m c).isSome then
    m.map (fun p => if decide (p.1 = c) then (c, v) else p)
  else
    m ++ [(c, v)]

/-- The search bookkeeping of `part_000`'s `getPath`. -/
structure AState0 where
  closedSet : List MazeUnit
  openSet : List MazeUnit
  fromMap : List (String × MazeUnit)
  gScore : List (MazeUnit × Nat)
  fScore : List (MazeUnit × Nat)

/-- The minimum-`fScore` scan of `part_000`. -/
def pickCurrent0 (f : List (MazeUnit × Nat)) (cur : MazeUnit) : List MazeUnit → MazeUnit
  | [] => cur
  | u :: rest =>
      pickCurrent0 f (if numLt (wmGet f u) (wmGet f cur) then u else cur) rest

/-- `buildPath` of `part_000` (an inner closure there), keyed by `getId`. -/
def buildPath0 (fromMap : List (String × MazeUnit)) : Nat → MazeUnit → List MazeUnit
  | 0, unit => [unit]
  | fuel + 1, unit =>
    match objGet fromMap (pixelId unit) with
    | some parent => unit :: buildPath0 fromMap fuel parent
    | none => [unit]

/-- The `neighbors.forEach` body of `part_000`'s `getPath`. -/
def updateNeighbor0 (targetPoint current : MazeUnit)
    (st : AState0) (neighbor : MazeUnit) : AState0 :=
  if setHas st.closedSet neighbor then st
  else
    let newOpen := setAdd st.openSet neighbor
    let tentative := infAdd (wmGet st.gScore current) (cost current neighbor)
    if geInf tentative (wmGet st.gScore neighbor) then
      { st with openSet := newOpen }
    else
      match tentative with
      | none => { st with openSet := newOpen }
      | some t =>
        { st with
          openSet := newOpen
          fromMap := objSet st.fromMap (pixelId neighbor) current
          gScore := wmSet st.gScore neighbor t
          fScore := wmSet st.fScore neighbor (t + cost neighbor targetPoint) }

/-- The `while` loop of `part_000`'s `getPath`, with fuel. -/
def astarLoop0 (maze : Maze) (targetPoint : MazeUnit) :
    Nat → AState0 → Option (List MazeUnit)
  | 0, _ => none
  | fuel + 1, st =>
    match st.openSet with
    | [] => some []
    | u0 :: rest =>
      let current := pickCurrent0 st.fScore u0 (u0 :: rest)
      if current.i = targetPoint.i ∧ current.j = targetPoint.j then
        some (buildPath0 st.fromMap (st.fromMap.length + 1) current)
      else
        let st1 : AState0 :=
          { st with
            openSet := setDelete st.openSet current
            closedSet := setAdd st.closedSet current }
        astarLoop0 maze targetPoint fuel
          ((neighborsOf maze current).foldl (updateNeighbor0 targetPoint current) st1)

/-- `getPath` of `part_000` (same fuel discipline as the `part_001` model). -/
def getPath0 (maze : Maze) (startPoint targetPoint : MazeUnit) : List MazeUnit :=
  (astarLoop0 maze targetPoint (mazeSize maze + 2)
    { closedSet := []
      openSet := [startPoint]
      fromMap := []
      gScore := [(startPoint, 0)]
      fScore := [(startPoint, cost startPoint targetPoint)] }).getD []

/-! ## Equivalence of the two variants -/

/-- Correspondence between a `part_000` state and a `part_001` state: the
same cells in the same order everywhere; the `from` maps are entrywise
parallel, keyed by `pixelId` on one side and by `id` on the other. -/
structure StateRel (maze : Maze) (st0 : AState0) (st1 : AState) : Prop where
  closedEq : st0.closedSet = st1.closedSet.map Prod.snd
  openEq : st0.openSet = st1.openSet.map Prod.snd
  closedKeyed : ∀ p ∈ st1.closedSet, p.1 = p.2.id ∧ p.2 ∈ cellsOf maze
  openKeyed : ∀ p ∈ st1.openSet, p.1 = p.2.id ∧ p.2 ∈ cellsOf maze
  fromRel : List.Forall₂ (fun p q => ∃ n : MazeUnit, n ∈ cellsOf maze ∧ p.1 = pixelId n ∧
      q.1 = n.id ∧ p.2 = q.2 ∧ p.2 ∈ cellsOf maze) st0.fromMap st1.fromMap
  gRel : List.Forall₂ (fun (p : MazeUnit × Nat) (q : String × Nat) =>
      p.1 ∈ cellsOf maze ∧ q.1 = p.1.id ∧ p.2 = q.2) st0.gScore st1.gScore
  fRel : List.Forall₂ (fun (p : MazeUnit × Nat) (q : String × Nat) =>
      p.1 ∈ cellsOf maze ∧ q.1 = p.1.id ∧ p.2 = q.2) st0.fScore st1.fScore

theorem forall₂_mem_left {α β : Type} {R : α → β → Prop} :
    ∀ {l0 : List α} {l1 : List β}, List.Forall₂ R l0 l1 → ∀ p ∈ l0, ∃ q ∈ l1, R p q := by
  intro l0 l1 h
  induction h with
  | nil =>
    intro p hp
    cases hp
  | @cons a b l0' l1' hpq _ ih =>
    intro p hp
    rcases List.mem_cons.mp hp with hp | hp
    · refine ⟨b, by simp, ?_⟩
      rw [hp]
      exact hpq
    · rcases ih p hp with ⟨q, hq, hr⟩
      exact ⟨q, by simp [hq], hr⟩

theorem wmGet_transfer {maze : Maze}
    (hidinj : ∀ a ∈ cellsOf maze, ∀ b ∈ cellsOf maze, a.id = b.id → a = b)
    {g0 : List (MazeUnit × Nat)} {g1 : List (String × Nat)}
    (hrel : List.Forall₂ (fun (p : MazeUnit × Nat) (q : String × Nat) =>
      p.1 ∈ cellsOf maze ∧ q.1 = p.1.id ∧ p.2 = q.2) g0 g1)
    {c : MazeUnit} (hc : c ∈ cellsOf maze) : wmGet g0 c = objGet g1 c.id := by
  induction hrel with
  | nil => rfl
  | @cons p q g0' g1' hpq _ ih =>
    obtain ⟨hm, hk, hv⟩ := hpq
    have htest : (decide (p.1 = c)) = (q.1 == c.id) := by
      by_cases he : p.1 = c
      · rw [he] at hk
        simp [he, hk]
      · have hne : q.1 ≠ c.id := by
          rw [hk]
          intro hq
          exact he (hidinj p.1 hm c hc hq)
        simp [he, hne]
    show (List.find? (fun p => decide (p.1 = c)) (p :: g0')).map (·.2)
        = (List.find? (fun p => p.1 == c.id) (q :: g1')).map (·.2)
    rw [List.find?_cons, List.find?_cons]
    cases hd : decide (p.1 = c) with
    | false =>
      rw [hd] at htest
      rw [← htest]
      exact ih
    | true =>
      rw [hd] at htest
      rw [← htest]
      exact congrArg some hv

theorem fromGet_transfer {maze : Maze}
    (hpinj : ∀ a ∈ cellsOf maze, ∀ b ∈ cellsOf maze, pixelId a = pixelId b → a = b)
    (hidinj : ∀ a ∈ cellsOf maze, ∀ b ∈ cellsOf maze, a.id = b.id → a = b)
    {fm0 fm1 : List (String × MazeUnit)}
    (hrel : List.Forall₂ (fun p q => ∃ n : MazeUnit, n ∈ cellsOf maze ∧ p.1 = pixelId n ∧
      q.1 = n.id ∧ p.2 = q.2 ∧ p.2 ∈ cellsOf maze) fm0 fm1)
    {c : MazeUnit} (hc : c ∈ cellsOf maze) :
    objGet fm0 (pixelId c) = objGet fm1 c.id := by
  induction hrel with
  | nil => rfl
  | @cons p q fm0' fm1' hpq _ ih =>
    obtain ⟨n, hn, hk0, hk1, hv, _⟩ := hpq
    have htest : (p.1 == pixelId c) = (q.1 == c.id) := by
      by_cases he : n = c
      · rw [hk0, hk1, he]
        simp
      · have h1 : p.1 ≠ pixelId c := by
          rw [hk0]
          intro hq
          exact he (hpinj n hn c hc hq)
        have h2 : q.1 ≠ c.id := by
          rw [hk1]
          intro hq
          exact he (hidinj n hn c hc hq)
        simp [h1, h2]
    show (List.find? (fun p => p.1 == pixelId c) (p :: fm0')).map (·.2)
        = (List.find? (fun p => p.1 == c.id) (q :: fm1')).map (·.2)
    rw [List.find?_cons, List.find?_cons]
    cases hd : (p.1 == pixelId c) with
    | false =>
      rw [hd] at htest
      rw [← htest]
      exact ih
    | true =>
      rw [hd] at htest
      rw [← htest]
      exact congrArg some hv

theorem fromGet_cells {maze : Maze} {fm0 fm1 : List (String × MazeUnit)}
    (hrel : List.Forall₂ (fun p q => ∃ n : MazeUnit, n ∈ cellsOf maze ∧ p.1 = pixelId n ∧
      q.1 = n.id ∧ p.2 = q.2 ∧ p.2 ∈ cellsOf maze) fm0 fm1)
    {k : String} {v : MazeUnit} (h : objGet fm0 k = some v) : v ∈ cellsOf maze := by
  have hmem := objGet_eq_some_mem h
  rcases forall₂_mem_left hrel _ hmem with ⟨q, _, hq⟩
  rcases hq with ⟨n, _, _, _, hv, hcell⟩
  exact hcell

theorem values_key_iff {maze : Maze}
    (hidinj : ∀ a ∈ cellsOf maze, ∀ b ∈ cellsOf maze, a.id = b.id → a = b)
    {l : List (String × MazeUnit)}
    (hk : ∀ p ∈ l, p.1 = p.2.id ∧ p.2 ∈ cellsOf maze)
    {c : MazeUnit} (hc : c ∈ cellsOf maze) :
    setHas (l.map Prod.snd) c = (objGet l c.id).isSome := by
  induction l with
  | nil => rfl
  | cons p l ih =>
    have hkp := hk p (by simp)
    have hktail : ∀ q ∈ l, q.1 = q.2.id ∧ q.2 ∈ cellsOf maze :=
      fun q hq => hk q (by simp [hq])
    show (decide (p.2 = c) || setHas (l.map Prod.snd) c) = _
    rw [objGet_cons]
    by_cases he : p.2 = c
    · have : p.1 = c.id := by rw [hkp.1, he]
      simp [he, this]
    · have hne : p.1 ≠ c.id := by
        rw [hkp.1]
        intro hq
        exact he (hidinj p.2 hkp.2 c hc hq)
      have hd : (decide (p.2 = c)) = false := by simpa using he
      rw [hd, if_neg hne, Bool.false_or]
      exact ih hktail

theorem values_objGet_eq {maze : Maze}
    (hidinj : ∀ a ∈ cellsOf maze, ∀ b ∈ cellsOf maze, a.id = b.id → a = b)
    {l : List (String × MazeUnit)}
    (hk : ∀ p ∈ l, p.1 = p.2.id ∧ p.2 ∈ cellsOf maze)
    {c v : MazeUnit} (hc : c ∈ cellsOf maze) (h : objGet l c.id = some v) : v = c := by
  have hmem := objGet_eq_some_mem h
  have hkp := hk _ hmem
  exact hidinj v hkp.2 c hc hkp.1.symm

theorem map_snd_filter_key {l : List (String × MazeUnit)} {P : String × MazeUnit → Bool}
    {Q : MazeUnit → Bool} (h : ∀ p ∈ l, P p = Q p.2) :
    (l.filter P).map Prod.snd = (l.map Prod.snd).filter Q := by
  induction l with
  | nil => rfl
  | cons p l ih =>
    rw [List.filter_cons, List.map_cons, List.filter_cons, h p (by simp)]
    cases hq : Q p.2 with
    | false =>
      simp only [Bool.false_eq_true, if_false]
      exact ih (fun q hql => h q (by simp [hql]))
    | true =>
      simp only [if_true, List.map_cons]
      rw [ih (fun q hql => h q (by simp [hql]))]

theorem map_snd_objSet_self {maze : Maze}
    (hidinj : ∀ a ∈ cellsOf maze, ∀ b ∈ cellsOf maze, a.id = b.id → a = b)
    {l : List (String × MazeUnit)}
    (hk : ∀ p ∈ l, p.1 = p.2.id ∧ p.2 ∈ cellsOf maze)
    {c : MazeUnit} (hc : c ∈ cellsOf maze) :
    (objSet l c.id c).map Prod.snd = setAdd (l.map Prod.snd) c := by
  unfold objSet setAdd
  rw [values_key_iff hidinj hk hc]
  cases hh : (objGet l c.id).isSome with
  | false =>
    simp only [Bool.false_eq_true, if_false]
    rw [List.map_append]
    rfl
  | true =>
    simp only [if_true]
    rw [List.map_map]
    apply List.map_congr_left
    intro p hp
    have hkp := hk p hp
    by_cases he : p.1 = c.id
    · have hpc : p.2 = c := hidinj p.2 hkp.2 c hc (by rw [← hkp.1, he])
      simp [he, hpc]
    · simp [he]

theorem map_snd_objDelete {maze : Maze}
    (hidinj : ∀ a ∈ cellsOf maze, ∀ b ∈ cellsOf maze, a.id = b.id → a = b)
    {l : List (String × MazeUnit)}
    (hk : ∀ p ∈ l, p.1 = p.2.id ∧ p.2 ∈ cellsOf maze)
    {c : MazeUnit} (hc : c ∈ cellsOf maze) :
    (objDelete l c.id).map Prod.snd = setDelete (l.map Prod.snd) c := by
  unfold objDelete setDelete
  apply map_snd_filter_key
  intro p hp
  have hkp := hk p hp
  by_cases he : p.2 = c
  · have : p.1 = c.id := by rw [hkp.1, he]
    simp [this, he]
  · have hne : p.1 ≠ c.id := by
      rw [hkp.1]
      intro hq
      exact he (hidinj p.2 hkp.2 c hc hq)
    simp [hne, he]

theorem forall₂_map_pointwise {α β α' β' : Type} {R : α → β → Prop} {S : α' → β' → Prop}
    {f : α → α'} {g : β → β'} :
    ∀ {l0 : List α} {l1 : List β}, List.Forall₂ R l0 l1 →
      (∀ a b, R a b → S (f a) (g b)) → List.Forall₂ S (l0.map f) (l1.map g) := by
  intro l0 l1 h himp
  induction h with
  | nil => exact List.Forall₂.nil
  | cons hpq _ ih => exact List.Forall₂.cons (himp _ _ hpq) ih

theorem gRel_set {maze : Maze}
    (hidinj : ∀ a ∈ cellsOf maze, ∀ b ∈ cellsOf maze, a.id = b.id → a = b)
    {g0 : List (MazeUnit × Nat)} {g1 : List (String × Nat)}
    (hrel : List.Forall₂ (fun (p : MazeUnit × Nat) (q : String × Nat) =>
      p.1 ∈ cellsOf maze ∧ q.1 = p.1.id ∧ p.2 = q.2) g0 g1)
    {c : MazeUnit} (hc : c ∈ cellsOf maze) (v : Nat) :
    List.Forall₂ (fun (p : MazeUnit × Nat) (q : String × Nat) =>
      p.1 ∈ cellsOf maze ∧ q.1 = p.1.id ∧ p.2 = q.2) (wmSet g0 c v) (objSet g1 c.id v) := by
  unfold wmSet objSet
  rw [wmGet_transfer hidinj hrel hc]
  cases hh : (objGet g1 c.id).isSome with
  | false =>
    simp only [Bool.false_eq_true, if_false]
    exact List.rel_append hrel (List.Forall₂.cons ⟨hc, rfl, rfl⟩ List.Forall₂.nil)
  | true =>
    simp only [if_true]
    apply forall₂_map_pointwise hrel
    rintro p q ⟨hm, hk, hv⟩
    by_cases he : p.1 = c
    · have h1 : (decide (p.1 = c)) = true := by simpa using he
      have h2 : (q.1 == c.id) = true := by
        rw [hk, he]
        simp
      rw [h1, h2]
      simp only [if_true]
      exact ⟨hc, trivial, trivial⟩
    · have h1 : (decide (p.1 = c)) = false := by simpa using he
      have h2 : (q.1 == c.id) = false := by
        have : q.1 ≠ c.id := by
          rw [hk]
          intro hq
          exact he (hidinj p.1 hm c hc hq)
        simpa using this
      rw [h1, h2]
      simp only [Bool.false_eq_true, if_false]
      exact ⟨hm, hk, hv⟩

theorem fromRel_set {maze : Maze}
    (hpinj : ∀ a ∈ cellsOf maze, ∀ b ∈ cellsOf maze, pixelId a = pixelId b → a = b)
    (hidinj : ∀ a ∈ cellsOf maze, ∀ b ∈ cellsOf maze, a.id = b.id → a = b)
    {fm0 fm1 : List (String × MazeUnit)}
    (hrel : List.Forall₂ (fun p q => ∃ n : MazeUnit, n ∈ cellsOf maze ∧ p.1 = pixelId n ∧
      q.1 = n.id ∧ p.2 = q.2 ∧ p.2 ∈ cellsOf maze) fm0 fm1)
    {c v : MazeUnit} (hc : c ∈ cellsOf maze) (hv : v ∈ cellsOf maze) :
    List.Forall₂ (fun p q => ∃ n : MazeUnit, n ∈ cellsOf maze ∧ p.1 = pixelId n ∧
      q.1 = n.id ∧ p.2 = q.2 ∧ p.2 ∈ cellsOf maze)
      (objSet fm0 (pixelId c) v) (objSet fm1 c.id v) := by
  unfold objSet
  rw [fromGet_transfer hpinj hidinj hrel hc]
  cases hh : (objGet fm1 c.id).isSome with
  | false =>
    simp only [Bool.false_eq_true, if_false]
    exact List.rel_append hrel
      (List.Forall₂.cons ⟨c, hc, rfl, rfl, rfl, hv⟩ List.Forall₂.nil)
  | true =>
    simp only [if_true]
    apply forall₂_map_pointwise hrel
    rintro p q ⟨n, hn, hk0, hk1, hpq, hpc⟩
    by_cases he : n = c
    · have h1 : (p.1 == pixelId c) = true := by
        rw [hk0, he]
        simp
      have h2 : (q.1 == c.id) = true := by
        rw [hk1, he]
        simp
      rw [h1, h2]
      simp only [if_true]
      refine ⟨c, hc, ?_, ?_, ?_, hv⟩ <;> trivial
    · have h1 : (p.1 == pixelId c) = false := by
        have : p.1 ≠ pixelId c := by
          rw [hk0]
          intro hq
          exact he (hpinj n hn c hc hq)
        simpa using this
      have h2 : (q.1 == c.id) = false := by
        have : q.1 ≠ c.id := by
          rw [hk1]
          intro hq
          exact he (hidinj n hn c hc hq)
        simpa using this
      rw [h1, h2]
      simp only [Bool.false_eq_true, if_false]
      exact ⟨n, hn, hk0, hk1, hpq, hpc⟩

theorem pick_transfer {maze : Maze}
    (hidinj : ∀ a ∈ cellsOf maze, ∀ b ∈ cellsOf maze, a.id = b.id → a = b)
    {f0 : List (MazeUnit × Nat)} {f1 : List (String × Nat)}
    (hrel : List.Forall₂ (fun (p : MazeUnit × Nat) (q : String × Nat) =>
      p.1 ∈ cellsOf maze ∧ q.1 = p.1.id ∧ p.2 = q.2) f0 f1) :
    ∀ (l : List MazeUnit) (cur : MazeUnit), cur ∈ cellsOf maze →
      (∀ v ∈ l, v ∈ cellsOf maze) → pickCurrent0 f0 cur l = pickCurrent f1 cur l := by
  intro l
  induction l with
  | nil =>
    intro cur _ _
    rfl
  | cons u rest ih =>
    intro cur hcur hall
    have hu : u ∈ cellsOf maze := hall u (by simp)
    have hacc : (if numLt (wmGet f0 u) (wmGet f0 cur) then u else cur)
        = (if numLt (objGet f1 u.id) (objGet f1 cur.id) then u else cur) := by
      rw [wmGet_transfer hidinj hrel hu, wmGet_transfer hidinj hrel hcur]
    show pickCurrent0 f0 (if numLt (wmGet f0 u) (wmGet f0 cur) then u else cur) rest
        = pickCurrent f1 (if numLt (objGet f1 u.id) (objGet f1 cur.id) then u else cur) rest
    rw [hacc]
    have hmem : (if numLt (objGet f1 u.id) (objGet f1 cur.id) then u else cur)
        ∈ cellsOf maze := by
      by_cases hC : numLt (objGet f1 u.id) (objGet f1 cur.id) = true
      · simp only [hC, if_true]
        exact hu
      · simp only [hC, Bool.false_eq_true, if_false]
        exact hcur
    exact ih _ hmem (fun v hv => hall v (by simp [hv]))

theorem buildPath_transfer {maze : Maze}
    (hpinj : ∀ a ∈ cellsOf maze, ∀ b ∈ cellsOf maze, pixelId a = pixelId b → a = b)
    (hidinj : ∀ a ∈ cellsOf maze, ∀ b ∈ cellsOf maze, a.id = b.id → a = b)
    {fm0 fm1 : List (String × MazeUnit)}
    (hrel : List.Forall₂ (fun p q => ∃ n : MazeUnit, n ∈ cellsOf maze ∧ p.1 = pixelId n ∧
      q.1 = n.id ∧ p.2 = q.2 ∧ p.2 ∈ cellsOf maze) fm0 fm1) :
    ∀ (fuel : Nat) (c : MazeUnit), c ∈ cellsOf maze →
      buildPath0 fm0 fuel c = buildPath fm1 fuel c := by
  intro fuel
  induction fuel with
  | zero =>
    intro c _
    rfl
  | succ fuel ih =>
    intro c hc
    show (match objGet fm0 (pixelId c) with
      | some parent => c :: buildPath0 fm0 fuel parent
      | none => [c]) =
      (match objGet fm1 c.id with
      | some parent => c :: buildPath fm1 fuel parent
      | none => [c])
    rw [fromGet_transfer hpinj hidinj hrel hc]
    cases hp : objGet fm1 c.id with
    | none => rfl
    | some parent =>
      have hpc : parent ∈ cellsOf maze := by
        apply fromGet_cells hrel (k := pixelId c)
        rw [fromGet_transfer hpinj hidinj hrel hc]
        exact hp
      simp only
      rw [ih parent hpc]

theorem keyed_objSet {maze : Maze} {l : List (String × MazeUnit)}
    (hk : ∀ p ∈ l, p.1 = p.2.id ∧ p.2 ∈ cellsOf maze)
    {c : MazeUnit} (hc : c ∈ cellsOf maze) :
    ∀ p ∈ objSet l c.id c, p.1 = p.2.id ∧ p.2 ∈ cellsOf maze := by
  intro p hp
  rcases objSet_entries hp with hp | hp
  · exact hk p hp
  · rw [hp]
    exact ⟨rfl, hc⟩

theorem keyed_objDelete {maze : Maze} {l : List (String × MazeUnit)}
    (hk : ∀ p ∈ l, p.1 = p.2.id ∧ p.2 ∈ cellsOf maze) {k : String} :
    ∀ p ∈ objDelete l k, p.1 = p.2.id ∧ p.2 ∈ cellsOf maze :=
  fun p hp => hk p (objDelete_entries hp)

theorem neighborsOf_mem_cells {maze : Maze} {c v : MazeUnit}
    (h : v ∈ neighborsOf maze c) : v ∈ cellsOf maze := by
  unfold neighborsOf at h
  have h' := List.mem_of_mem_filter h
  rcases List.mem_filterMap.mp h' with ⟨p, _, hget⟩
  exact getMazeUnit_mem hget

theorem updateNeighbor0_closed {t current : MazeUnit} {st : AState0} {n : MazeUnit}
    (h : setHas st.closedSet n = true) :
    updateNeighbor0 t current st n = st := by
  unfold updateNeighbor0
  rw [if_pos h]

theorem updateNeighbor0_skip {t current : MazeUnit} {st : AState0} {n : MazeUnit}
    (h1 : setHas st.closedSet n = false)
    (h2 : geInf (infAdd (wmGet st.gScore current) (cost current n))
      (wmGet st.gScore n) = true) :
    updateNeighbor0 t current st n = { st with openSet := setAdd st.openSet n } := by
  simp only [updateNeighbor0, h1, Bool.false_eq_true, if_false, h2, if_true]

theorem updateNeighbor0_update {t current : MazeUnit} {st : AState0} {n : MazeUnit} {tv : Nat}
    (h1 : setHas st.closedSet n = false)
    (htv : infAdd (wmGet st.gScore current) (cost current n) = some tv)
    (h2 : geInf (some tv) (wmGet st.gScore n) = false) :
    updateNeighbor0 t current st n =
      { st with openSet := setAdd st.openSet n,
                fromMap := objSet st.fromMap (pixelId n) current,
                gScore := wmSet st.gScore n tv,
                fScore := wmSet st.fScore n (tv + cost n t) } := by
  simp only [updateNeighbor0, h1, Bool.false_eq_true, if_false, htv, h2]

theorem updateNeighbor_transfer {maze : Maze} {t : MazeUnit}
    (hpinj : ∀ a ∈ cellsOf maze, ∀ b ∈ cellsOf maze, pixelId a = pixelId b → a = b)
    (hidinj : ∀ a ∈ cellsOf maze, ∀ b ∈ cellsOf maze, a.id = b.id → a = b)
    {st0 : AState0} {st1 : AState} (hrel : StateRel maze st0 st1)
    {current n : MazeUnit} (hcur : current ∈ cellsOf maze) (hn : n ∈ cellsOf maze) :
    StateRel maze (updateNeighbor0 t current st0 n) (updateNeighbor t current st1 n) := by
  have hclosed : setHas st0.closedSet n = (objGet st1.closedSet n.id).isSome := by
    rw [hrel.closedEq]
    exact values_key_iff hidinj hrel.closedKeyed hn
  have hgc : wmGet st0.gScore current = mapGet st1.gScore current :=
    wmGet_transfer hidinj hrel.gRel hcur
  have hgn : wmGet st0.gScore n = mapGet st1.gScore n :=
    wmGet_transfer hidinj hrel.gRel hn
  have hopenEq : setAdd st0.openSet n = (objSet st1.openSet n.id n).map Prod.snd := by
    rw [map_snd_objSet_self hidinj hrel.openKeyed hn, hrel.openEq]
  have hopenKeyed := keyed_objSet hrel.openKeyed hn
  by_cases hA : (objGet st1.closedSet n.id).isSome = true
  · rw [updateNeighbor0_closed (by rw [hclosed]; exact hA), updateNeighbor_closed hA]
    exact hrel
  · have hA1 : (objGet st1.closedSet n.id).isSome = false := by simpa using hA
    have hA0 : setHas st0.closedSet n = false := by rw [hclosed]; exact hA1
    by_cases hB : geInf (infAdd (mapGet st1.gScore current) (cost current n))
        (mapGet st1.gScore n) = true
    · rw [updateNeighbor0_skip hA0 (by rw [hgc, hgn]; exact hB), updateNeighbor_skip hA1 hB]
      exact ⟨hrel.closedEq, hopenEq, hrel.closedKeyed, hopenKeyed,
        hrel.fromRel, hrel.gRel, hrel.fRel⟩
    · rcases htv : infAdd (mapGet st1.gScore current) (cost current n) with _ | tv
      · exfalso
        apply hB
        rw [htv]
        rfl
      · have hB1 : geInf (some tv) (mapGet st1.gScore n) = false := by
          rw [htv] at hB
          simpa using hB
        have htv0 : infAdd (wmGet st0.gScore current) (cost current n) = some tv := by
          rw [hgc]
          exact htv
        have hB0 : geInf (some tv) (wmGet st0.gScore n) = false := by
          rw [hgn]
          exact hB1
        rw [updateNeighbor0_update hA0 htv0 hB0, updateNeighbor_update hA1 htv hB1]
        exact ⟨hrel.closedEq, hopenEq, hrel.closedKeyed, hopenKeyed,
          fromRel_set hpinj hidinj hrel.fromRel hn hcur,
          gRel_set hidinj hrel.gRel hn tv,
          gRel_set hidinj hrel.fRel hn (tv + cost n t)⟩

theorem fold_transfer {maze : Maze} {t current : MazeUnit}
    (hpinj : ∀ a ∈ cellsOf maze, ∀ b ∈ cellsOf maze, pixelId a = pixelId b → a = b)
    (hidinj : ∀ a ∈ cellsOf maze, ∀ b ∈ cellsOf maze, a.id = b.id → a = b)
    (hcur : current ∈ cellsOf maze) :
    ∀ (ns : List MazeUnit), (∀ v ∈ ns, v ∈ cellsOf maze) →
      ∀ (st0 : AState0) (st1 : AState), StateRel maze st0 st1 →
      StateRel maze (ns.foldl (updateNeighbor0 t current) st0)
        (ns.foldl (updateNeighbor t current) st1) := by
  intro ns
  induction ns with
  | nil =>
    intro _ st0 st1 h
    exact h
  | cons n rest ih =>
    intro hall st0 st1 hrel
    exact ih (fun v hv => hall v (by simp [hv])) _ _
      (updateNeighbor_transfer hpinj hidinj hrel hcur (hall n (by simp)))

theorem astarLoop0_succ_nil {maze : Maze} {t : MazeUnit} {fuel : Nat} {st : AState0}
    (h : st.openSet = []) :
    astarLoop0 maze t (fuel + 1) st = some [] := by
  simp only [astarLoop0, h]

theorem astarLoop0_succ_cons {maze : Maze} {t : MazeUnit} {fuel : Nat} {st : AState0}
    {u0 : MazeUnit} {vrest : List MazeUnit}
    (h : st.openSet = u0 :: vrest) :
    astarLoop0 maze t (fuel + 1) st =
      (if (pickCurrent0 st.fScore u0 (u0 :: vrest)).i = t.i ∧
          (pickCurrent0 st.fScore u0 (u0 :: vrest)).j = t.j then
        some (buildPath0 st.fromMap (st.fromMap.length + 1)
          (pickCurrent0 st.fScore u0 (u0 :: vrest)))
      else
        astarLoop0 maze t fuel
          ((neighborsOf maze (pickCurrent0 st.fScore u0 (u0 :: vrest))).foldl
            (updateNeighbor0 t (pickCurrent0 st.fScore u0 (u0 :: vrest)))
            { st with
              openSet := setDelete st.openSet (pickCurrent0 st.fScore u0 (u0 :: vrest))
              closedSet := setAdd st.closedSet
                (pickCurrent0 st.fScore u0 (u0 :: vrest)) })) := by
  simp only [astarLoop0, h]

theorem pickCurrent0_mem (f : List (MazeUnit × Nat)) :
    ∀ (l : List MazeUnit) (cur : MazeUnit), pickCurrent0 f cur l ∈ cur :: l := by
  intro l
  induction l with
  | nil =>
    intro cur
    show cur ∈ [cur]
    simp
  | cons u rest ih =>
    intro cur
    show pickCurrent0 f (if numLt (wmGet f u) (wmGet f cur) then u else cur) rest
        ∈ cur :: u :: rest
    have h := ih (if numLt (wmGet f u) (wmGet f cur) then u else cur)
    rcases List.mem_cons.mp h with h | h
    · rw [h]
      by_cases hC : numLt (wmGet f u) (wmGet f cur) = true
      · simp only [hC, if_true]
        simp
      · simp only [hC, Bool.false_eq_true, if_false]
        simp
    · simp [h]

theorem astarLoop_transfer {maze : Maze} {t : MazeUnit}
    (hpinj : ∀ a ∈ cellsOf maze, ∀ b ∈ cellsOf maze, pixelId a = pixelId b → a = b)
    (hidinj : ∀ a ∈ cellsOf maze, ∀ b ∈ cellsOf maze, a.id = b.id → a = b) :
    ∀ (fuel : Nat) (st0 : AState0) (st1 : AState), StateRel maze st0 st1 →
      astarLoop0 maze t fuel st0 = astarLoop maze t fuel st1 := by
  intro fuel
  induction fuel with
  | zero =>
    intro st0 st1 _
    rfl
  | succ fuel ih =>
    intro st0 st1 hrel
    cases hop : st1.openSet.map Prod.snd with
    | nil =>
      rw [astarLoop0_succ_nil (by rw [hrel.openEq, hop]), astarLoop_succ_nil hop]
    | cons u0 vrest =>
      rw [astarLoop0_succ_cons (by rw [hrel.openEq, hop]), astarLoop_succ_cons hop]
      have hallopen : ∀ v ∈ u0 :: vrest, v ∈ cellsOf maze := by
        intro v hv
        rw [← hop] at hv
        rcases List.mem_map.mp hv with ⟨p, hp, hpe⟩
        rw [← hpe]
        exact (hrel.openKeyed p hp).2
      have hpick : pickCurrent0 st0.fScore u0 (u0 :: vrest)
          = pickCurrent st1.fScore u0 (u0 :: vrest) :=
        pick_transfer hidinj hrel.fRel (u0 :: vrest) u0 (hallopen u0 (by simp)) hallopen
      rw [hpick]
      have hcur : pickCurrent st1.fScore u0 (u0 :: vrest) ∈ cellsOf maze := by
        rcases List.mem_cons.mp (pickCurrent_mem st1.fScore (u0 :: vrest) u0) with h | h
        · rw [h]
          exact hallopen u0 (by simp)
        · exact hallopen _ h
      by_cases hT : (pickCurrent st1.fScore u0 (u0 :: vrest)).i = t.i ∧
          (pickCurrent st1.fScore u0 (u0 :: vrest)).j = t.j
      · rw [if_pos hT, if_pos hT]
        have hlen : st0.fromMap.length = st1.fromMap.length :=
          List.Forall₂.length_eq hrel.fromRel
        rw [hlen, buildPath_transfer hpinj hidinj hrel.fromRel _ _ hcur]
      · rw [if_neg hT, if_neg hT]
        apply ih
        apply fold_transfer hpinj hidinj hcur _ (fun v hv => neighborsOf_mem_cells hv)
        refine ⟨?_, ?_, ?_, ?_, hrel.fromRel, hrel.gRel, hrel.fRel⟩
        · show setAdd st0.closedSet _ = (objSet st1.closedSet _ _).map Prod.snd
          rw [map_snd_objSet_self hidinj hrel.closedKeyed hcur, hrel.closedEq]
        · show setDelete st0.openSet _ = (objDelete st1.openSet _).map Prod.snd
          rw [map_snd_objDelete hidinj hrel.openKeyed hcur, hrel.openEq]
        · exact keyed_objSet hrel.closedKeyed hcur
        · exact keyed_objDelete hrel.openKeyed

theorem stateRel_init {maze : Maze} {s t : MazeUnit} (hs : s ∈ cellsOf maze) :
    StateRel maze
      { closedSet := [], openSet := [s], fromMap := [],
        gScore := [(s, 0)], fScore := [(s, cost s t)] }
      (initState s t) := by
  refine ⟨rfl, rfl, ?_, ?_, List.Forall₂.nil, ?_, ?_⟩
  · intro p hp
    cases hp
  · intro p hp
    have hp' : p ∈ [(s.id, s)] := hp
    have hpe : p = (s.id, s) := by simpa using hp'
    rw [hpe]
    exact ⟨rfl, hs⟩
  · exact List.Forall₂.cons ⟨hs, rfl, rfl⟩ List.Forall₂.nil
  · exact List.Forall₂.cons ⟨hs, rfl, rfl⟩ List.Forall₂.nil

/-- C8: the two source variants of the search agree: `part_000`'s `getPath`
(native `Set`/`WeakMap` bookkeeping keyed by the cell object, `from` keyed by
the pixel-derived string `x:y`) and `part_001`'s `getPath` (`MySet`/`MyWeakMap`
keyed by the `(col,row)`-derived string `i:j`) return the same cell sequence —
in particular sequences with identical cell coordinates — on every maze whose
cells have distinct pixel keys and distinct ids, for every start cell of the
maze and every target. -/
theorem getPath_variants_agree {maze : Maze} {s t : MazeUnit}
    (hpinj : ∀ a ∈ cellsOf maze, ∀ b ∈ cellsOf maze, pixelId a = pixelId b → a = b)
    (hidinj : ∀ a ∈ cellsOf maze, ∀ b ∈ cellsOf maze, a.id = b.id → a = b)
    (hs : s ∈ cellsOf maze) :
    getPath0 maze s t = getPath maze s t := by
  unfold getPath0 getPath
  rw [astarLoop_transfer hpinj hidinj (mazeSize maze + 2) _ _ (stateRel_init hs)]

set_option maxHeartbeats 1000000 in
theorem getPath_variants_agree_witness :
    getPath0 maze21 (mkCell 10 0 0 false) (mkCell 10 1 0 false)
      = getPath maze21 (mkCell 10 0 0 false) (mkCell 10 1 0 false) :=
  getPath_variants_agree (by decide) (by decide) (by decide)

/-! ## The stateful `MyWeakMap` of `part_001`

`MyWeakMap` keeps a static `instanceCount` and each instance attaches its
values to the key objects themselves as a hidden property named
`"weakmap" + instanceCount`.  The property name is determined by the
instance number (`n ↦ "weakmap" + toString n` is injective), so an instance
is represented by its number `n` and the hidden property
`cell["weakmap" + n] = v` by the store entry `((cell, n), v)`; `props` below
is the union of these per-object property tables.  The declared `MazeUnit`
fields live outside this store: `MyWeakMap.set` never writes them. -/

/-- `obj[this.id]` of `MyWeakMap.get`/`has` (`undefined` is `none`). -/
def propGet (props : List ((MazeUnit × Nat) × Nat)) (c : MazeUnit) (k : Nat) : Option Nat :=
  (props.find? (fun p => decide (p.1 = (c, k)))).map (·.2)

/-- `obj[this.id] = value` of `MyWeakMap.set`: overwrite in place, or append
a fresh property. -/
def propSet (props : List ((MazeUnit × Nat) × Nat)) (c : MazeUnit) (k : Nat) (v : Nat) :
    List ((MazeUnit × Nat) × Nat) :=
  if (propGet props c k).isSome then
    props.map (fun p => if decide (p.1 = (c, k)) then ((c, k), v) else p)
  else
    props ++ [((c, k), v)]

/-- The global `MyWeakMap.instanceCount` together with all hidden
`weakmap<n>` properties currently attached to cell objects. -/
structure JSHeap where
  instanceCount : Nat
  props : List ((MazeUnit × Nat) × Nat)

/-- The call-local bookkeeping of the stateful `getPath`: the score maps are
not here — they live on the heap as hidden cell properties. -/
structure AStateH where
  closedSet : List (String × MazeUnit)
  openSet : List (String × MazeUnit)
  fromMap : List (String × MazeUnit)

/-- The minimum-`fScore` scan, reading `fScore.get(u)` from the heap. -/
def pickCurrentH (props : List ((MazeUnit × Nat) × Nat)) (fid : Nat) (cur : MazeUnit) :
    List MazeUnit → MazeUnit
  | [] => cur
  | u :: rest =>
      pickCurrentH props fid (if numLt (propGet props u fid) (propGet props cur fid)
        then u else cur) rest

/-- The `neighbors.forEach` body with heap-resident scores: `gid`/`fid` are
the two `MyWeakMap` instance numbers of this call. -/
def updateNeighborH (gid fid : Nat) (targetPoint current : MazeUnit)
    (sh : AStateH × List ((MazeUnit × Nat) × Nat)) (neighbor : MazeUnit) :
    AStateH × List ((MazeUnit × Nat) × Nat) :=
  if (objGet sh.1.closedSet neighbor.id).isSome then sh
  else
    let newOpen := objSet sh.1.openSet neighbor.id neighbor
    let tentative := infAdd (propGet sh.2 current gid) (cost current neighbor)
    if geInf tentative (propGet sh.2 neighbor gid) then
      ({ sh.1 with openSet := newOpen }, sh.2)
    else
      match tentative with
      | none => ({ sh.1 with openSet := newOpen }, sh.2)
      | some t =>
        ({ sh.1 with
            openSet := newOpen
            fromMap := objSet sh.1.fromMap neighbor.id current },
         propSet (propSet sh.2 neighbor gid t) neighbor fid
           (t + cost neighbor targetPoint))

/-- The main loop with heap-resident scores, returning the result together
with the final heap property store. -/
def astarLoopH (maze : Maze) (gid fid : Nat) (targetPoint : MazeUnit) :
    Nat → AStateH → List ((MazeUnit × Nat) × Nat) →
      Option (List MazeUnit) × List ((MazeUnit × Nat) × Nat)
  | 0, _, props => (none, props)
  | fuel + 1, st, props =>
    match st.openSet.map Prod.snd with
    | [] => (some [], props)
    | u0 :: rest =>
      let current := pickCurrentH props fid u0 (u0 :: rest)
      if current.i = targetPoint.i ∧ current.j = targetPoint.j then
        (some (buildPath st.fromMap (st.fromMap.length + 1) current), props)
      else
        let st1 : AStateH :=
          { st with
            openSet := objDelete st.openSet current.id
            closedSet := objSet st.closedSet current.id current }
        let folded := (neighborsOf maze current).foldl
          (updateNeighborH gid fid targetPoint current) (st1, props)
        astarLoopH maze gid fid targetPoint fuel folded.1 folded.2

/-- `getPath` as it actually executes against the global `MyWeakMap` state:
`new MyWeakMap()` twice allocates the hidden property names
`weakmap<instanceCount>` and `weakmap<instanceCount+1>` and bumps the
counter; the scores are written onto the cells; the result is the path and
the heap as the call leaves it. -/
def getPathState (maze : Maze) (startPoint targetPoint : MazeUnit) (g : JSHeap) :
    List MazeUnit × JSHeap :=
  let gid := g.instanceCount
  let fid := g.instanceCount + 1
  let h0 := propSet (propSet g.props startPoint gid 0) startPoint fid
    (cost startPoint targetPoint)
  let r := astarLoopH maze gid fid targetPoint (mazeSize maze + 2)
    { closedSet := [], openSet := [(startPoint.id, startPoint)], fromMap := [] } h0
  (r.1.getD [], { instanceCount := g.instanceCount + 2, props := r.2 })

theorem propGet_cons (p : (MazeUnit × Nat) × Nat) (l : List ((MazeUnit × Nat) × Nat))
    (c : MazeUnit) (k : Nat) :
    propGet (p :: l) c k = if p.1 = (c, k) then some p.2 else propGet l c k := by
  by_cases h : p.1 = (c, k) <;> simp [propGet, List.find?_cons, h]

theorem propGet_append (l1 l2 : List ((MazeUnit × Nat) × Nat)) (c : MazeUnit) (k : Nat) :
    propGet (l1 ++ l2) c k = ((propGet l1 c k).map some).getD (propGet l2 c k) := by
  induction l1 with
  | nil => simp [propGet]
  | cons p l ih => by_cases h : p.1 = (c, k) <;> simp [propGet_cons, h, ih]

theorem propGet_map_replace_self (l : List ((MazeUnit × Nat) × Nat))
    (c : MazeUnit) (k : Nat) (v : Nat) :
    propGet (l.map (fun p => if decide (p.1 = (c, k)) then ((c, k), v) else p)) c k
      = (propGet l c k).map (fun _ => v) := by
  induction l with
  | nil => rfl
  | cons p l ih =>
    by_cases hp : p.1 = (c, k)
    · have hpb : (decide (p.1 = (c, k))) = true := by simpa using hp
      simp [hpb, propGet_cons, hp]
    · have hpb : (decide (p.1 = (c, k))) = false := by simpa using hp
      simp only [List.map_cons, hpb, Bool.false_eq_true, if_false, propGet_cons]
      rw [ih]
      simp [hp]

theorem propGet_map_replace_ne (l : List ((MazeUnit × Nat) × Nat))
    {c c' : MazeUnit} {k k' : Nat} (h : (c', k') ≠ (c, k)) (v : Nat) :
    propGet (l.map (fun p => if decide (p.1 = (c, k)) then ((c, k), v) else p)) c' k'
      = propGet l c' k' := by
  induction l with
  | nil => rfl
  | cons p l ih =>
    by_cases hp : p.1 = (c, k)
    · have hpb : (decide (p.1 = (c, k))) = true := by simpa using hp
      simp only [List.map_cons, hpb, if_pos, propGet_cons]
      rw [if_neg (fun he => h he.symm), if_neg (fun he => h (by rw [← he, hp]))]
      exact ih
    · have hpb : (decide (p.1 = (c, k))) = false := by simpa using hp
      simp only [List.map_cons, hpb, Bool.false_eq_true, if_false, propGet_cons]
      rw [ih]

theorem propGet_propSet_self (l : List ((MazeUnit × Nat) × Nat))
    (c : MazeUnit) (k : Nat) (v : Nat) :
    propGet (propSet l c k v) c k = some v := by
  unfold propSet
  by_cases h : (propGet l c k).isSome
  · rw [if_pos h, propGet_map_replace_self]
    rcases Option.isSome_iff_exists.mp h with ⟨w, hw⟩
    rw [hw]
    rfl
  · rw [if_neg h, propGet_append]
    have hnone : propGet l c k = none := Option.not_isSome_iff_eq_none.mp h
    simp [hnone, propGet_cons]

theorem propGet_propSet_ne (l : List ((MazeUnit × Nat) × Nat))
    {c c' : MazeUnit} {k k' : Nat} (h : (c', k') ≠ (c, k)) (v : Nat) :
    propGet (propSet l c k v) c' k' = propGet l c' k' := by
  unfold propSet
  by_cases hh : (propGet l c k).isSome
  · rw [if_pos hh, propGet_map_replace_ne _ h]
  · rw [if_neg hh, propGet_append]
    cases he : propGet l c' k'
    · simp only [he, Option.map_none', Option.getD_none, propGet_cons]
      rw [if_neg (fun he' => h he'.symm)]
      rfl
    · simp [he]

theorem updateNeighborH_closed {gid fid : Nat} {t cur : MazeUnit}
    {sh : AStateH × List ((MazeUnit × Nat) × Nat)} {n : MazeUnit}
    (h : (objGet sh.1.closedSet n.id).isSome = true) :
    updateNeighborH gid fid t cur sh n = sh := by
  unfold updateNeighborH
  rw [if_pos h]

theorem updateNeighborH_skip {gid fid : Nat} {t cur : MazeUnit}
    {sh : AStateH × List ((MazeUnit × Nat) × Nat)} {n : MazeUnit}
    (h1 : (objGet sh.1.closedSet n.id).isSome = false)
    (h2 : geInf (infAdd (propGet sh.2 cur gid) (cost cur n)) (propGet sh.2 n gid) = true) :
    updateNeighborH gid fid t cur sh n =
      ({ sh.1 with openSet := objSet sh.1.openSet n.id n }, sh.2) := by
  simp only [updateNeighborH, h1, Bool.false_eq_true, if_false, h2, if_true]

theorem updateNeighborH_update {gid fid : Nat} {t cur : MazeUnit}
    {sh : AStateH × List ((MazeUnit × Nat) × Nat)} {n : MazeUnit} {tv : Nat}
    (h1 : (objGet sh.1.closedSet n.id).isSome = false)
    (htv : infAdd (propGet sh.2 cur gid) (cost cur n) = some tv)
    (h2 : geInf (some tv) (propGet sh.2 n gid) = false) :
    updateNeighborH gid fid t cur sh n =
      ({ sh.1 with openSet := objSet sh.1.openSet n.id n,
                   fromMap := objSet sh.1.fromMap n.id cur },
       propSet (propSet sh.2 n gid tv) n fid (tv + cost n t)) := by
  simp only [updateNeighborH, h1, Bool.false_eq_true, if_false, htv, h2]

/-- Correspondence between a heap-resident search state and the pure
`part_001` model state: the call-local structures are identical, and for
every cell the two hidden score properties agree with the pure score maps. -/
structure HeapRel (maze : Maze) (gid fid : Nat) (stH : AStateH)
    (props : List ((MazeUnit × Nat) × Nat)) (st1 : AState) : Prop where
  closedEq : stH.closedSet = st1.closedSet
  openEq : stH.openSet = st1.openSet
  fromEq : stH.fromMap = st1.fromMap
  openKeyed : ∀ p ∈ st1.openSet, p.1 = p.2.id ∧ p.2 ∈ cellsOf maze
  gLook : ∀ c ∈ cellsOf maze, propGet props c gid = objGet st1.gScore c.id
  fLook : ∀ c ∈ cellsOf maze, propGet props c fid = objGet st1.fScore c.id

theorem pickH_transfer {maze : Maze} {fid : Nat}
    {props : List ((MazeUnit × Nat) × Nat)} {f1 : List (String × Nat)}
    (hf : ∀ c ∈ cellsOf maze, propGet props c fid = objGet f1 c.id) :
    ∀ (l : List MazeUnit) (cur : MazeUnit), cur ∈ cellsOf maze →
      (∀ v ∈ l, v ∈ cellsOf maze) →
      pickCurrentH props fid cur l = pickCurrent f1 cur l := by
  intro l
  induction l with
  | nil =>
    intro cur _ _
    rfl
  | cons u rest ih =>
    intro cur hcur hall
    have hu : u ∈ cellsOf maze := hall u (by simp)
    have hacc : (if numLt (propGet props u fid) (propGet props cur fid) then u else cur)
        = (if numLt (objGet f1 u.id) (objGet f1 cur.id) then u else cur) := by
      rw [hf u hu, hf cur hcur]
    show pickCurrentH props fid
        (if numLt (propGet props u fid) (propGet props cur fid) then u else cur) rest
        = pickCurrent f1 (if numLt (objGet f1 u.id) (objGet f1 cur.id) then u else cur) rest
    rw [hacc]
    have hmem : (if numLt (objGet f1 u.id) (objGet f1 cur.id) then u else cur)
        ∈ cellsOf maze := by
      by_cases hC : numLt (objGet f1 u.id) (objGet f1 cur.id) = true
      · simp only [hC, if_true]
        exact hu
      · simp only [hC, Bool.false_eq_true, if_false]
        exact hcur
    exact ih _ hmem (fun v hv => hall v (by simp [hv]))

theorem updateNeighborH_transfer {maze : Maze} {gid fid : Nat} {t : MazeUnit}
    (hidinj : ∀ a ∈ cellsOf maze, ∀ b ∈ cellsOf maze, a.id = b.id → a = b)
    (hgf : gid ≠ fid)
    {stH : AStateH} {props : List ((MazeUnit × Nat) × Nat)} {st1 : AState}
    (hrel : HeapRel maze gid fid stH props st1)
    {current n : MazeUnit} (hcur : current ∈ cellsOf maze) (hn : n ∈ cellsOf maze) :
    HeapRel maze gid fid (updateNeighborH gid fid t current (stH, props) n).1
      (updateNeighborH gid fid t current (stH, props) n).2
      (updateNeighbor t current st1 n) := by
  have hopenKeyed := keyed_objSet hrel.openKeyed hn
  by_cases hA : (objGet st1.closedSet n.id).isSome = true
  · rw [updateNeighborH_closed (by rw [show (stH, props).1 = stH from rfl, hrel.closedEq]; exact hA),
      updateNeighbor_closed hA]
    exact hrel
  · have hA1 : (objGet st1.closedSet n.id).isSome = false := by simpa using hA
    have hA0 : (objGet stH.closedSet n.id).isSome = false := by
      rw [hrel.closedEq]
      exact hA1
    have hgc : propGet props current gid = mapGet st1.gScore current :=
      hrel.gLook current hcur
    have hgn : propGet props n gid = mapGet st1.gScore n :=
      hrel.gLook n hn
    by_cases hB : geInf (infAdd (mapGet st1.gScore current) (cost current n))
        (mapGet st1.gScore n) = true
    · rw [updateNeighborH_skip hA0 (by rw [show ((stH, props) : AStateH × _).2 = props from rfl, hgc, hgn]; exact hB),
        updateNeighbor_skip hA1 hB]
      exact ⟨hrel.closedEq, by rw [show ((stH, props) : AStateH × _).1 = stH from rfl, hrel.openEq],
        hrel.fromEq, hopenKeyed, hrel.gLook, hrel.fLook⟩
    · rcases htv : infAdd (mapGet st1.gScore current) (cost current n) with _ | tv
      · exfalso
        apply hB
        rw [htv]
        rfl
      · have hB1 : geInf (some tv) (mapGet st1.gScore n) = false := by
          rw [htv] at hB
          simpa using hB
        have htv0 : infAdd (propGet props current gid) (cost current n) = some tv := by
          rw [hgc]
          exact htv
        have hB0 : geInf (some tv) (propGet props n gid) = false := by
          rw [hgn]
          exact hB1
        rw [updateNeighborH_update hA0 htv0 hB0, updateNeighbor_update hA1 htv hB1]
        refine ⟨hrel.closedEq, by rw [hrel.openEq], by rw [hrel.fromEq], hopenKeyed, ?_, ?_⟩
        · intro c hc
          have hstep1 : propGet (propSet (propSet props n gid tv) n fid
              (tv + cost n t)) c gid = propGet (propSet props n gid tv) c gid :=
            propGet_propSet_ne _ (fun he => hgf (congrArg Prod.snd he)) _
          rw [hstep1]
          by_cases he : c = n
          · rw [he, propGet_propSet_self]
            show some tv = objGet (objSet st1.gScore n.id tv) n.id
            rw [objGet_objSet_self]
          · have hne : (c, gid) ≠ (n, gid) := fun hp => he (congrArg Prod.fst hp)
            rw [propGet_propSet_ne _ hne]
            have hid : c.id ≠ n.id := fun hq => he (hidinj c hc n hn hq)
            show _ = objGet (objSet st1.gScore n.id tv) c.id
            rw [objGet_objSet_ne _ hid]
            exact hrel.gLook c hc
        · intro c hc
          by_cases he : c = n
          · rw [he, propGet_propSet_self]
            show some (tv + cost n t) = objGet (objSet st1.fScore n.id (tv + cost n t)) n.id
            rw [objGet_objSet_self]
          · have hne1 : (c, fid) ≠ (n, fid) := fun hp => he (congrArg Prod.fst hp)
            have hne2 : (c, fid) ≠ (n, gid) := fun hp => hgf ((congrArg Prod.snd hp)).symm
            rw [propGet_propSet_ne _ hne1, propGet_propSet_ne _ hne2]
            have hid : c.id ≠ n.id := fun hq => he (hidinj c hc n hn hq)
            show _ = objGet (objSet st1.fScore n.id (tv + cost n t)) c.id
            rw [objGet_objSet_ne _ hid]
            exact hrel.fLook c hc

theorem foldH_transfer {maze : Maze} {gid fid : Nat} {t current : MazeUnit}
    (hidinj : ∀ a ∈ cellsOf maze, ∀ b ∈ cellsOf maze, a.id = b.id → a = b)
    (hgf : gid ≠ fid) (hcur : current ∈ cellsOf maze) :
    ∀ (ns : List MazeUnit), (∀ v ∈ ns, v ∈ cellsOf maze) →
      ∀ (stH : AStateH) (props : List ((MazeUnit × Nat) × Nat)) (st1 : AState),
      HeapRel maze gid fid stH props st1 →
      HeapRel maze gid fid
        (ns.foldl (updateNeighborH gid fid t current) (stH, props)).1
        (ns.foldl (updateNeighborH gid fid t current) (stH, props)).2
        (ns.foldl (updateNeighbor t current) st1) := by
  intro ns
  induction ns with
  | nil =>
    intro _ stH props st1 h
    exact h
  | cons n rest ih =>
    intro hall stH props st1 hrel
    have hstep := updateNeighborH_transfer (t := t) hidinj hgf hrel hcur (hall n (by simp))
    have heq : updateNeighborH gid fid t current (stH, props) n =
        ((updateNeighborH gid fid t current (stH, props) n).1,
         (updateNeighborH gid fid t current (stH, props) n).2) := rfl
    show HeapRel maze gid fid
      (rest.foldl (updateNeighborH gid fid t current)
        (updateNeighborH gid fid t current (stH, props) n)).1 _ _
    rw [heq]
    exact ih (fun v hv => hall v (by simp [hv])) _ _ _ hstep

theorem astarLoopH_succ_nil {maze : Maze} {gid fid : Nat} {t : MazeUnit} {fuel : Nat}
    {st : AStateH} {props : List ((MazeUnit × Nat) × Nat)}
    (h : st.openSet.map Prod.snd = []) :
    astarLoopH maze gid fid t (fuel + 1) st props = (some [], props) := by
  simp only [astarLoopH, h]

theorem astarLoopH_succ_cons {maze : Maze} {gid fid : Nat} {t : MazeUnit} {fuel : Nat}
    {st : AStateH} {props : List ((MazeUnit × Nat) × Nat)}
    {u0 : MazeUnit} {vrest : List MazeUnit}
    (h : st.openSet.map Prod.snd = u0 :: vrest) :
    astarLoopH maze gid fid t (fuel + 1) st props =
      (if (pickCurrentH props fid u0 (u0 :: vrest)).i = t.i ∧
          (pickCurrentH props fid u0 (u0 :: vrest)).j = t.j then
        (some (buildPath st.fromMap (st.fromMap.length + 1)
          (pickCurrentH props fid u0 (u0 :: vrest))), props)
      else
        astarLoopH maze gid fid t fuel
          ((neighborsOf maze (pickCurrentH props fid u0 (u0 :: vrest))).foldl
            (updateNeighborH gid fid t (pickCurrentH props fid u0 (u0 :: vrest)))
            ({ st with
                openSet := objDelete st.openSet (pickCurrentH props fid u0 (u0 :: vrest)).id
                closedSet := objSet st.closedSet
                  (pickCurrentH props fid u0 (u0 :: vrest)).id
                  (pickCurrentH props fid u0 (u0 :: vrest)) }, props)).1
          ((neighborsOf maze (pickCurrentH props fid u0 (u0 :: vrest))).foldl
            (updateNeighborH gid fid t (pickCurrentH props fid u0 (u0 :: vrest)))
            ({ st with
                openSet := objDelete st.openSet (pickCurrentH props fid u0 (u0 :: vrest)).id
                closedSet := objSet st.closedSet
                  (pickCurrentH props fid u0 (u0 :: vrest)).id
                  (pickCurrentH props fid u0 (u0 :: vrest)) }, props)).2) := by
  simp only [astarLoopH, h]

theorem astarLoopH_transfer {maze : Maze} {gid fid : Nat} {t : MazeUnit}
    (hidinj : ∀ a ∈ cellsOf maze, ∀ b ∈ cellsOf maze, a.id = b.id → a = b)
    (hgf : gid ≠ fid) :
    ∀ (fuel : Nat) (stH : AStateH) (props : List ((MazeUnit × Nat) × Nat)) (st1 : AState),
      HeapRel maze gid fid stH props st1 →
      (astarLoopH maze gid fid t fuel stH props).1 = astarLoop maze t fuel st1 := by
  intro fuel
  induction fuel with
  | zero =>
    intro stH props st1 _
    rfl
  | succ fuel ih =>
    intro stH props st1 hrel
    cases hop : st1.openSet.map Prod.snd with
    | nil =>
      rw [astarLoopH_succ_nil (by rw [hrel.openEq, hop]), astarLoop_succ_nil hop]
    | cons u0 vrest =>
      rw [astarLoopH_succ_cons (by rw [hrel.openEq, hop]), astarLoop_succ_cons hop]
      have hallopen : ∀ v ∈ u0 :: vrest, v ∈ cellsOf maze := by
        intro v hv
        rw [← hop] at hv
        rcases List.mem_map.mp hv with ⟨p, hp, hpe⟩
        rw [← hpe]
        exact (hrel.openKeyed p hp).2
      have hpick : pickCurrentH props fid u0 (u0 :: vrest)
          = pickCurrent st1.fScore u0 (u0 :: vrest) :=
        pickH_transfer hrel.fLook (u0 :: vrest) u0 (hallopen u0 (by simp)) hallopen
      rw [hpick]
      have hcur : pickCurrent st1.fScore u0 (u0 :: vrest) ∈ cellsOf maze := by
        rcases List.mem_cons.mp (pickCurrent_mem st1.fScore (u0 :: vrest) u0) with h | h
        · rw [h]
          exact hallopen u0 (by simp)
        · exact hallopen _ h
      by_cases hT : (pickCurrent st1.fScore u0 (u0 :: vrest)).i = t.i ∧
          (pickCurrent st1.fScore u0 (u0 :: vrest)).j = t.j
      · rw [if_pos hT, if_pos hT]
        show some (buildPath stH.fromMap (stH.fromMap.length + 1) _) = _
        rw [hrel.fromEq]
      · rw [if_neg hT, if_neg hT]
        apply ih
        apply foldH_transfer hidinj hgf hcur _ (fun v hv => neighborsOf_mem_cells hv)
        refine ⟨?_, ?_, ?_, keyed_objDelete hrel.openKeyed, hrel.gLook, hrel.fLook⟩
        · show objSet stH.closedSet _ _ = objSet st1.closedSet _ _
          rw [hrel.closedEq]
        · show objDelete stH.openSet _ = objDelete st1.openSet _
          rw [hrel.openEq]
        · exact hrel.fromEq

theorem updateNeighborH_props {gid fid : Nat} {t cur : MazeUnit}
    {sh : AStateH × List ((MazeUnit × Nat) × Nat)} {n : MazeUnit}
    (c : MazeUnit) (k : Nat) (hkg : k ≠ gid) (hkf : k ≠ fid) :
    propGet (updateNeighborH gid fid t cur sh n).2 c k = propGet sh.2 c k := by
  by_cases hA : (objGet sh.1.closedSet n.id).isSome = true
  · rw [updateNeighborH_closed hA]
  · have hA1 : (objGet sh.1.closedSet n.id).isSome = false := by simpa using hA
    by_cases hB : geInf (infAdd (propGet sh.2 cur gid) (cost cur n))
        (propGet sh.2 n gid) = true
    · rw [updateNeighborH_skip hA1 hB]
    · rcases htv : infAdd (propGet sh.2 cur gid) (cost cur n) with _ | tv
      · exfalso
        apply hB
        rw [htv]
        rfl
      · have hB1 : geInf (some tv) (propGet sh.2 n gid) = false := by
          rw [htv] at hB
          simpa using hB
        rw [updateNeighborH_update hA1 htv hB1]
        show propGet (propSet (propSet sh.2 n gid tv) n fid (tv + cost n t)) c k = _
        rw [propGet_propSet_ne _ (fun he => hkf (congrArg Prod.snd he)),
            propGet_propSet_ne _ (fun he => hkg (congrArg Prod.snd he))]

theorem foldH_props {gid fid : Nat} {t cur : MazeUnit} :
    ∀ (ns : List MazeUnit) (sh : AStateH × List ((MazeUnit × Nat) × Nat))
      (c : MazeUnit) (k : Nat), k ≠ gid → k ≠ fid →
      propGet (ns.foldl (updateNeighborH gid fid t cur) sh).2 c k = propGet sh.2 c k := by
  intro ns
  induction ns with
  | nil =>
    intro sh c k _ _
    rfl
  | cons n rest ih =>
    intro sh c k hkg hkf
    show propGet (rest.foldl (updateNeighborH gid fid t cur)
      (updateNeighborH gid fid t cur sh n)).2 c k = _
    rw [ih _ c k hkg hkf, updateNeighborH_props c k hkg hkf]

theorem astarLoopH_props {maze : Maze} {gid fid : Nat} {t : MazeUnit} :
    ∀ (fuel : Nat) (st : AStateH) (props : List ((MazeUnit × Nat) × Nat))
      (c : MazeUnit) (k : Nat), k ≠ gid → k ≠ fid →
      propGet (astarLoopH maze gid fid t fuel st props).2 c k = propGet props c k := by
  intro fuel
  induction fuel with
  | zero =>
    intro st props c k _ _
    rfl
  | succ fuel ih =>
    intro st props c k hkg hkf
    cases hop : st.openSet.map Prod.snd with
    | nil =>
      rw [astarLoopH_succ_nil hop]
    | cons u0 vrest =>
      rw [astarLoopH_succ_cons hop]
      by_cases hT : (pickCurrentH props fid u0 (u0 :: vrest)).i = t.i ∧
          (pickCurrentH props fid u0 (u0 :: vrest)).j = t.j
      · rw [if_pos hT]
      · rw [if_neg hT]
        rw [ih _ _ c k hkg hkf, foldH_props _ _ c k hkg hkf]

theorem heapRel_init {maze : Maze} {s t : MazeUnit} {g : JSHeap}
    (hidinj : ∀ a ∈ cellsOf maze, ∀ b ∈ cellsOf maze, a.id = b.id → a = b)
    (hs : s ∈ cellsOf maze)
    (hfg : ∀ c ∈ cellsOf maze, propGet g.props c g.instanceCount = none)
    (hff : ∀ c ∈ cellsOf maze, propGet g.props c (g.instanceCount + 1) = none) :
    HeapRel maze g.instanceCount (g.instanceCount + 1)
      { closedSet := [], openSet := [(s.id, s)], fromMap := [] }
      (propSet (propSet g.props s g.instanceCount 0) s (g.instanceCount + 1) (cost s t))
      (initState s t) := by
  have hgf : g.instanceCount ≠ g.instanceCount + 1 := by omega
  refine ⟨rfl, rfl, rfl, ?_, ?_, ?_⟩
  · intro p hp
    have hp' : p ∈ [(s.id, s)] := hp
    have hpe : p = (s.id, s) := by simpa using hp'
    rw [hpe]
    exact ⟨rfl, hs⟩
  · intro c hc
    rw [propGet_propSet_ne _ (fun he => hgf (congrArg Prod.snd he))]
    show _ = objGet [(s.id, (0 : Nat))] c.id
    by_cases he : c = s
    · rw [he, propGet_propSet_self, objGet_cons]
      rw [if_pos rfl]
    · have hne : (c, g.instanceCount) ≠ (s, g.instanceCount) :=
        fun hp => he (congrArg Prod.fst hp)
      rw [propGet_propSet_ne _ hne, hfg c hc, objGet_cons]
      have hid : s.id ≠ c.id := fun hq => he (hidinj c hc s hs hq.symm)
      rw [if_neg hid]
      rfl
  · intro c hc
    show _ = objGet [(s.id, cost s t)] c.id
    by_cases he : c = s
    · rw [he, propGet_propSet_self, objGet_cons]
      rw [if_pos rfl]
    · have hne1 : (c, g.instanceCount + 1) ≠ (s, g.instanceCount + 1) :=
        fun hp => he (congrArg Prod.fst hp)
      have hne2 : (c, g.instanceCount + 1) ≠ (s, g.instanceCount) :=
        fun hp => hgf (congrArg Prod.snd hp).symm
      rw [propGet_propSet_ne _ hne1, propGet_propSet_ne _ hne2, hff c hc, objGet_cons]
      have hid : s.id ≠ c.id := fun hq => he (hidinj c hc s hs hq.symm)
      rw [if_neg hid]
      rfl

theorem getPathState_eq_getPath {maze : Maze} {s t : MazeUnit} {g : JSHeap}
    (hidinj : ∀ a ∈ cellsOf maze, ∀ b ∈ cellsOf maze, a.id = b.id → a = b)
    (hs : s ∈ cellsOf maze)
    (hfg : ∀ c ∈ cellsOf maze, propGet g.props c g.instanceCount = none)
    (hff : ∀ c ∈ cellsOf maze, propGet g.props c (g.instanceCount + 1) = none) :
    (getPathState maze s t g).1 = getPath maze s t := by
  have hmain : (astarLoopH maze g.instanceCount (g.instanceCount + 1) t
      (mazeSize maze + 2)
      { closedSet := [], openSet := [(s.id, s)], fromMap := [] }
      (propSet (propSet g.props s g.instanceCount 0) s (g.instanceCount + 1)
        (cost s t))).1
      = astarLoop maze t (mazeSize maze + 2) (initState s t) :=
    astarLoopH_transfer hidinj (by omega) (mazeSize maze + 2) _ _ _
      (heapRel_init hidinj hs hfg hff)
  show ((astarLoopH maze g.instanceCount (g.instanceCount + 1) t
      (mazeSize maze + 2)
      { closedSet := [], openSet := [(s.id, s)], fromMap := [] }
      (propSet (propSet g.props s g.instanceCount 0) s (g.instanceCount + 1)
        (cost s t))).1).getD []
    = (astarLoop maze t (mazeSize maze + 2) (initState s t)).getD []
  rw [hmain]

theorem getPathState_props {maze : Maze} {s t : MazeUnit} {g : JSHeap}
    (c : MazeUnit) (k : Nat) (hkg : k ≠ g.instanceCount) (hkf : k ≠ g.instanceCount + 1) :
    propGet (getPathState maze s t g).2.props c k = propGet g.props c k := by
  show propGet (astarLoopH maze g.instanceCount (g.instanceCount + 1) t
      (mazeSize maze + 2)
      { closedSet := [], openSet := [(s.id, s)], fromMap := [] }
      (propSet (propSet g.props s g.instanceCount 0) s (g.instanceCount + 1)
        (cost s t))).2 c k = propGet g.props c k
  rw [astarLoopH_props (mazeSize maze + 2) _ _ c k hkg hkf,
    propGet_propSet_ne _ (fun he => hkf (congrArg Prod.snd he)),
    propGet_propSet_ne _ (fun he => hkg (congrArg Prod.snd he))]

theorem getPathState_count {maze : Maze} {s t : MazeUnit} {g : JSHeap} :
    (getPathState maze s t g).2.instanceCount = g.instanceCount + 2 := rfl

/-- C4 counterexample: bookkeeping state DOES survive the call.  On the 2×1
maze, starting from a pristine heap (`instanceCount = 0`, no hidden
properties anywhere), after `getPath` returns the start cell carries the
hidden `weakmap0` gScore property (value `0`) that was not there before:
`MyWeakMap.set` wrote it onto the cell object and nothing removes it, and
the global `MyWeakMap.instanceCount` advanced from `0` to `2`. -/
theorem getPath_frame_counterexample :
    propGet (getPathState maze21 (mkCell 10 0 0 false) (mkCell 10 1 0 false)
        (JSHeap.mk 0 [])).2.props (mkCell 10 0 0 false) 0 = some 0 ∧
    propGet (JSHeap.mk 0 []).props (mkCell 10 0 0 false) 0 = none ∧
    (getPathState maze21 (mkCell 10 0 0 false) (mkCell 10 1 0 false)
        (JSHeap.mk 0 [])).2.instanceCount ≠ (JSHeap.mk 0 ([] : List ((MazeUnit × Nat) × Nat))).instanceCount := by
  refine ⟨by decide, rfl, by decide⟩

/-- C4 (amended): the declared cell fields and the grid are never written,
and the call-local `openSet`/`closedSet`/`from` are discarded, but the two
`MyWeakMap` score maps leave hidden `weakmap<n>`/`weakmap<n+1>` properties
on visited cells and advance the global instance counter by two; this
residue is confined to the two property names freshly allocated by the call
(every other hidden property is untouched), and the returned path is exactly
the pure, state-free search's result. -/
theorem getPath_frame_amended {maze : Maze} {s t : MazeUnit} {g : JSHeap}
    (hidinj : ∀ a ∈ cellsOf maze, ∀ b ∈ cellsOf maze, a.id = b.id → a = b)
    (hs : s ∈ cellsOf maze)
    (hfresh : ∀ c ∈ cellsOf maze, ∀ k, g.instanceCount ≤ k → propGet g.props c k = none) :
    (getPathState maze s t g).1 = getPath maze s t ∧
    (getPathState maze s t g).2.instanceCount = g.instanceCount + 2 ∧
    (∀ c k, k ≠ g.instanceCount → k ≠ g.instanceCount + 1 →
      propGet (getPathState maze s t g).2.props c k = propGet g.props c k) :=
  ⟨getPathState_eq_getPath hidinj hs (fun c hc => hfresh c hc _ le_rfl)
      (fun c hc => hfresh c hc _ (by omega)),
   getPathState_count,
   fun c k hkg hkf => getPathState_props c k hkg hkf⟩

set_option maxHeartbeats 1000000 in
theorem getPath_frame_amended_witness :
    (getPathState maze21 (mkCell 10 0 0 false) (mkCell 10 1 0 false) (JSHeap.mk 0 [])).1
        = getPath maze21 (mkCell 10 0 0 false) (mkCell 10 1 0 false) ∧
    (getPathState maze21 (mkCell 10 0 0 false) (mkCell 10 1 0 false)
        (JSHeap.mk 0 [])).2.instanceCount = 0 + 2 ∧
    (∀ c k, k ≠ 0 → k ≠ 0 + 1 →
      propGet (getPathState maze21 (mkCell 10 0 0 false) (mkCell 10 1 0 false)
          (JSHeap.mk 0 [])).2.props c k = propGet (JSHeap.mk 0 []).props c k) :=
  getPath_frame_amended (by decide) (by decide) (fun _ _ _ _ => rfl)

/-- C9: `getPath` is deterministic across invocations.  In the stateful
model a second identical call — run against the heap exactly as the first
call left it, with the counter advanced and the first call's hidden score
properties still attached to the cells — returns the same sequence: the two
fresh `MyWeakMap` names of the second call miss every leftover property, so
the linear minimum-`fScore` scan (first strictly smaller element wins, in
insertion order) revisits the same choices. -/
theorem getPath_deterministic {maze : Maze} {s t : MazeUnit} {g : JSHeap}
    (hidinj : ∀ a ∈ cellsOf maze, ∀ b ∈ cellsOf maze, a.id = b.id → a = b)
    (hs : s ∈ cellsOf maze)
    (hfresh : ∀ c ∈ cellsOf maze, ∀ k, g.instanceCount ≤ k → propGet g.props c k = none) :
    (getPathState maze s t ((getPathState maze s t g).2)).1
      = (getPathState maze s t g).1 := by
  have h1 : (getPathState maze s t g).1 = getPath maze s t :=
    getPathState_eq_getPath hidinj hs (fun c hc => hfresh c hc _ le_rfl)
      (fun c hc => hfresh c hc _ (by omega))
  have hfresh2 : ∀ c ∈ cellsOf maze, ∀ k,
      (getPathState maze s t g).2.instanceCount ≤ k →
      propGet (getPathState maze s t g).2.props c k = none := by
    intro c hc k hk
    rw [getPathState_count] at hk
    rw [getPathState_props c k (by omega) (by omega)]
    exact hfresh c hc k (by omega)
  have h2 : (getPathState maze s t ((getPathState maze s t g).2)).1
      = getPath maze s t :=
    getPathState_eq_getPath hidinj hs (fun c hc => hfresh2 c hc _ le_rfl)
      (fun c hc => hfresh2 c hc _ (by omega))
  rw [h1, h2]

set_option maxHeartbeats 1000000 in
theorem getPath_deterministic_witness :
    (getPathState maze21 (mkCell 10 0 0 false) (mkCell 10 1 0 false)
        ((getPathState maze21 (mkCell 10 0 0 false) (mkCell 10 1 0 false)
          (JSHeap.mk 0 [])).2)).1
      = (getPathState maze21 (mkCell 10 0 0 false) (mkCell 10 1 0 false)
          (JSHeap.mk 0 [])).1 :=
  getPath_deterministic (by decide) (by decide) (fun _ _ _ _ => rfl)
